import Mathlib

/-!
Verification of the Christofides pipeline in src/services/christofidesService.ts.

The TypeScript source works on JavaScript numbers.  After validation the
matrix never contains NaN, but it can contain `Infinity` / `-Infinity`
(the string "Infinity" parses to a non-NaN number), and the algorithm
compares against the `Infinity` sentinel, so the numeric model `Custo`
has four cases: NaN, -Infinity, a finite rational, +Infinity.  JS `<`
on numbers (false whenever an operand is NaN) is `Custo.blt`; an absent
array cell (`undefined`) behaves like NaN in comparisons, which is the
default used for out-of-range reads.  Machine floats are modelled by
rationals: every literal in the claims is small-integer valued, so no
rounding behaviour is observable.
-/

inductive Custo where
  | nan : Custo
  | neginf : Custo
  | fin : ℚ → Custo
  | inf : Custo
deriving DecidableEq, Repr

namespace Custo

/-- JS `<` on numbers: false when either side is NaN. -/
def blt : Custo → Custo → Bool
  | nan, _ => false
  | _, nan => false
  | neginf, neginf => false
  | neginf, _ => true
  | fin _, neginf => false
  | fin a, fin b => decide (a < b)
  | fin _, inf => true
  | inf, _ => false

/-- JS `peso > 0`. -/
def pos (c : Custo) : Bool := blt (fin 0) c

/-- JS `+` on numbers: NaN absorbs, Infinity + (-Infinity) = NaN. -/
def add : Custo → Custo → Custo
  | nan, _ => nan
  | _, nan => nan
  | inf, neginf => nan
  | neginf, inf => nan
  | inf, _ => inf
  | _, inf => inf
  | neginf, _ => neginf
  | _, neginf => neginf
  | fin a, fin b => fin (a + b)

end Custo

/-- src/types.ts `Aresta`: ordered pair of vertex ids plus a weight. -/
structure Aresta where
  de : ℕ
  para : ℕ
  peso : Custo
deriving DecidableEq, Repr

/-- src/types.ts `Grafo`.  A vertex carries only presentation data besides
its id, so vertices are modelled by their ids. -/
structure Grafo where
  vertices : List ℕ
  matrizAdjacencia : List (List Custo)
deriving DecidableEq, Repr

/-- Errors, one constructor per throw site of the pipeline; the names
follow the error taxonomy of the specification. -/
inductive Erro where
  | entradaMalformada : Erro
  | grafoNaoConexo : Erro
  | verticesSemPar : Erro
  | arestaInvalida : Erro
  | grafoVazio : Erro
deriving DecidableEq, Repr

instance {ε α : Type} [DecidableEq ε] [DecidableEq α] : DecidableEq (Except ε α) := fun x y =>
  match x, y with
  | .error a, .error b =>
    if h : a = b then isTrue (by rw [h]) else isFalse (fun hh => by cases hh; exact h rfl)
  | .ok a, .ok b =>
    if h : a = b then isTrue (by rw [h]) else isFalse (fun hh => by cases hh; exact h rfl)
  | .error _, .ok _ => isFalse (fun hh => by cases hh)
  | .ok _, .error _ => isFalse (fun hh => by cases hh)

/-- JS `matriz[i][j]`: an out-of-range read yields `undefined`, which
compares like NaN. -/
def matGet (m : List (List Custo)) (i j : ℕ) : Custo :=
  (m.getD i []).getD j Custo.nan

/-! ## Minimum spanning tree (`encontrarAGM`, lines 31-68) -/

structure EstadoAGM where
  pai : List (Option ℕ)
  custoMin : List Custo
  naAGM : List Bool
  arestasAGM : List Aresta
deriving DecidableEq, Repr

/-- The inner selection scan: first not-yet-included vertex of strictly
minimal `custoMin`, `none` playing the role of `u === -1`. -/
def selecionarMinimo (custoMin : List Custo) (naAGM : List Bool) (n : ℕ) : Option ℕ :=
  (List.range n).foldl
    (fun u v =>
      if naAGM.getD v false then u
      else
        match u with
        | none => some v
        | some w => if Custo.blt (custoMin.getD v Custo.nan) (custoMin.getD w Custo.nan) then some v else u)
    none

/-- The relaxation scan after vertex `u` joins the tree. -/
def relaxar (matriz : List (List Custo)) (n u : ℕ) (st : EstadoAGM) : EstadoAGM :=
  (List.range n).foldl
    (fun st v =>
      let peso := matGet matriz u v
      if peso.pos && !(st.naAGM.getD v false) && Custo.blt peso (st.custoMin.getD v Custo.nan) then
        { st with pai := st.pai.set v (some u), custoMin := st.custoMin.set v peso }
      else st)
    st

/-- Marking the selected vertex and pushing its parent edge (the body of
the outer loop between the disconnect check and the relaxation). -/
def incluirVertice (matriz : List (List Custo)) (u : ℕ) (st : EstadoAGM) : EstadoAGM :=
  let st1 : EstadoAGM := { st with naAGM := st.naAGM.set u true }
  match st1.pai.getD u none with
  | some p => { st1 with arestasAGM := st1.arestasAGM ++ [⟨p, u, matGet matriz u p⟩] }
  | none => st1

/-- One iteration of the outer Prim loop. -/
def agmPasso (matriz : List (List Custo)) (n : ℕ) (st : EstadoAGM) : Except Erro EstadoAGM :=
  match selecionarMinimo st.custoMin st.naAGM n with
  | none => .error .grafoNaoConexo
  | some u =>
    if st.custoMin.getD u Custo.nan = Custo.inf then .error .grafoNaoConexo
    else .ok (relaxar matriz n u (incluirVertice matriz u st))

def agmLoop (matriz : List (List Custo)) (n : ℕ) : ℕ → EstadoAGM → Except Erro EstadoAGM
  | 0, st => .ok st
  | k + 1, st =>
    match agmPasso matriz n st with
    | .error e => .error e
    | .ok st1 => agmLoop matriz n k st1

def estadoInicialAGM (n : ℕ) : EstadoAGM :=
  { pai := List.replicate n none
    custoMin := (List.replicate n Custo.inf).set 0 (Custo.fin 0)
    naAGM := List.replicate n false
    arestasAGM := [] }

def encontrarAGM (grafo : Grafo) : Except Erro (List Aresta) :=
  let n := grafo.vertices.length
  match agmLoop grafo.matrizAdjacencia n n (estadoInicialAGM n) with
  | .error e => .error e
  | .ok st => .ok st.arestasAGM

/-! ## Odd-degree vertices (`encontrarVerticesGrauImpar`, lines 70-77) -/

def incrementar (g : List ℕ) (i : ℕ) : List ℕ := g.set i (g.getD i 0 + 1)

/-- The degree table accumulated over the tree edges. -/
def grausDe (agm : List Aresta) (numVertices : ℕ) : List ℕ :=
  agm.foldl (fun g a => incrementar (incrementar g a.de) a.para)
    (List.replicate numVertices 0)

def encontrarVerticesGrauImpar (agm : List Aresta) (numVertices : ℕ) : List ℕ :=
  (List.range numVertices).filter (fun v => (grausDe agm numVertices).getD v 0 % 2 != 0)

/-! ## Greedy matching (`emparelhamentoPerfeitoCustoMinimo`, lines 79-106) -/

/-- The inner scan: first remaining vertex of strictly minimal cost
against `u`, starting from the `Infinity` sentinel. -/
def buscarMaisProximo (matriz : List (List Custo)) (u : ℕ) (resto : List ℕ) : Option ℕ × Custo :=
  resto.foldl
    (fun acc v => if Custo.blt (matGet matriz u v) acc.2 then (some v, matGet matriz u v) else acc)
    (none, Custo.inf)

/-- First-occurrence deduplication: the JS `Set` keeps the first insertion
of each element and iterates in insertion order. -/
def dedupPrimeiro (vistos : List ℕ) : List ℕ → List ℕ
  | [] => []
  | x :: xs => if x ∈ vistos then dedupPrimeiro vistos xs else x :: dedupPrimeiro (x :: vistos) xs

/-- The while loop over the remaining unmatched set.  The fuel argument
only bounds the iteration count; each iteration removes at least one
element, so `fuel = length` never runs out. -/
def emparelharLoop (matriz : List (List Custo)) : ℕ → List ℕ → List Aresta → Except Erro (List Aresta)
  | 0, _, acc => .ok acc
  | _ + 1, [], acc => .ok acc
  | fuel + 1, u :: resto, acc =>
    match buscarMaisProximo matriz u resto with
    | (some v, menor) => emparelharLoop matriz fuel (resto.erase v) (acc ++ [⟨u, v, menor⟩])
    | (none, _) => if resto.isEmpty then .ok acc else .error .verticesSemPar

def emparelhamentoPerfeitoCustoMinimo (verticesImpares : List ℕ) (matriz : List (List Custo)) :
    Except Erro (List Aresta) :=
  let fila := dedupPrimeiro [] verticesImpares
  emparelharLoop matriz fila.length fila []

/-! ## Eulerian circuit (`encontrarCicloEuleriano`, lines 108-136) -/

def montarAdj (multigrafo : List Aresta) (numVertices : ℕ) : List (List ℕ) :=
  multigrafo.foldl
    (fun adj a =>
      let adj1 := adj.set a.de ((adj.getD a.de []) ++ [a.para])
      adj1.set a.para ((adj1.getD a.para []) ++ [a.de]))
    (List.replicate numVertices [])

/-- The edge-consuming stack walk.  `vizinhos.pop()` takes the last
neighbour; `indexOf`/`splice` erases the first occurrence of the back
edge.  The fuel argument only bounds the iteration count: the measure
`2 * (remaining adjacency entries) + stack length` drops at every
iteration, so the supplied fuel never runs out. -/
def eulerLoop (fuel : ℕ) (adj : List (List ℕ)) (pilha ciclo : List ℕ) : List ℕ :=
  match fuel with
  | 0 => ciclo
  | fuel + 1 =>
    match pilha with
    | [] => ciclo
    | u :: resto =>
      let vizinhos := adj.getD u []
      if vizinhos.isEmpty then eulerLoop fuel adj resto (ciclo ++ [u])
      else
        let v := vizinhos.getLastD 0
        let adj1 := adj.set u vizinhos.dropLast
        let adj2 := adj1.set v ((adj1.getD v []).erase u)
        eulerLoop fuel adj2 (v :: u :: resto) ciclo

def medida (adj : List (List ℕ)) (pilha : List ℕ) : ℕ :=
  2 * (adj.map List.length).sum + pilha.length

def encontrarCicloEuleriano (multigrafo : List Aresta) (numVertices inicio : ℕ) : List ℕ :=
  let adj := montarAdj multigrafo numVertices
  (eulerLoop (medida adj [inicio]) adj [inicio] []).reverse

/-! ## Hamiltonian shortcut (`criarCicloHamiltoniano`, lines 138-162) -/

def custoCaminhoAux (matriz : List (List Custo)) : List ℕ → Custo → Except Erro Custo
  | [], acc => .ok acc
  | [_], acc => .ok acc
  | de :: para :: resto, acc =>
    match matriz.get? de with
    | none => .error .arestaInvalida
    | some linha =>
      match linha.get? para with
      | none => .error .arestaInvalida
      | some c => custoCaminhoAux matriz (para :: resto) (Custo.add acc c)

def criarCicloHamiltoniano (cicloEuleriano : List ℕ) (matriz : List (List Custo)) :
    Except Erro (List ℕ × Custo) :=
  let caminho := dedupPrimeiro [] cicloEuleriano
  let fechado :=
    match caminho.head? with
    | some h => caminho ++ [h]
    | none => caminho
  match custoCaminhoAux matriz fechado (Custo.fin 0) with
  | .error e => .error e
  | .ok c => .ok (fechado, c)

/-! ## The pipeline (`executeChristofidesAlgorithm`, lines 164-184) -/

structure Resultado where
  agm : List Aresta
  verticesGrauImpar : List ℕ
  emparelhamento : List Aresta
  cicloEuleriano : List ℕ
  cicloHamiltoniano : List ℕ × Custo
deriving DecidableEq, Repr

def executeChristofidesAlgorithm (grafo : Grafo) : Except Erro Resultado :=
  if grafo.vertices.length = 0 then .error .grafoVazio
  else
    match encontrarAGM grafo with
    | .error e => .error e
    | .ok agm =>
      let verticesGrauImpar := encontrarVerticesGrauImpar agm grafo.vertices.length
      match emparelhamentoPerfeitoCustoMinimo verticesGrauImpar grafo.matrizAdjacencia with
      | .error e => .error e
      | .ok emparelhamento =>
        let multigrafo := agm ++ emparelhamento
        let inicioEuleriano := grafo.vertices.headD 0
        let cicloEuleriano :=
          encontrarCicloEuleriano multigrafo grafo.vertices.length inicioEuleriano
        match criarCicloHamiltoniano cicloEuleriano grafo.matrizAdjacencia with
        | .error e => .error e
        | .ok cicloHamiltoniano =>
          .ok ⟨agm, verticesGrauImpar, emparelhamento, cicloEuleriano, cicloHamiltoniano⟩

/-! ## Shared helper notions for the statements -/

/-- Total weight of an edge list, accumulated the way the source sums costs. -/
def somaPesos (arestas : List Aresta) : Custo :=
  arestas.foldl (fun acc a => Custo.add acc a.peso) (Custo.fin 0)

/-! ## Degree-table lemmas (towards C7) -/

lemma length_incrementar (g : List ℕ) (i : ℕ) : (incrementar g i).length = g.length := by
  simp [incrementar]

lemma incrementar_cons_succ (a : ℕ) (t : List ℕ) (j : ℕ) :
    incrementar (a :: t) (j + 1) = a :: incrementar t j := by
  simp [incrementar]

lemma sum_incrementar (g : List ℕ) (i : ℕ) (h : i < g.length) :
    (incrementar g i).sum = g.sum + 1 := by
  induction g generalizing i with
  | nil => simp at h
  | cons a t ih =>
    cases i with
    | zero => simp [incrementar]; omega
    | succ j =>
      have hj : j < t.length := by simpa using h
      rw [incrementar_cons_succ, List.sum_cons, List.sum_cons, ih j hj]
      omega

lemma grausDe_length (agm : List Aresta) (n : ℕ) : (grausDe agm n).length = n := by
  suffices h : ∀ (l : List Aresta) (g : List ℕ),
      (l.foldl (fun g a => incrementar (incrementar g a.de) a.para) g).length = g.length by
    simpa [grausDe] using h agm (List.replicate n 0)
  intro l
  induction l with
  | nil => intro g; rfl
  | cons a t ih => intro g; rw [List.foldl_cons, ih, length_incrementar, length_incrementar]

lemma grausDe_sum (agm : List Aresta) (n : ℕ) (h : ∀ e ∈ agm, e.de < n ∧ e.para < n) :
    (grausDe agm n).sum = 2 * agm.length := by
  suffices hgen : ∀ (l : List Aresta) (g : List ℕ), g.length = n →
      (∀ e ∈ l, e.de < n ∧ e.para < n) →
      (l.foldl (fun g a => incrementar (incrementar g a.de) a.para) g).sum
        = g.sum + 2 * l.length by
    have := hgen agm (List.replicate n 0) (by simp) h
    simpa [grausDe] using this
  intro l
  induction l with
  | nil => intro g _ _; simp
  | cons a t ih =>
    intro g hg hb
    have hde : a.de < g.length := hg ▸ (hb a (by simp)).1
    have hpara : a.para < (incrementar g a.de).length := by
      rw [length_incrementar, hg]; exact (hb a (by simp)).2
    rw [List.foldl_cons,
      ih _ (by rw [length_incrementar, length_incrementar, hg])
        (fun e he => hb e (by simp [he])),
      sum_incrementar _ _ hpara, sum_incrementar _ _ hde, List.length_cons]
    ring

lemma countP_range_getD (l : List ℕ) (p : ℕ → Bool) :
    (List.range l.length).countP (fun v => p (l.getD v 0)) = l.countP p := by
  induction l with
  | nil => simp
  | cons a t ih =>
    rw [List.length_cons, List.range_succ_eq_map, List.countP_cons, List.countP_map]
    have hfun : ((fun v => p ((a :: t).getD v 0)) ∘ Nat.succ) = fun v => p (t.getD v 0) := by
      funext v; simp
    rw [hfun, ih, List.countP_cons]
    simp [Nat.add_comm]

lemma countP_odd_mod_two (l : List ℕ) :
    l.countP (fun x => x % 2 != 0) % 2 = l.sum % 2 := by
  induction l with
  | nil => rfl
  | cons a t ih =>
    rw [List.countP_cons, List.sum_cons]
    rcases Nat.mod_two_eq_zero_or_one a with hm | hm
    · have hb : (a % 2 != 0) = false := by simp [hm]
      simp only [hb]
      simp only [Bool.false_eq_true, if_false]
      omega
    · have hb : (a % 2 != 0) = true := by simp [hm]
      simp only [hb, if_true]
      omega

/-- C7: for every list of tree edges over vertex count `n` (tree edges have
both endpoints below `n`), the odd-degree vertex list has even length. -/
theorem verticesGrauImpar_length_even (agm : List Aresta) (n : ℕ)
    (h : ∀ e ∈ agm, e.de < n ∧ e.para < n) :
    Even (encontrarVerticesGrauImpar agm n).length := by
  have h1 := countP_range_getD (grausDe agm n) (fun x => x % 2 != 0)
  rw [grausDe_length agm n] at h1
  rw [encontrarVerticesGrauImpar, ← List.countP_eq_length_filter, h1]
  have hmod := countP_odd_mod_two (grausDe agm n)
  rw [grausDe_sum agm n h] at hmod
  rw [Nat.even_iff]
  omega

/-! ## C2: the concrete 4-vertex scenario -/

def grafoC2 : Grafo :=
  ⟨[0, 1, 2, 3],
   [[Custo.fin 0, Custo.fin 1, Custo.fin 2, Custo.fin 3],
    [Custo.fin 1, Custo.fin 0, Custo.fin 4, Custo.fin 5],
    [Custo.fin 2, Custo.fin 4, Custo.fin 0, Custo.fin 6],
    [Custo.fin 3, Custo.fin 5, Custo.fin 6, Custo.fin 0]]⟩

def arvoreC2 : List Aresta :=
  [⟨0, 1, Custo.fin 1⟩, ⟨0, 2, Custo.fin 2⟩, ⟨0, 3, Custo.fin 3⟩]

/-- C7 witness: the even-length conclusion at the concrete C2 tree. -/
theorem verticesGrauImpar_length_even_witness :
    Even (encontrarVerticesGrauImpar arvoreC2 4).length :=
  verticesGrauImpar_length_even arvoreC2 4 (by decide)

/-- C2 counterexample: on the spec's concrete 4-vertex scenario the
spanning tree is the star at vertex 0, which has four odd-degree
vertices (not two) and a two-edge matching (not one). -/
theorem cenarioC2_counterexample :
    encontrarAGM grafoC2 = .ok arvoreC2 ∧
    (encontrarVerticesGrauImpar arvoreC2 4).length ≠ 2 ∧
    emparelhamentoPerfeitoCustoMinimo (encontrarVerticesGrauImpar arvoreC2 4)
        grafoC2.matrizAdjacencia ≠ .ok [⟨0, 1, Custo.fin 1⟩] ∧
    ¬ ∃ e : Aresta, emparelhamentoPerfeitoCustoMinimo (encontrarVerticesGrauImpar arvoreC2 4)
        grafoC2.matrizAdjacencia = .ok [e] := by
  refine ⟨by decide, by decide, by decide, ?_⟩
  rintro ⟨e, he⟩
  have : (emparelhamentoPerfeitoCustoMinimo (encontrarVerticesGrauImpar arvoreC2 4)
      grafoC2.matrizAdjacencia) = .ok [⟨0, 1, Custo.fin 1⟩, ⟨2, 3, Custo.fin 6⟩] := by decide
  rw [this] at he
  cases he

/-- C2 amended: the tree total weight is 6, but all four vertices have odd
tree-degree and the greedy matching has two edges. -/
theorem cenarioC2_amended :
    encontrarAGM grafoC2 = .ok arvoreC2 ∧
    somaPesos arvoreC2 = Custo.fin 6 ∧
    encontrarVerticesGrauImpar arvoreC2 4 = [0, 1, 2, 3] ∧
    emparelhamentoPerfeitoCustoMinimo (encontrarVerticesGrauImpar arvoreC2 4)
        grafoC2.matrizAdjacencia = .ok [⟨0, 1, Custo.fin 1⟩, ⟨2, 3, Custo.fin 6⟩] := by
  refine ⟨by decide, ?_, by decide, by decide⟩
  show somaPesos arvoreC2 = Custo.fin 6
  norm_num [somaPesos, arvoreC2, Custo.add]

/-! ## Order lemmas for the JS comparison -/

lemma Custo.blt_trans {a b c : Custo} (h1 : Custo.blt a b = true) (h2 : Custo.blt b c = true) :
    Custo.blt a c = true := by
  cases a <;> cases b <;> cases c <;> simp_all [Custo.blt]
  exact lt_trans h1 h2

lemma Custo.pos_blt_fin {c d : Custo} (hp : c.pos = true) (hlt : Custo.blt c d = true)
    (hd : d = Custo.inf ∨ ∃ q, d = Custo.fin q) : ∃ q, c = Custo.fin q ∧ 0 < q := by
  rcases hd with h | ⟨q, h⟩ <;> subst h <;>
    cases c <;> simp_all [Custo.pos, Custo.blt]

lemma Custo.fin_blt_inf (q : ℚ) : Custo.blt (Custo.fin q) Custo.inf = true := rfl

/-! ## Counting lemmas for Boolean inclusion lists -/

lemma count_true_set_true (l : List Bool) (u : ℕ) (h : l.getD u false = false) (hu : u < l.length) :
    (l.set u true).count true = l.count true + 1 := by
  induction l generalizing u with
  | nil => simp at hu
  | cons a t ih =>
    cases u with
    | zero =>
      simp only [List.getD_cons_zero] at h
      subst h
      simp [List.count_cons]
    | succ j =>
      have hj : j < t.length := by simpa using hu
      simp only [List.getD_cons_succ] at h
      simp only [List.set_cons_succ, List.count_cons, ih j h hj]
      omega

lemma exists_false_of_count_lt (l : List Bool) (h : l.count true < l.length) :
    ∃ v, v < l.length ∧ l.getD v false = false := by
  induction l with
  | nil => simp at h
  | cons a t ih =>
    cases a with
    | false => exact ⟨0, by simp⟩
    | true =>
      simp [List.count_cons, List.length_cons] at h
      have ht : t.count true < t.length := by omega
      obtain ⟨v, hv, hfalse⟩ := ih ht
      exact ⟨v + 1, by simpa using hv, by simpa using hfalse⟩

lemma all_true_of_count_eq (l : List Bool) (h : l.count true = l.length) :
    ∀ v, v < l.length → l.getD v false = true := by
  intro v hv
  by_contra hfalse
  have h1 : l.getD v false = false := by
    cases hgd : l.getD v false
    · rfl
    · exact absurd hgd hfalse
  have h2 : (l.set v true).count true = l.count true + 1 := count_true_set_true l v h1 hv
  have h3 : (l.set v true).count true ≤ (l.set v true).length := List.count_le_length _ _
  rw [List.length_set] at h3
  omega

/-! ## Reachability notions -/

/-- A single usable step for the Prim relaxation: the matrix entry read
from `a` to `b` is finite and strictly positive. -/
def PassoPosM (matriz : List (List Custo)) (a b : ℕ) : Prop :=
  ∃ q : ℚ, matGet matriz a b = Custo.fin q ∧ 0 < q

/-- Vertices connected through strictly positive finite cost entries
(directed, following the direction the relaxation reads). -/
inductive AlcancavelPos (matriz : List (List Custo)) : ℕ → ℕ → Prop where
  | refl (v : ℕ) : AlcancavelPos matriz v v
  | passo {a b c : ℕ} : AlcancavelPos matriz a b → PassoPosM matriz b c → AlcancavelPos matriz a c

/-- Connectivity of an undirected edge list, as used by the spanning tree. -/
inductive Ligado (arestas : List Aresta) : ℕ → ℕ → Prop where
  | refl (v : ℕ) : Ligado arestas v v
  | passo {a b c : ℕ} : Ligado arestas a b →
      (∃ e ∈ arestas, (e.de = b ∧ e.para = c) ∨ (e.de = c ∧ e.para = b)) → Ligado arestas a c

lemma Ligado.mono {arestas arestas2 : List Aresta} (hsub : ∀ e ∈ arestas, e ∈ arestas2)
    {a b : ℕ} (h : Ligado arestas a b) : Ligado arestas2 a b := by
  induction h with
  | refl => exact .refl _
  | passo _ he ih =>
    obtain ⟨e, hmem, hor⟩ := he
    exact .passo ih ⟨e, hsub e hmem, hor⟩

/-- A frontier edge exists on any positive-finite path from an included
vertex to an excluded one. -/
lemma fronteira {matriz : List (List Custo)} {P : ℕ → Bool} :
    ∀ {r w : ℕ}, AlcancavelPos matriz r w → P r = true → P w = false →
      ∃ a b, P a = true ∧ P b = false ∧ PassoPosM matriz a b := by
  intro r w h
  induction h with
  | refl =>
    intro hr hw
    rw [hr] at hw
    cases hw
  | @passo b c hab hbc ih =>
    intro hr hw
    cases hb : P b with
    | true => exact ⟨b, c, hb, hw, hbc⟩
    | false => exact ih hr hb

/-! ## State accessors for the Prim loop -/

def cmDe (st : EstadoAGM) (v : ℕ) : Custo := st.custoMin.getD v Custo.nan
def paiDe (st : EstadoAGM) (v : ℕ) : Option ℕ := st.pai.getD v none
def naDe (st : EstadoAGM) (v : ℕ) : Bool := st.naAGM.getD v false

lemma Custo.blt_irrefl (a : Custo) : Custo.blt a a = false := by
  cases a <;> simp [Custo.blt]

lemma Custo.blt_asymm {a b : Custo} (h : Custo.blt a b = true) : Custo.blt b a = false := by
  cases hba : Custo.blt b a
  · rfl
  · have := Custo.blt_trans h hba
    rw [Custo.blt_irrefl] at this
    cases this

/-! ## Elementary getD lemmas -/

lemma getD_set_self {α : Type} (l : List α) (i : ℕ) (a d : α) (h : i < l.length) :
    (l.set i a).getD i d = a := by
  induction l generalizing i with
  | nil => simp at h
  | cons x t ih =>
    cases i with
    | zero => rfl
    | succ j => exact ih j (by simpa using h)

lemma getD_set_other {α : Type} (l : List α) (i j : ℕ) (a d : α) (h : i ≠ j) :
    (l.set i a).getD j d = l.getD j d := by
  induction l generalizing i j with
  | nil => rfl
  | cons x t ih =>
    cases i with
    | zero =>
      cases j with
      | zero => exact absurd rfl h
      | succ k => rfl
    | succ i2 =>
      cases j with
      | zero => rfl
      | succ k => exact ih i2 k (fun hh => h (by rw [hh]))

lemma getD_replicate {α : Type} (n i : ℕ) (a d : α) :
    (List.replicate n a).getD i d = if i < n then a else d := by
  induction n generalizing i with
  | zero => simp
  | succ m ih =>
    cases i with
    | zero => simp
    | succ j =>
      rw [List.replicate_succ, List.getD_cons_succ, ih j]
      by_cases h : j < m
      · rw [if_pos h, if_pos (by omega)]
      · rw [if_neg h, if_neg (by omega)]

/-! ## The selection scan, named step and its properties -/

def selPasso (custoMin : List Custo) (naAGM : List Bool) (u : Option ℕ) (v : ℕ) : Option ℕ :=
  if naAGM.getD v false then u
  else
    match u with
    | none => some v
    | some w => if Custo.blt (custoMin.getD v Custo.nan) (custoMin.getD w Custo.nan) then some v else u

lemma selecionarMinimo_eq_foldl (custoMin : List Custo) (naAGM : List Bool) (n : ℕ) :
    selecionarMinimo custoMin naAGM n = (List.range n).foldl (selPasso custoMin naAGM) none := rfl

lemma selPasso_incluido {cm : List Custo} {na : List Bool} {o : Option ℕ} {v : ℕ}
    (hv : na.getD v false = true) : selPasso cm na o v = o := by
  unfold selPasso
  rw [hv]
  simp

lemma selPasso_nenhum {cm : List Custo} {na : List Bool} {v : ℕ}
    (hv : na.getD v false = false) : selPasso cm na none v = some v := by
  unfold selPasso
  rw [hv]
  simp

lemma selPasso_troca {cm : List Custo} {na : List Bool} {w v : ℕ}
    (hv : na.getD v false = false)
    (hb : Custo.blt (cm.getD v Custo.nan) (cm.getD w Custo.nan) = true) :
    selPasso cm na (some w) v = some v := by
  unfold selPasso
  rw [hv]
  show (if Custo.blt (cm.getD v Custo.nan) (cm.getD w Custo.nan) = true then some v
    else some w) = some v
  rw [hb]
  simp

lemma selPasso_mantem {cm : List Custo} {na : List Bool} {w v : ℕ}
    (hv : na.getD v false = false)
    (hb : Custo.blt (cm.getD v Custo.nan) (cm.getD w Custo.nan) = false) :
    selPasso cm na (some w) v = some w := by
  unfold selPasso
  rw [hv]
  show (if Custo.blt (cm.getD v Custo.nan) (cm.getD w Custo.nan) = true then some v
    else some w) = some w
  rw [hb]
  simp

lemma selFold_sound (cm : List Custo) (na : List Bool) :
    ∀ (l : List ℕ) (o : Option ℕ) (u : ℕ),
      l.foldl (selPasso cm na) o = some u →
      o = some u ∨ (u ∈ l ∧ na.getD u false = false) := by
  intro l
  induction l with
  | nil => intro o u h; exact Or.inl h
  | cons v t ih =>
    intro o u h
    rw [List.foldl_cons] at h
    cases hv : na.getD v false with
    | true =>
      rw [selPasso_incluido hv] at h
      rcases ih _ u h with h1 | ⟨hmem, hna⟩
      · exact Or.inl h1
      · exact Or.inr ⟨by simp [hmem], hna⟩
    | false =>
      cases o with
      | none =>
        rw [selPasso_nenhum hv] at h
        rcases ih _ u h with h1 | ⟨hmem, hna⟩
        · injection h1 with h2
          subst h2
          exact Or.inr ⟨by simp, hv⟩
        · exact Or.inr ⟨by simp [hmem], hna⟩
      | some w =>
        cases hb : Custo.blt (cm.getD v Custo.nan) (cm.getD w Custo.nan) with
        | true =>
          rw [selPasso_troca hv hb] at h
          rcases ih _ u h with h1 | ⟨hmem, hna⟩
          · injection h1 with h2
            subst h2
            exact Or.inr ⟨by simp, hv⟩
          · exact Or.inr ⟨by simp [hmem], hna⟩
        | false =>
          rw [selPasso_mantem hv hb] at h
          rcases ih _ u h with h1 | ⟨hmem, hna⟩
          · exact Or.inl h1
          · exact Or.inr ⟨by simp [hmem], hna⟩

lemma selFold_none (cm : List Custo) (na : List Bool) :
    ∀ (l : List ℕ) (o : Option ℕ),
      l.foldl (selPasso cm na) o = none →
      o = none ∧ ∀ v ∈ l, na.getD v false = true := by
  intro l
  induction l with
  | nil => intro o h; exact ⟨h, by simp⟩
  | cons v t ih =>
    intro o h
    rw [List.foldl_cons] at h
    cases hv : na.getD v false with
    | true =>
      rw [selPasso_incluido hv] at h
      obtain ⟨ho, hall⟩ := ih _ h
      refine ⟨ho, fun w hw => ?_⟩
      rcases List.mem_cons.mp hw with h1 | h1
      · rw [h1]; exact hv
      · exact hall w h1
    | false =>
      exfalso
      cases o with
      | none =>
        rw [selPasso_nenhum hv] at h
        exact Option.noConfusion (ih _ h).1
      | some w =>
        cases hb : Custo.blt (cm.getD v Custo.nan) (cm.getD w Custo.nan) with
        | true =>
          rw [selPasso_troca hv hb] at h
          exact Option.noConfusion (ih _ h).1
        | false =>
          rw [selPasso_mantem hv hb] at h
          exact Option.noConfusion (ih _ h).1

lemma selFold_dec (cm : List Custo) (na : List Bool) :
    ∀ (l : List ℕ) (w u : ℕ),
      l.foldl (selPasso cm na) (some w) = some u →
      u = w ∨ Custo.blt (cm.getD u Custo.nan) (cm.getD w Custo.nan) = true := by
  intro l
  induction l with
  | nil =>
    intro w u h
    simp only [List.foldl_nil, Option.some.injEq] at h
    exact Or.inl h.symm
  | cons v t ih =>
    intro w u h
    rw [List.foldl_cons] at h
    cases hv : na.getD v false with
    | true =>
      rw [selPasso_incluido hv] at h
      exact ih w u h
    | false =>
      cases hb : Custo.blt (cm.getD v Custo.nan) (cm.getD w Custo.nan) with
      | true =>
        rw [selPasso_troca hv hb] at h
        rcases ih v u h with h1 | h1
        · exact Or.inr (h1 ▸ hb)
        · exact Or.inr (Custo.blt_trans h1 hb)
      | false =>
        rw [selPasso_mantem hv hb] at h
        exact ih w u h

lemma selFold_min (cm : List Custo) (na : List Bool) :
    ∀ (l : List ℕ) (o : Option ℕ) (u : ℕ),
      l.foldl (selPasso cm na) o = some u →
      ∀ v ∈ l, na.getD v false = false →
        Custo.blt (cm.getD v Custo.nan) (cm.getD u Custo.nan) = false := by
  intro l
  induction l with
  | nil => intro o u _ v hv; simp at hv
  | cons v0 t ih =>
    intro o u h v hv hna
    rw [List.foldl_cons] at h
    rcases List.mem_cons.mp hv with hveq | hvt
    · subst hveq
      cases o with
      | none =>
        rw [selPasso_nenhum hna] at h
        rcases selFold_dec cm na t v u h with h1 | h1
        · rw [h1]; exact Custo.blt_irrefl _
        · exact Custo.blt_asymm h1
      | some w =>
        cases hb : Custo.blt (cm.getD v Custo.nan) (cm.getD w Custo.nan) with
        | true =>
          rw [selPasso_troca hna hb] at h
          rcases selFold_dec cm na t v u h with h1 | h1
          · rw [h1]; exact Custo.blt_irrefl _
          · exact Custo.blt_asymm h1
        | false =>
          rw [selPasso_mantem hna hb] at h
          rcases selFold_dec cm na t w u h with h1 | h1
          · rw [h1]; exact hb
          · cases hvu : Custo.blt (cm.getD v Custo.nan) (cm.getD u Custo.nan)
            · rfl
            · have h2 := Custo.blt_trans hvu h1
              rw [hb] at h2
              cases h2
    · exact ih _ u h v hvt hna

lemma selFold_keep (cm : List Custo) (na : List Bool) :
    ∀ (l : List ℕ) (u : ℕ),
      (∀ v ∈ l, Custo.blt (cm.getD v Custo.nan) (cm.getD u Custo.nan) = false) →
      l.foldl (selPasso cm na) (some u) = some u := by
  intro l
  induction l with
  | nil => intro u _; rfl
  | cons v t ih =>
    intro u hall
    rw [List.foldl_cons]
    have hstep : selPasso cm na (some u) v = some u := by
      cases hv : na.getD v false with
      | true => exact selPasso_incluido hv
      | false => exact selPasso_mantem hv (hall v (by simp))
    rw [hstep]
    exact ih u (fun w hw => hall w (by simp [hw]))

/-! ## The relaxation scan, named step and its properties -/

def condRelax (matriz : List (List Custo)) (u : ℕ) (st : EstadoAGM) (v : ℕ) : Bool :=
  (matGet matriz u v).pos && !(st.naAGM.getD v false) &&
    Custo.blt (matGet matriz u v) (st.custoMin.getD v Custo.nan)

def relaxPasso (matriz : List (List Custo)) (u : ℕ) (st : EstadoAGM) (v : ℕ) : EstadoAGM :=
  if condRelax matriz u st v then
    { st with pai := st.pai.set v (some u), custoMin := st.custoMin.set v (matGet matriz u v) }
  else st

lemma relaxar_eq_foldl (matriz : List (List Custo)) (n u : ℕ) (st : EstadoAGM) :
    relaxar matriz n u st = (List.range n).foldl (relaxPasso matriz u) st := rfl

lemma relaxPasso_naAGM (m : List (List Custo)) (u : ℕ) (st : EstadoAGM) (v : ℕ) :
    (relaxPasso m u st v).naAGM = st.naAGM := by
  unfold relaxPasso
  split <;> rfl

lemma relaxPasso_arestas (m : List (List Custo)) (u : ℕ) (st : EstadoAGM) (v : ℕ) :
    (relaxPasso m u st v).arestasAGM = st.arestasAGM := by
  unfold relaxPasso
  split <;> rfl

lemma relaxPasso_len_pai (m : List (List Custo)) (u : ℕ) (st : EstadoAGM) (v : ℕ) :
    (relaxPasso m u st v).pai.length = st.pai.length := by
  unfold relaxPasso
  split <;> simp

lemma relaxPasso_len_cm (m : List (List Custo)) (u : ℕ) (st : EstadoAGM) (v : ℕ) :
    (relaxPasso m u st v).custoMin.length = st.custoMin.length := by
  unfold relaxPasso
  split <;> simp

lemma relaxPasso_outro (m : List (List Custo)) (u : ℕ) (st : EstadoAGM) (v w : ℕ) (h : w ≠ v) :
    paiDe (relaxPasso m u st v) w = paiDe st w ∧ cmDe (relaxPasso m u st v) w = cmDe st w := by
  unfold relaxPasso
  split
  · exact ⟨getD_set_other _ _ _ _ _ (fun hh => h hh.symm),
      getD_set_other _ _ _ _ _ (fun hh => h hh.symm)⟩
  · exact ⟨rfl, rfl⟩

lemma relaxPasso_em (m : List (List Custo)) (u : ℕ) (st : EstadoAGM) (v : ℕ)
    (hp : v < st.pai.length) (hc : v < st.custoMin.length) :
    (condRelax m u st v = true →
      paiDe (relaxPasso m u st v) v = some u ∧ cmDe (relaxPasso m u st v) v = matGet m u v) ∧
    (condRelax m u st v = false →
      paiDe (relaxPasso m u st v) v = paiDe st v ∧ cmDe (relaxPasso m u st v) v = cmDe st v) := by
  constructor
  · intro hcond
    unfold relaxPasso
    rw [if_pos hcond]
    exact ⟨getD_set_self _ _ _ _ hp, getD_set_self _ _ _ _ hc⟩
  · intro hcond
    unfold relaxPasso
    rw [if_neg (by simp [hcond])]
    exact ⟨rfl, rfl⟩

lemma condRelax_congr (m : List (List Custo)) (u : ℕ) {st st2 : EstadoAGM} (v : ℕ)
    (hna : st2.naAGM.getD v false = st.naAGM.getD v false)
    (hcm : cmDe st2 v = cmDe st v) :
    condRelax m u st2 v = condRelax m u st v := by
  unfold condRelax
  rw [hna]
  unfold cmDe at hcm
  rw [hcm]

lemma relaxFold_naAGM (m : List (List Custo)) (u : ℕ) :
    ∀ (l : List ℕ) (st : EstadoAGM), (l.foldl (relaxPasso m u) st).naAGM = st.naAGM := by
  intro l
  induction l with
  | nil => intro st; rfl
  | cons v t ih => intro st; rw [List.foldl_cons, ih, relaxPasso_naAGM]

lemma relaxFold_arestas (m : List (List Custo)) (u : ℕ) :
    ∀ (l : List ℕ) (st : EstadoAGM), (l.foldl (relaxPasso m u) st).arestasAGM = st.arestasAGM := by
  intro l
  induction l with
  | nil => intro st; rfl
  | cons v t ih => intro st; rw [List.foldl_cons, ih, relaxPasso_arestas]

lemma relaxFold_len_pai (m : List (List Custo)) (u : ℕ) :
    ∀ (l : List ℕ) (st : EstadoAGM), (l.foldl (relaxPasso m u) st).pai.length = st.pai.length := by
  intro l
  induction l with
  | nil => intro st; rfl
  | cons v t ih => intro st; rw [List.foldl_cons, ih, relaxPasso_len_pai]

lemma relaxFold_len_cm (m : List (List Custo)) (u : ℕ) :
    ∀ (l : List ℕ) (st : EstadoAGM),
      (l.foldl (relaxPasso m u) st).custoMin.length = st.custoMin.length := by
  intro l
  induction l with
  | nil => intro st; rfl
  | cons v t ih => intro st; rw [List.foldl_cons, ih, relaxPasso_len_cm]

lemma relaxFold_fora (m : List (List Custo)) (u : ℕ) :
    ∀ (l : List ℕ) (st : EstadoAGM) (v : ℕ), v ∉ l →
      paiDe (l.foldl (relaxPasso m u) st) v = paiDe st v ∧
      cmDe (l.foldl (relaxPasso m u) st) v = cmDe st v := by
  intro l
  induction l with
  | nil => intro st v _; exact ⟨rfl, rfl⟩
  | cons w t ih =>
    intro st v hv
    rw [List.foldl_cons]
    have hvw : v ≠ w := fun h => hv (by simp [h])
    have hvt : v ∉ t := fun h => hv (by simp [h])
    obtain ⟨h1, h2⟩ := ih (relaxPasso m u st w) v hvt
    obtain ⟨h3, h4⟩ := relaxPasso_outro m u st w v hvw
    exact ⟨h1.trans h3, h2.trans h4⟩

lemma relaxFold_em (m : List (List Custo)) (u : ℕ) :
    ∀ (l : List ℕ) (st : EstadoAGM) (v : ℕ), l.Nodup → v ∈ l →
      v < st.pai.length → v < st.custoMin.length →
      (condRelax m u st v = true →
        paiDe (l.foldl (relaxPasso m u) st) v = some u ∧
        cmDe (l.foldl (relaxPasso m u) st) v = matGet m u v) ∧
      (condRelax m u st v = false →
        paiDe (l.foldl (relaxPasso m u) st) v = paiDe st v ∧
        cmDe (l.foldl (relaxPasso m u) st) v = cmDe st v) := by
  intro l
  induction l with
  | nil => intro st v _ hv; simp at hv
  | cons w t ih =>
    intro st v hnd hv hp hc
    have hwt : w ∉ t := (List.nodup_cons.mp hnd).1
    have htnd : t.Nodup := (List.nodup_cons.mp hnd).2
    rw [List.foldl_cons]
    rcases List.mem_cons.mp hv with hveq | hvt
    · subst hveq
      obtain ⟨hfora1, hfora2⟩ := relaxFold_fora m u t (relaxPasso m u st v) v hwt
      obtain ⟨hsim, hnao⟩ := relaxPasso_em m u st v hp hc
      constructor
      · intro hcond
        obtain ⟨e1, e2⟩ := hsim hcond
        exact ⟨hfora1.trans e1, hfora2.trans e2⟩
      · intro hcond
        obtain ⟨e1, e2⟩ := hnao hcond
        exact ⟨hfora1.trans e1, hfora2.trans e2⟩
    · have hvw : v ≠ w := fun h => hwt (h ▸ hvt)
      obtain ⟨h3, h4⟩ := relaxPasso_outro m u st w v hvw
      have hna : (relaxPasso m u st w).naAGM.getD v false = st.naAGM.getD v false := by
        rw [relaxPasso_naAGM]
      have hcond_eq := condRelax_congr m u v hna h4
      have hp2 : v < (relaxPasso m u st w).pai.length := by rw [relaxPasso_len_pai]; exact hp
      have hc2 : v < (relaxPasso m u st w).custoMin.length := by rw [relaxPasso_len_cm]; exact hc
      obtain ⟨hsim, hnao⟩ := ih (relaxPasso m u st w) v htnd hvt hp2 hc2
      constructor
      · intro hcond
        exact hsim (hcond_eq.trans hcond)
      · intro hcond
        obtain ⟨e1, e2⟩ := hnao (hcond_eq.trans hcond)
        exact ⟨e1.trans h3, e2.trans h4⟩

/-! ## Inclusion-step lemmas -/

lemma incluir_pai (m : List (List Custo)) (u : ℕ) (st : EstadoAGM) :
    (incluirVertice m u st).pai = st.pai := by
  unfold incluirVertice
  cases hp : st.pai.getD u none <;> rw [List.getD_eq_getElem?_getD] at hp <;> simp [hp]

lemma incluir_cm (m : List (List Custo)) (u : ℕ) (st : EstadoAGM) :
    (incluirVertice m u st).custoMin = st.custoMin := by
  unfold incluirVertice
  cases hp : st.pai.getD u none <;> rw [List.getD_eq_getElem?_getD] at hp <;> simp [hp]

lemma incluir_na (m : List (List Custo)) (u : ℕ) (st : EstadoAGM) :
    (incluirVertice m u st).naAGM = st.naAGM.set u true := by
  unfold incluirVertice
  cases hp : st.pai.getD u none <;> rw [List.getD_eq_getElem?_getD] at hp <;> simp [hp]

lemma incluir_arestas_some (m : List (List Custo)) (u p : ℕ) (st : EstadoAGM)
    (hp : st.pai.getD u none = some p) :
    (incluirVertice m u st).arestasAGM = st.arestasAGM ++ [⟨p, u, matGet m u p⟩] := by
  unfold incluirVertice
  rw [List.getD_eq_getElem?_getD] at hp
  simp [hp]

lemma incluir_arestas_none (m : List (List Custo)) (u : ℕ) (st : EstadoAGM)
    (hp : st.pai.getD u none = none) :
    (incluirVertice m u st).arestasAGM = st.arestasAGM := by
  unfold incluirVertice
  rw [List.getD_eq_getElem?_getD] at hp
  simp [hp]

lemma agmPasso_ok_elim (matriz : List (List Custo)) (n : ℕ) (st st' : EstadoAGM)
    (h : agmPasso matriz n st = .ok st') :
    ∃ u, selecionarMinimo st.custoMin st.naAGM n = some u ∧
      st.custoMin.getD u Custo.nan ≠ Custo.inf ∧
      st' = relaxar matriz n u (incluirVertice matriz u st) := by
  unfold agmPasso at h
  cases hsel : selecionarMinimo st.custoMin st.naAGM n with
  | none => rw [hsel] at h; cases h
  | some u =>
    rw [hsel] at h
    have h3 : (if st.custoMin.getD u Custo.nan = Custo.inf then
        (Except.error Erro.grafoNaoConexo : Except Erro EstadoAGM)
      else Except.ok (relaxar matriz n u (incluirVertice matriz u st))) = Except.ok st' := h
    by_cases hne : st.custoMin.getD u Custo.nan = Custo.inf
    · rw [if_pos hne] at h3; cases h3
    · rw [if_neg hne] at h3
      injection h3 with h2
      exact ⟨u, rfl, hne, h2.symm⟩

lemma agmPasso_error_elim (matriz : List (List Custo)) (n : ℕ) (st : EstadoAGM) (e : Erro)
    (h : agmPasso matriz n st = .error e) : e = .grafoNaoConexo := by
  unfold agmPasso at h
  cases hsel : selecionarMinimo st.custoMin st.naAGM n with
  | none =>
    rw [hsel] at h
    injection h with h2
    exact h2.symm
  | some u =>
    rw [hsel] at h
    have h3 : (if st.custoMin.getD u Custo.nan = Custo.inf then
        (Except.error Erro.grafoNaoConexo : Except Erro EstadoAGM)
      else Except.ok (relaxar matriz n u (incluirVertice matriz u st))) = Except.error e := h
    by_cases hne : st.custoMin.getD u Custo.nan = Custo.inf
    · rw [if_pos hne] at h3
      injection h3 with h2
      exact h2.symm
    · rw [if_neg hne] at h3
      cases h3

/-! ## The Prim loop invariant -/

/-- A well-shaped cost matrix: exactly `n` rows of length `n`. -/
def MatrizQuadrada (matriz : List (List Custo)) (n : ℕ) : Prop :=
  matriz.length = n ∧ ∀ linha ∈ matriz, linha.length = n

lemma passoPos_lt {matriz : List (List Custo)} {n a b : ℕ}
    (hq : MatrizQuadrada matriz n) (h : PassoPosM matriz a b) : a < n ∧ b < n := by
  obtain ⟨q, hfin, _⟩ := h
  unfold matGet at hfin
  by_cases ha : a < matriz.length
  · have hrow : matriz.getD a [] ∈ matriz := by
      rw [List.getD_eq_getElem?_getD, List.getElem?_eq_getElem ha]
      exact List.getElem_mem _
    have hlen : (matriz.getD a []).length = n := hq.2 _ hrow
    by_cases hb : b < (matriz.getD a []).length
    · exact ⟨hq.1 ▸ ha, hlen ▸ hb⟩
    · rw [List.getD_eq_getElem?_getD, List.getElem?_eq_none (by omega)] at hfin
      cases hfin
  · rw [List.getD_eq_getElem?_getD (l := matriz), List.getElem?_eq_none (by omega)] at hfin
    cases hfin

structure InvMain (matriz : List (List Custo)) (n : ℕ) (st : EstadoAGM) : Prop where
  len_pai : st.pai.length = n
  len_cm : st.custoMin.length = n
  len_na : st.naAGM.length = n
  raiz : naDe st 0 = true
  cm_tipo : ∀ v, v < n → cmDe st v = Custo.inf ∨ ∃ q, cmDe st v = Custo.fin q
  pai_spec : ∀ v p, v < n → paiDe st v = some p →
      p < n ∧ naDe st p = true ∧ v ≠ 0 ∧ ∃ q, matGet matriz p v = Custo.fin q ∧ 0 < q
  cm_fin_pai : ∀ v, v < n → naDe st v = false → cmDe st v ≠ Custo.inf →
      ∃ p, paiDe st v = some p
  frente : ∀ a b, a < n → b < n → naDe st a = true → naDe st b = false →
      PassoPosM matriz a b → cmDe st b ≠ Custo.inf
  na_alcance : ∀ v, v < n → naDe st v = true → AlcancavelPos matriz 0 v
  na_ligado : ∀ v, v < n → naDe st v = true → Ligado st.arestasAGM 0 v
  arestas_spec : ∀ e ∈ st.arestasAGM, e.de < n ∧ e.para < n ∧ e.de ≠ e.para ∧
      naDe st e.de = true ∧ naDe st e.para = true ∧
      e.peso = matGet matriz e.para e.de ∧
      (∃ q, matGet matriz e.de e.para = Custo.fin q ∧ 0 < q)
  contagem : st.naAGM.count true = st.arestasAGM.length + 1

/-! ## Whole-relaxation wrappers -/

lemma relaxar_naAGM (m : List (List Custo)) (n u : ℕ) (st : EstadoAGM) :
    (relaxar m n u st).naAGM = st.naAGM := by
  rw [relaxar_eq_foldl]; exact relaxFold_naAGM m u _ st

lemma relaxar_arestas (m : List (List Custo)) (n u : ℕ) (st : EstadoAGM) :
    (relaxar m n u st).arestasAGM = st.arestasAGM := by
  rw [relaxar_eq_foldl]; exact relaxFold_arestas m u _ st

lemma relaxar_len_pai (m : List (List Custo)) (n u : ℕ) (st : EstadoAGM) :
    (relaxar m n u st).pai.length = st.pai.length := by
  rw [relaxar_eq_foldl]; exact relaxFold_len_pai m u _ st

lemma relaxar_len_cm (m : List (List Custo)) (n u : ℕ) (st : EstadoAGM) :
    (relaxar m n u st).custoMin.length = st.custoMin.length := by
  rw [relaxar_eq_foldl]; exact relaxFold_len_cm m u _ st

lemma relaxar_fora (m : List (List Custo)) (n u : ℕ) (st : EstadoAGM) (v : ℕ) (hv : ¬ v < n) :
    paiDe (relaxar m n u st) v = paiDe st v ∧ cmDe (relaxar m n u st) v = cmDe st v := by
  rw [relaxar_eq_foldl]
  exact relaxFold_fora m u _ st v (by simpa using hv)

lemma relaxar_em (m : List (List Custo)) (n u : ℕ) (st : EstadoAGM) (v : ℕ) (hv : v < n)
    (hp : v < st.pai.length) (hc : v < st.custoMin.length) :
    (condRelax m u st v = true →
      paiDe (relaxar m n u st) v = some u ∧ cmDe (relaxar m n u st) v = matGet m u v) ∧
    (condRelax m u st v = false →
      paiDe (relaxar m n u st) v = paiDe st v ∧ cmDe (relaxar m n u st) v = cmDe st v) := by
  rw [relaxar_eq_foldl]
  exact relaxFold_em m u _ st v (List.nodup_range n) (List.mem_range.mpr hv) hp hc

lemma Custo.pos_fin {q : ℚ} (h : 0 < q) : (Custo.fin q).pos = true := by
  simp [Custo.pos, Custo.blt, h]

/-! ## The first iteration from the initial state -/

lemma selecionar_inicial (n : ℕ) (hn : 0 < n) :
    selecionarMinimo (estadoInicialAGM n).custoMin (estadoInicialAGM n).naAGM n = some 0 := by
  obtain ⟨m, rfl⟩ : ∃ m, n = m + 1 := ⟨n - 1, by omega⟩
  rw [selecionarMinimo_eq_foldl, List.range_succ_eq_map, List.foldl_cons]
  have hna0 : (estadoInicialAGM (m + 1)).naAGM.getD 0 false = false := by
    show (List.replicate (m + 1) false).getD 0 false = false
    rw [getD_replicate]
    simp
  rw [selPasso_nenhum hna0]
  have hcm0 : (estadoInicialAGM (m + 1)).custoMin.getD 0 Custo.nan = Custo.fin 0 := by
    show ((List.replicate (m + 1) Custo.inf).set 0 (Custo.fin 0)).getD 0 Custo.nan = Custo.fin 0
    exact getD_set_self _ _ _ _ (by simp)
  rw [List.foldl_map]
  have hkeep : ∀ (l : List ℕ),
      l.foldl (fun o v => selPasso (estadoInicialAGM (m + 1)).custoMin
        (estadoInicialAGM (m + 1)).naAGM o v.succ) (some 0) = some 0 := by
    intro l
    induction l with
    | nil => rfl
    | cons v t ih =>
      rw [List.foldl_cons]
      have hblt : Custo.blt ((estadoInicialAGM (m + 1)).custoMin.getD v.succ Custo.nan)
          ((estadoInicialAGM (m + 1)).custoMin.getD 0 Custo.nan) = false := by
        rw [hcm0]
        have hoth : (estadoInicialAGM (m + 1)).custoMin.getD v.succ Custo.nan
            = (List.replicate (m + 1) Custo.inf).getD v.succ Custo.nan := by
          show ((List.replicate (m + 1) Custo.inf).set 0 (Custo.fin 0)).getD v.succ Custo.nan = _
          exact getD_set_other _ _ _ _ _ (by omega)
        rw [hoth, getD_replicate]
        by_cases hv : v.succ < m + 1
        · rw [if_pos hv]; rfl
        · rw [if_neg hv]; rfl
      cases hna : (estadoInicialAGM (m + 1)).naAGM.getD v.succ false with
      | true => rw [selPasso_incluido hna]; exact ih
      | false => rw [selPasso_mantem hna hblt]; exact ih
  exact hkeep (List.range m)

/-! ## Preservation of the invariant by one Prim iteration -/

lemma passo_preserva (matriz : List (List Custo)) (n : ℕ) (st st' : EstadoAGM)
    (hInv : InvMain matriz n st) (h : agmPasso matriz n st = .ok st') :
    InvMain matriz n st' ∧ st'.naAGM.count true = st.naAGM.count true + 1 ∧
      st'.arestasAGM.length = st.arestasAGM.length + 1 := by
  obtain ⟨u, hsel, hne, hst'⟩ := agmPasso_ok_elim matriz n st st' h
  have hsound := selFold_sound st.custoMin st.naAGM (List.range n) none u
    (by rw [← selecionarMinimo_eq_foldl]; exact hsel)
  have hun : u < n := by
    rcases hsound with h1 | ⟨hmem, _⟩
    · cases h1
    · exact List.mem_range.mp hmem
  have huna : naDe st u = false := by
    rcases hsound with h1 | ⟨_, hna⟩
    · cases h1
    · exact hna
  obtain ⟨p, hp⟩ := hInv.cm_fin_pai u hun huna hne
  obtain ⟨hpn, hpna, hu0, qpu, hqpu, hqpos⟩ := hInv.pai_spec u p hun hp
  have hIpai := incluir_pai matriz u st
  have hIcm := incluir_cm matriz u st
  have hIna := incluir_na matriz u st
  have hIar := incluir_arestas_some matriz u p st hp
  have hRna : st'.naAGM = st.naAGM.set u true := by
    rw [hst', relaxar_naAGM, hIna]
  have hRar : st'.arestasAGM = st.arestasAGM ++ [⟨p, u, matGet matriz u p⟩] := by
    rw [hst', relaxar_arestas, hIar]
  have hlen_pai : st'.pai.length = n := by rw [hst', relaxar_len_pai, hIpai, hInv.len_pai]
  have hlen_cm : st'.custoMin.length = n := by rw [hst', relaxar_len_cm, hIcm, hInv.len_cm]
  have hlen_na : st'.naAGM.length = n := by rw [hRna, List.length_set, hInv.len_na]
  have hpuu : p ≠ u := by
    intro hh
    rw [hh, huna] at hpna
    cases hpna
  have hna_self : naDe st' u = true := by
    unfold naDe
    rw [hRna]
    exact getD_set_self _ _ _ _ (by rw [hInv.len_na]; exact hun)
  have hna_other : ∀ v, v ≠ u → naDe st' v = naDe st v := by
    intro v hvu
    unfold naDe
    rw [hRna]
    exact getD_set_other _ _ _ _ _ (fun hh => hvu hh.symm)
  have hcond_decomp : ∀ v, condRelax matriz u (incluirVertice matriz u st) v = true →
      (matGet matriz u v).pos = true ∧ v ≠ u ∧ naDe st v = false ∧
      Custo.blt (matGet matriz u v) (cmDe st v) = true := by
    intro v hc
    unfold condRelax at hc
    rw [hIna, hIcm] at hc
    simp only [Bool.and_eq_true, Bool.not_eq_true'] at hc
    obtain ⟨⟨h1, h2⟩, h3⟩ := hc
    have hvu : v ≠ u := by
      intro hh
      subst hh
      rw [getD_set_self _ _ _ _ (by rw [hInv.len_na]; exact hun)] at h2
      cases h2
    refine ⟨h1, hvu, ?_, h3⟩
    unfold naDe
    rw [← getD_set_other st.naAGM u v true false (fun hh => hvu hh.symm)]
    exact h2
  have hcond_false : ∀ v, v ≠ u → naDe st v = false → (matGet matriz u v).pos = true →
      condRelax matriz u (incluirVertice matriz u st) v = false →
      Custo.blt (matGet matriz u v) (cmDe st v) = false := by
    intro v hvu hna hpos hc
    unfold condRelax at hc
    rw [hIna, hIcm] at hc
    have hset : (st.naAGM.set u true).getD v false = false := by
      rw [getD_set_other _ _ _ _ _ (fun hh => hvu hh.symm)]
      exact hna
    rw [hpos, hset] at hc
    unfold cmDe
    simpa using hc
  have hrel : ∀ v, v < n →
      (condRelax matriz u (incluirVertice matriz u st) v = true →
        paiDe st' v = some u ∧ cmDe st' v = matGet matriz u v) ∧
      (condRelax matriz u (incluirVertice matriz u st) v = false →
        paiDe st' v = paiDe st v ∧ cmDe st' v = cmDe st v) := by
    intro v hv
    have hre := relaxar_em matriz n u (incluirVertice matriz u st) v hv
      (by rw [hIpai, hInv.len_pai]; exact hv) (by rw [hIcm, hInv.len_cm]; exact hv)
    rw [hst']
    refine ⟨fun hc => hre.1 hc, fun hc => ?_⟩
    obtain ⟨e1, e2⟩ := hre.2 hc
    constructor
    · rw [e1]
      unfold paiDe
      rw [hIpai]
    · rw [e2]
      unfold cmDe
      rw [hIcm]
  refine ⟨⟨hlen_pai, hlen_cm, hlen_na, ?_, ?_, ?_, ?_, ?_, ?_, ?_, ?_, ?_⟩, ?_, ?_⟩
  · -- raiz
    rw [hna_other 0 (fun hh => hu0 hh.symm)]
    exact hInv.raiz
  · -- cm_tipo
    intro v hv
    cases hcond : condRelax matriz u (incluirVertice matriz u st) v with
    | false =>
      rw [((hrel v hv).2 hcond).2]
      exact hInv.cm_tipo v hv
    | true =>
      obtain ⟨hpos, hvu, hnav, hblt⟩ := hcond_decomp v hcond
      obtain ⟨q, hq, _⟩ := Custo.pos_blt_fin hpos hblt (hInv.cm_tipo v hv)
      rw [((hrel v hv).1 hcond).2, hq]
      exact Or.inr ⟨q, rfl⟩
  · -- pai_spec
    intro v p2 hv hpai'
    cases hcond : condRelax matriz u (incluirVertice matriz u st) v with
    | true =>
      obtain ⟨hpos, hvu, hnav, hblt⟩ := hcond_decomp v hcond
      have hp2 : p2 = u := by
        have h9 := ((hrel v hv).1 hcond).1
        rw [hpai'] at h9
        exact Option.some.inj h9
      subst hp2
      obtain ⟨q, hq, hq0⟩ := Custo.pos_blt_fin hpos hblt (hInv.cm_tipo v hv)
      refine ⟨hun, hna_self, ?_, q, hq, hq0⟩
      intro hh
      rw [hh, hInv.raiz] at hnav
      cases hnav
    | false =>
      have hpai_st : paiDe st v = some p2 := by
        rw [← ((hrel v hv).2 hcond).1]
        exact hpai'
      obtain ⟨hq1, hq2, hq3, q, hq4, hq5⟩ := hInv.pai_spec v p2 hv hpai_st
      have hp2u : p2 ≠ u := by
        intro hh
        rw [hh, huna] at hq2
        cases hq2
      refine ⟨hq1, ?_, hq3, q, hq4, hq5⟩
      rw [hna_other p2 hp2u]
      exact hq2
  · -- cm_fin_pai
    intro v hv hna' hcm'
    have hvu : v ≠ u := by
      intro hh
      rw [hh, hna_self] at hna'
      cases hna'
    have hnav : naDe st v = false := by
      rw [← hna_other v hvu]
      exact hna'
    cases hcond : condRelax matriz u (incluirVertice matriz u st) v with
    | true => exact ⟨u, ((hrel v hv).1 hcond).1⟩
    | false =>
      have hcm_st : cmDe st v ≠ Custo.inf := by
        rw [← ((hrel v hv).2 hcond).2]
        exact hcm'
      obtain ⟨p3, hp3⟩ := hInv.cm_fin_pai v hv hnav hcm_st
      exact ⟨p3, by rw [((hrel v hv).2 hcond).1]; exact hp3⟩
  · -- frente
    intro a b ha hb hnaa hnab hpp
    have hbu : b ≠ u := by
      intro hh
      rw [hh, hna_self] at hnab
      cases hnab
    have hnab_st : naDe st b = false := by
      rw [← hna_other b hbu]
      exact hnab
    cases hcond : condRelax matriz u (incluirVertice matriz u st) b with
    | true =>
      obtain ⟨hpos, _, _, hblt⟩ := hcond_decomp b hcond
      obtain ⟨q, hq, _⟩ := Custo.pos_blt_fin hpos hblt (hInv.cm_tipo b hb)
      rw [((hrel b hb).1 hcond).2, hq]
      simp
    | false =>
      rw [((hrel b hb).2 hcond).2]
      by_cases hau : a = u
      · subst hau
        obtain ⟨q, hq, hq0⟩ := hpp
        have hpos : (matGet matriz a b).pos = true := by
          rw [hq]
          exact Custo.pos_fin hq0
        have hblt := hcond_false b hbu hnab_st hpos hcond
        rw [hq] at hblt
        intro heq
        rw [heq, Custo.fin_blt_inf] at hblt
        cases hblt
      · have hnaa_st : naDe st a = true := by
          rw [← hna_other a hau]
          exact hnaa
        exact hInv.frente a b ha hb hnaa_st hnab_st hpp
  · -- na_alcance
    intro v hv hnav
    by_cases hvu : v = u
    · subst hvu
      exact AlcancavelPos.passo (hInv.na_alcance p hpn hpna) ⟨qpu, hqpu, hqpos⟩
    · exact hInv.na_alcance v hv (by rw [← hna_other v hvu]; exact hnav)
  · -- na_ligado
    intro v hv hnav
    have hsub : ∀ e ∈ st.arestasAGM, e ∈ st'.arestasAGM := by
      rw [hRar]
      intro e he
      exact List.mem_append_left _ he
    by_cases hvu : v = u
    · subst hvu
      have hLp : Ligado st'.arestasAGM 0 p := (hInv.na_ligado p hpn hpna).mono hsub
      refine Ligado.passo hLp ⟨⟨p, v, matGet matriz v p⟩, ?_, Or.inl ⟨rfl, rfl⟩⟩
      rw [hRar]
      exact List.mem_append_right _ (by simp)
    · exact (hInv.na_ligado v hv (by rw [← hna_other v hvu]; exact hnav)).mono hsub
  · -- arestas_spec
    intro e he
    rw [hRar] at he
    rcases List.mem_append.mp he with hold | hnew
    · obtain ⟨h1, h2, h3, h4, h5, h6, h7⟩ := hInv.arestas_spec e hold
      have hdeu : e.de ≠ u := by
        intro hh
        rw [hh, huna] at h4
        cases h4
      have hparau : e.para ≠ u := by
        intro hh
        rw [hh, huna] at h5
        cases h5
      exact ⟨h1, h2, h3, by rw [hna_other _ hdeu]; exact h4,
        by rw [hna_other _ hparau]; exact h5, h6, h7⟩
    · have heq : e = ⟨p, u, matGet matriz u p⟩ := by simpa using hnew
      subst heq
      refine ⟨hpn, hun, hpuu, ?_, hna_self, rfl, qpu, hqpu, hqpos⟩
      rw [hna_other p hpuu]
      exact hpna
  · -- contagem
    have hcount : st'.naAGM.count true = st.naAGM.count true + 1 := by
      rw [hRna]
      exact count_true_set_true _ _ huna (by rw [hInv.len_na]; exact hun)
    rw [hcount, hInv.contagem, hRar]
    simp
  · -- count increment
    rw [hRna]
    exact count_true_set_true _ _ huna (by rw [hInv.len_na]; exact hun)
  · -- edge count increment
    rw [hRar]
    simp

lemma agmPasso_ok_intro (matriz : List (List Custo)) (n : ℕ) (st : EstadoAGM) (u : ℕ)
    (hsel : selecionarMinimo st.custoMin st.naAGM n = some u)
    (hne : st.custoMin.getD u Custo.nan ≠ Custo.inf) :
    agmPasso matriz n st = .ok (relaxar matriz n u (incluirVertice matriz u st)) := by
  unfold agmPasso
  rw [hsel]
  show (if st.custoMin.getD u Custo.nan = Custo.inf then
      (Except.error Erro.grafoNaoConexo : Except Erro EstadoAGM)
    else Except.ok (relaxar matriz n u (incluirVertice matriz u st))) = _
  rw [if_neg hne]

lemma primeiro_passo (matriz : List (List Custo)) (n : ℕ) (hn : 0 < n) :
    ∃ st1, agmPasso matriz n (estadoInicialAGM n) = .ok st1 ∧ InvMain matriz n st1 ∧
      st1.naAGM.count true = 1 ∧ st1.arestasAGM = [] := by
  have hsel := selecionar_inicial n hn
  have hcm0 : (estadoInicialAGM n).custoMin.getD 0 Custo.nan = Custo.fin 0 := by
    show ((List.replicate n Custo.inf).set 0 (Custo.fin 0)).getD 0 Custo.nan = Custo.fin 0
    exact getD_set_self _ _ _ _ (by simp [hn])
  have hne : (estadoInicialAGM n).custoMin.getD 0 Custo.nan ≠ Custo.inf := by
    rw [hcm0]
    intro hh
    cases hh
  have hpai0 : ∀ v, paiDe (estadoInicialAGM n) v = none := by
    intro v
    show (List.replicate n (none : Option ℕ)).getD v none = none
    rw [getD_replicate]
    by_cases hv : v < n
    · rw [if_pos hv]
    · rw [if_neg hv]
  have hna0 : ∀ v, naDe (estadoInicialAGM n) v = false := by
    intro v
    show (List.replicate n false).getD v false = false
    rw [getD_replicate]
    by_cases hv : v < n
    · rw [if_pos hv]
    · rw [if_neg hv]
  have hcm_outro : ∀ v, v ≠ 0 → cmDe (estadoInicialAGM n) v =
      if v < n then Custo.inf else Custo.nan := by
    intro v hv
    show ((List.replicate n Custo.inf).set 0 (Custo.fin 0)).getD v Custo.nan = _
    rw [getD_set_other _ _ _ _ _ (fun hh => hv hh.symm), getD_replicate]
  have hIpai := incluir_pai matriz 0 (estadoInicialAGM n)
  have hIcm := incluir_cm matriz 0 (estadoInicialAGM n)
  have hIna := incluir_na matriz 0 (estadoInicialAGM n)
  have hIar := incluir_arestas_none matriz 0 (estadoInicialAGM n) (hpai0 0)
  have hok := agmPasso_ok_intro matriz n (estadoInicialAGM n) 0 hsel hne
  refine ⟨_, hok, ?_, ?_, ?_⟩
  · -- the invariant for the state after the first iteration
    have hlen_na0 : (estadoInicialAGM n).naAGM.length = n := by simp [estadoInicialAGM]
    have hlen_pai0 : (estadoInicialAGM n).pai.length = n := by simp [estadoInicialAGM]
    have hlen_cm0 : (estadoInicialAGM n).custoMin.length = n := by simp [estadoInicialAGM]
    have hRna : (relaxar matriz n 0 (incluirVertice matriz 0 (estadoInicialAGM n))).naAGM
        = (estadoInicialAGM n).naAGM.set 0 true := by
      rw [relaxar_naAGM, hIna]
    have hRar : (relaxar matriz n 0 (incluirVertice matriz 0 (estadoInicialAGM n))).arestasAGM
        = [] := by
      rw [relaxar_arestas, hIar]
      rfl
    have hna_self : naDe (relaxar matriz n 0 (incluirVertice matriz 0 (estadoInicialAGM n))) 0
        = true := by
      unfold naDe
      rw [hRna]
      exact getD_set_self _ _ _ _ (by rw [hlen_na0]; exact hn)
    have hna_other : ∀ v, v ≠ 0 →
        naDe (relaxar matriz n 0 (incluirVertice matriz 0 (estadoInicialAGM n))) v = false := by
      intro v hv
      unfold naDe
      rw [hRna, getD_set_other _ _ _ _ _ (fun hh => hv hh.symm)]
      exact hna0 v
    have htipo0 : ∀ v, v < n → cmDe (estadoInicialAGM n) v = Custo.inf ∨
        ∃ q, cmDe (estadoInicialAGM n) v = Custo.fin q := by
      intro v hv
      by_cases hv0 : v = 0
      · subst hv0
        exact Or.inr ⟨0, hcm0⟩
      · rw [hcm_outro v hv0, if_pos hv]
        exact Or.inl rfl
    have hcond_decomp : ∀ v,
        condRelax matriz 0 (incluirVertice matriz 0 (estadoInicialAGM n)) v = true →
        (matGet matriz 0 v).pos = true ∧ v ≠ 0 ∧
        Custo.blt (matGet matriz 0 v) (cmDe (estadoInicialAGM n) v) = true := by
      intro v hc
      unfold condRelax at hc
      rw [hIna, hIcm] at hc
      simp only [Bool.and_eq_true, Bool.not_eq_true'] at hc
      obtain ⟨⟨h1, h2⟩, h3⟩ := hc
      have hvu : v ≠ 0 := by
        intro hh
        subst hh
        rw [getD_set_self _ _ _ _ (by rw [hlen_na0]; exact hn)] at h2
        cases h2
      exact ⟨h1, hvu, h3⟩
    have hcond_false : ∀ v, v ≠ 0 → (matGet matriz 0 v).pos = true →
        condRelax matriz 0 (incluirVertice matriz 0 (estadoInicialAGM n)) v = false →
        Custo.blt (matGet matriz 0 v) (cmDe (estadoInicialAGM n) v) = false := by
      intro v hvu hpos hc
      unfold condRelax at hc
      rw [hIna, hIcm] at hc
      have hset : ((estadoInicialAGM n).naAGM.set 0 true).getD v false = false := by
        rw [getD_set_other _ _ _ _ _ (fun hh => hvu hh.symm)]
        exact hna0 v
      rw [hpos, hset] at hc
      unfold cmDe
      simpa using hc
    have hrel : ∀ v, v < n →
        (condRelax matriz 0 (incluirVertice matriz 0 (estadoInicialAGM n)) v = true →
          paiDe (relaxar matriz n 0 (incluirVertice matriz 0 (estadoInicialAGM n))) v = some 0 ∧
          cmDe (relaxar matriz n 0 (incluirVertice matriz 0 (estadoInicialAGM n))) v
            = matGet matriz 0 v) ∧
        (condRelax matriz 0 (incluirVertice matriz 0 (estadoInicialAGM n)) v = false →
          paiDe (relaxar matriz n 0 (incluirVertice matriz 0 (estadoInicialAGM n))) v
            = paiDe (estadoInicialAGM n) v ∧
          cmDe (relaxar matriz n 0 (incluirVertice matriz 0 (estadoInicialAGM n))) v
            = cmDe (estadoInicialAGM n) v) := by
      intro v hv
      have hre := relaxar_em matriz n 0 (incluirVertice matriz 0 (estadoInicialAGM n)) v hv
        (by rw [hIpai, hlen_pai0]; exact hv) (by rw [hIcm, hlen_cm0]; exact hv)
      refine ⟨fun hc => hre.1 hc, fun hc => ?_⟩
      obtain ⟨e1, e2⟩ := hre.2 hc
      constructor
      · rw [e1]
        unfold paiDe
        rw [hIpai]
      · rw [e2]
        unfold cmDe
        rw [hIcm]
    refine ⟨by rw [relaxar_len_pai, hIpai, hlen_pai0],
            by rw [relaxar_len_cm, hIcm, hlen_cm0],
            by rw [hRna, List.length_set, hlen_na0],
            hna_self, ?_, ?_, ?_, ?_, ?_, ?_, ?_, ?_⟩
    · -- cm_tipo
      intro v hv
      cases hcond : condRelax matriz 0 (incluirVertice matriz 0 (estadoInicialAGM n)) v with
      | false =>
        rw [((hrel v hv).2 hcond).2]
        exact htipo0 v hv
      | true =>
        obtain ⟨hpos, hvu, hblt⟩ := hcond_decomp v hcond
        obtain ⟨q, hq, _⟩ := Custo.pos_blt_fin hpos hblt (htipo0 v hv)
        rw [((hrel v hv).1 hcond).2, hq]
        exact Or.inr ⟨q, rfl⟩
    · -- pai_spec
      intro v p2 hv hpai'
      cases hcond : condRelax matriz 0 (incluirVertice matriz 0 (estadoInicialAGM n)) v with
      | true =>
        obtain ⟨hpos, hvu, hblt⟩ := hcond_decomp v hcond
        have hp2 : p2 = 0 := by
          have h9 := ((hrel v hv).1 hcond).1
          rw [hpai'] at h9
          exact Option.some.inj h9
        subst hp2
        obtain ⟨q, hq, hq0⟩ := Custo.pos_blt_fin hpos hblt (htipo0 v hv)
        exact ⟨hn, hna_self, hvu, q, hq, hq0⟩
      | false =>
        have h9 := ((hrel v hv).2 hcond).1
        rw [hpai', hpai0 v] at h9
        cases h9
    · -- cm_fin_pai
      intro v hv hna' hcm'
      have hvu : v ≠ 0 := by
        intro hh
        rw [hh, hna_self] at hna'
        cases hna'
      cases hcond : condRelax matriz 0 (incluirVertice matriz 0 (estadoInicialAGM n)) v with
      | true => exact ⟨0, ((hrel v hv).1 hcond).1⟩
      | false =>
        exfalso
        apply hcm'
        rw [((hrel v hv).2 hcond).2, hcm_outro v hvu, if_pos hv]
    · -- frente
      intro a b ha hb hnaa hnab hpp
      have hbu : b ≠ 0 := by
        intro hh
        rw [hh, hna_self] at hnab
        cases hnab
      have hau : a = 0 := by
        by_contra hau
        rw [hna_other a hau] at hnaa
        cases hnaa
      subst hau
      obtain ⟨q, hq, hq0⟩ := hpp
      have hpos : (matGet matriz 0 b).pos = true := by
        rw [hq]
        exact Custo.pos_fin hq0
      cases hcond : condRelax matriz 0 (incluirVertice matriz 0 (estadoInicialAGM n)) b with
      | true =>
        rw [((hrel b hb).1 hcond).2, hq]
        simp
      | false =>
        exfalso
        have hblt := hcond_false b hbu hpos hcond
        rw [hq, hcm_outro b hbu, if_pos hb, Custo.fin_blt_inf] at hblt
        cases hblt
    · -- na_alcance
      intro v hv hnav
      by_cases hvu : v = 0
      · subst hvu
        exact AlcancavelPos.refl 0
      · rw [hna_other v hvu] at hnav
        cases hnav
    · -- na_ligado
      intro v hv hnav
      by_cases hvu : v = 0
      · subst hvu
        exact Ligado.refl 0
      · rw [hna_other v hvu] at hnav
        cases hnav
    · -- arestas_spec
      intro e he
      rw [hRar] at he
      cases he
    · -- contagem
      rw [hRar, hRna]
      have h1 : (estadoInicialAGM n).naAGM.count true = 0 := by
        simp [estadoInicialAGM, List.count_replicate]
      rw [count_true_set_true _ _ (hna0 0) (by rw [hlen_na0]; exact hn), h1]
      rfl
  · -- count = 1
    rw [relaxar_naAGM, hIna]
    have h1 : (estadoInicialAGM n).naAGM.count true = 0 := by
      simp [estadoInicialAGM, List.count_replicate]
    rw [count_true_set_true _ _ (hna0 0) (by simp [estadoInicialAGM, hn]), h1]
  · -- edges empty
    rw [relaxar_arestas, hIar]
    rfl

lemma passo_sem_erro (matriz : List (List Custo)) (n : ℕ) (st : EstadoAGM)
    (hInv : InvMain matriz n st) (hquad : MatrizQuadrada matriz n)
    (hconexo : ∀ v, v < n → AlcancavelPos matriz 0 v)
    (hfalta : st.naAGM.count true < n) :
    ∃ st1, agmPasso matriz n st = .ok st1 := by
  obtain ⟨w, hwlen, hwfalse⟩ := exists_false_of_count_lt st.naAGM
    (by rw [hInv.len_na]; exact hfalta)
  have hwn : w < n := hInv.len_na ▸ hwlen
  cases hselc : selecionarMinimo st.custoMin st.naAGM n with
  | none =>
    exfalso
    have hall := (selFold_none st.custoMin st.naAGM (List.range n) none
      (by rw [← selecionarMinimo_eq_foldl]; exact hselc)).2
    have hw := hall w (List.mem_range.mpr hwn)
    rw [hw] at hwfalse
    cases hwfalse
  | some u =>
    obtain ⟨a, b, hna_a, hna_b, hppab⟩ := fronteira (hconexo w hwn) hInv.raiz hwfalse
    obtain ⟨han, hbn⟩ := passoPos_lt hquad hppab
    have hcmb : cmDe st b ≠ Custo.inf := hInv.frente a b han hbn hna_a hna_b hppab
    obtain ⟨qb, hqb⟩ : ∃ q, cmDe st b = Custo.fin q := by
      rcases hInv.cm_tipo b hbn with h1 | h1
      · exact absurd h1 hcmb
      · exact h1
    have hmin := selFold_min st.custoMin st.naAGM (List.range n) none u
      (by rw [← selecionarMinimo_eq_foldl]; exact hselc) b (List.mem_range.mpr hbn) hna_b
    have hne : st.custoMin.getD u Custo.nan ≠ Custo.inf := by
      intro hinf
      rw [hinf] at hmin
      rw [show st.custoMin.getD b Custo.nan = Custo.fin qb from hqb] at hmin
      rw [Custo.fin_blt_inf] at hmin
      cases hmin
    exact ⟨_, agmPasso_ok_intro matriz n st u hselc hne⟩

lemma agmLoop_preserva (matriz : List (List Custo)) (n : ℕ) :
    ∀ (k : ℕ) (st st' : EstadoAGM), InvMain matriz n st →
      agmLoop matriz n k st = .ok st' →
      InvMain matriz n st' ∧ st'.naAGM.count true = st.naAGM.count true + k ∧
        st'.arestasAGM.length = st.arestasAGM.length + k := by
  intro k
  induction k with
  | zero =>
    intro st st' hInv h
    have h2 : (Except.ok st : Except Erro EstadoAGM) = .ok st' := h
    injection h2 with h3
    subst h3
    exact ⟨hInv, by omega, by omega⟩
  | succ m ih =>
    intro st st' hInv h
    have h2 : (match agmPasso matriz n st with
        | .error e => (.error e : Except Erro EstadoAGM)
        | .ok st1 => agmLoop matriz n m st1) = .ok st' := h
    cases hps : agmPasso matriz n st with
    | error e =>
      rw [hps] at h2
      cases h2
    | ok st1 =>
      rw [hps] at h2
      obtain ⟨hI1, hc1, ha1⟩ := passo_preserva matriz n st st1 hInv hps
      obtain ⟨hI2, hc2, ha2⟩ := ih st1 st' hI1 h2
      exact ⟨hI2, by omega, by omega⟩

lemma agmLoop_completa (matriz : List (List Custo)) (n : ℕ)
    (hquad : MatrizQuadrada matriz n)
    (hconexo : ∀ v, v < n → AlcancavelPos matriz 0 v) :
    ∀ (k : ℕ) (st : EstadoAGM), InvMain matriz n st → st.naAGM.count true + k = n →
      ∃ st', agmLoop matriz n k st = .ok st' := by
  intro k
  induction k with
  | zero =>
    intro st hInv hc
    exact ⟨st, rfl⟩
  | succ m ih =>
    intro st hInv hc
    obtain ⟨st1, hps⟩ := passo_sem_erro matriz n st hInv hquad hconexo (by omega)
    obtain ⟨hI1, hc1, _⟩ := passo_preserva matriz n st st1 hInv hps
    obtain ⟨st', hloop⟩ := ih st1 hI1 (by omega)
    refine ⟨st', ?_⟩
    show (match agmPasso matriz n st with
      | .error e => (.error e : Except Erro EstadoAGM)
      | .ok st1 => agmLoop matriz n m st1) = .ok st'
    rw [hps]
    exact hloop

lemma encontrarAGM_elim (g : Grafo) (arestas : List Aresta) (h : encontrarAGM g = .ok arestas) :
    ∃ st', agmLoop g.matrizAdjacencia g.vertices.length g.vertices.length
        (estadoInicialAGM g.vertices.length) = .ok st' ∧ arestas = st'.arestasAGM := by
  have h2 : (match agmLoop g.matrizAdjacencia g.vertices.length g.vertices.length
        (estadoInicialAGM g.vertices.length) with
      | .error e => (.error e : Except Erro (List Aresta))
      | .ok st => .ok st.arestasAGM) = .ok arestas := h
  cases hloop : agmLoop g.matrizAdjacencia g.vertices.length g.vertices.length
      (estadoInicialAGM g.vertices.length) with
  | error e =>
    rw [hloop] at h2
    cases h2
  | ok st' =>
    rw [hloop] at h2
    exact ⟨st', rfl, (Except.ok.inj h2).symm⟩

/-- Any successful MST run reached a state satisfying the invariant (for a
nonempty vertex list). -/
lemma encontrarAGM_invariante (g : Grafo) (arestas : List Aresta)
    (hn : 0 < g.vertices.length) (h : encontrarAGM g = .ok arestas) :
    ∃ st', InvMain g.matrizAdjacencia g.vertices.length st' ∧ arestas = st'.arestasAGM := by
  obtain ⟨st', hloop, heq⟩ := encontrarAGM_elim g arestas h
  obtain ⟨m, hm⟩ : ∃ m, g.vertices.length = m + 1 := ⟨g.vertices.length - 1, by omega⟩
  obtain ⟨st1, hps1, hI1, hcnt1, har1⟩ := primeiro_passo g.matrizAdjacencia g.vertices.length hn
  have hloop2 : agmLoop g.matrizAdjacencia g.vertices.length (m + 1)
      (estadoInicialAGM g.vertices.length) = .ok st' := by
    rw [← hm]
    exact hloop
  have h2 : (match agmPasso g.matrizAdjacencia g.vertices.length (estadoInicialAGM g.vertices.length) with
      | .error e => (.error e : Except Erro EstadoAGM)
      | .ok s => agmLoop g.matrizAdjacencia g.vertices.length m s) = .ok st' := hloop2
  rw [hps1] at h2
  exact ⟨st', (agmLoop_preserva g.matrizAdjacencia g.vertices.length m st1 st' hI1 h2).1, heq⟩

lemma agmLoop_total (matriz : List (List Custo)) (n : ℕ) (st' : EstadoAGM) (hn : 0 < n)
    (hloop : agmLoop matriz n n (estadoInicialAGM n) = .ok st') :
    InvMain matriz n st' ∧ st'.naAGM.count true = n ∧ st'.arestasAGM.length = n - 1 := by
  obtain ⟨m, hm⟩ : ∃ m, n = m + 1 := ⟨n - 1, by omega⟩
  obtain ⟨st1, hps1, hI1, hcnt1, har1⟩ := primeiro_passo matriz n hn
  have hloop2 : agmLoop matriz n (m + 1) (estadoInicialAGM n) = .ok st' := by
    rw [← hm]
    exact hloop
  have h2 : (match agmPasso matriz n (estadoInicialAGM n) with
      | .error e => (.error e : Except Erro EstadoAGM)
      | .ok s => agmLoop matriz n m s) = .ok st' := hloop2
  rw [hps1] at h2
  obtain ⟨hI', hc', ha'⟩ := agmLoop_preserva matriz n m st1 st' hI1 h2
  rw [hcnt1] at hc'
  rw [har1] at ha'
  have ha2 : st'.arestasAGM.length = m := by simpa using ha'
  exact ⟨hI', by omega, by omega⟩

lemma agmLoop_erro (matriz : List (List Custo)) (n : ℕ) :
    ∀ (k : ℕ) (st : EstadoAGM) (e : Erro),
      agmLoop matriz n k st = .error e → e = .grafoNaoConexo := by
  intro k
  induction k with
  | zero =>
    intro st e h
    have h2 : (Except.ok st : Except Erro EstadoAGM) = .error e := h
    cases h2
  | succ m ih =>
    intro st e h
    have h2 : (match agmPasso matriz n st with
        | .error e2 => (.error e2 : Except Erro EstadoAGM)
        | .ok st1 => agmLoop matriz n m st1) = .error e := h
    cases hps : agmPasso matriz n st with
    | error e2 =>
      rw [hps] at h2
      injection h2 with h3
      rw [← h3]
      exact agmPasso_error_elim matriz n st e2 hps
    | ok st1 =>
      rw [hps] at h2
      exact ih st1 e h2

/-- C3: for every validator-shaped graph (at least one vertex, square
matrix) whose vertices are all reachable from vertex 0 through strictly
positive finite cost entries, the MST builder succeeds, returns exactly
N-1 edges, and its edge list connects every vertex to vertex 0. -/
theorem agm_n_menos_uma_arestas_e_conexa (g : Grafo) (hn : 0 < g.vertices.length)
    (hquad : MatrizQuadrada g.matrizAdjacencia g.vertices.length)
    (hconexo : ∀ v, v < g.vertices.length → AlcancavelPos g.matrizAdjacencia 0 v) :
    ∃ arestas, encontrarAGM g = .ok arestas ∧
      arestas.length = g.vertices.length - 1 ∧
      ∀ v, v < g.vertices.length → Ligado arestas 0 v := by
  obtain ⟨m, hm⟩ : ∃ m, g.vertices.length = m + 1 := ⟨g.vertices.length - 1, by omega⟩
  obtain ⟨st1, hps1, hI1, hcnt1, har1⟩ := primeiro_passo g.matrizAdjacencia g.vertices.length hn
  obtain ⟨st', hloopm⟩ := agmLoop_completa g.matrizAdjacencia g.vertices.length hquad hconexo
    m st1 hI1 (by omega)
  have hfull : agmLoop g.matrizAdjacencia g.vertices.length g.vertices.length
      (estadoInicialAGM g.vertices.length) = .ok st' := by
    have hstep : agmLoop g.matrizAdjacencia g.vertices.length (m + 1)
        (estadoInicialAGM g.vertices.length) = .ok st' := by
      show (match agmPasso g.matrizAdjacencia g.vertices.length
          (estadoInicialAGM g.vertices.length) with
        | .error e => (.error e : Except Erro EstadoAGM)
        | .ok s => agmLoop g.matrizAdjacencia g.vertices.length m s) = .ok st'
      rw [hps1]
      exact hloopm
    rw [← hm] at hstep
    exact hstep
  obtain ⟨hI', hcount', hlen'⟩ := agmLoop_total g.matrizAdjacencia g.vertices.length st' hn hfull
  refine ⟨st'.arestasAGM, ?_, hlen', ?_⟩
  · show (match agmLoop g.matrizAdjacencia g.vertices.length g.vertices.length
        (estadoInicialAGM g.vertices.length) with
      | .error e => (.error e : Except Erro (List Aresta))
      | .ok st => .ok st.arestasAGM) = .ok st'.arestasAGM
    rw [hfull]
  · intro v hv
    have hall := all_true_of_count_eq st'.naAGM (by rw [hI'.len_na]; exact hcount')
    exact hI'.na_ligado v hv (hall v (by rw [hI'.len_na]; exact hv))

/-- C5: on a validator-shaped graph with a vertex unreachable from vertex 0
through strictly positive finite entries, the whole pipeline fails with
the disconnected-graph error (and, the result being an error, no partial
tree or tour is produced). -/
theorem solve_desconexo_erro (g : Grafo) (hn : 0 < g.vertices.length) (w : ℕ)
    (hw : w < g.vertices.length)
    (hnr : ¬ AlcancavelPos g.matrizAdjacencia 0 w) :
    executeChristofidesAlgorithm g = .error .grafoNaoConexo := by
  have hagm : encontrarAGM g = .error .grafoNaoConexo := by
    cases hloop : agmLoop g.matrizAdjacencia g.vertices.length g.vertices.length
        (estadoInicialAGM g.vertices.length) with
    | ok st' =>
      exfalso
      obtain ⟨hI', hcount', _⟩ := agmLoop_total g.matrizAdjacencia g.vertices.length st' hn hloop
      have hall := all_true_of_count_eq st'.naAGM (by rw [hI'.len_na]; exact hcount')
      exact hnr (hI'.na_alcance w hw (hall w (by rw [hI'.len_na]; exact hw)))
    | error e =>
      have he := agmLoop_erro g.matrizAdjacencia g.vertices.length g.vertices.length
        (estadoInicialAGM g.vertices.length) e hloop
      subst he
      show (match agmLoop g.matrizAdjacencia g.vertices.length g.vertices.length
          (estadoInicialAGM g.vertices.length) with
        | .error e => (.error e : Except Erro (List Aresta))
        | .ok st => .ok st.arestasAGM) = .error .grafoNaoConexo
      rw [hloop]
  have hnz : ¬ g.vertices.length = 0 := by omega
  show (if g.vertices.length = 0 then (.error .grafoVazio : Except Erro Resultado)
    else match encontrarAGM g with
      | .error e => .error e
      | .ok agm => _) = .error .grafoNaoConexo
  rw [if_neg hnz, hagm]

lemma alcancavel_ultimo {matriz : List (List Custo)} {r w : ℕ} (h : AlcancavelPos matriz r w) :
    r = w ∨ ∃ b, PassoPosM matriz b w := by
  cases h with
  | refl => exact Or.inl rfl
  | passo hab hbc => exact Or.inr ⟨_, hbc⟩

/-- C3 witness: the concrete 4-vertex scenario graph is square and fully
connected through positive finite entries. -/
theorem agm_n_menos_uma_arestas_e_conexa_witness :
    ∃ arestas, encontrarAGM grafoC2 = .ok arestas ∧
      arestas.length = grafoC2.vertices.length - 1 ∧
      ∀ v, v < grafoC2.vertices.length → Ligado arestas 0 v :=
  agm_n_menos_uma_arestas_e_conexa grafoC2 (by decide) ⟨by decide, by decide⟩
    (by
      intro v hv
      have hv4 : v < 4 := hv
      interval_cases v
      · exact AlcancavelPos.refl 0
      · exact AlcancavelPos.passo (AlcancavelPos.refl 0) ⟨1, rfl, by norm_num⟩
      · exact AlcancavelPos.passo (AlcancavelPos.refl 0) ⟨2, rfl, by norm_num⟩
      · exact AlcancavelPos.passo (AlcancavelPos.refl 0) ⟨3, rfl, by norm_num⟩)

/-- The spec's own disconnected example shape: N=3 with one matrix row
entirely zero towards the others. -/
def grafoDesconexo : Grafo :=
  ⟨[0, 1, 2],
   [[Custo.fin 0, Custo.fin 1, Custo.fin 0],
    [Custo.fin 1, Custo.fin 0, Custo.fin 0],
    [Custo.fin 0, Custo.fin 0, Custo.fin 0]]⟩

/-- C5 witness: the N=3 disconnected example aborts with the
disconnected-graph error. -/
theorem solve_desconexo_erro_witness :
    executeChristofidesAlgorithm grafoDesconexo = .error .grafoNaoConexo :=
  solve_desconexo_erro grafoDesconexo (by decide) 2 (by decide)
    (by
      intro h
      rcases alcancavel_ultimo h with h0 | ⟨b, q, hq, hq0⟩
      · cases h0
      · rcases b with _ | _ | _ | b2
        · rw [show matGet grafoDesconexo.matrizAdjacencia 0 2 = Custo.fin 0 from rfl] at hq
          rw [Custo.fin.injEq] at hq
          rw [← hq] at hq0
          norm_num at hq0
        · rw [show matGet grafoDesconexo.matrizAdjacencia 1 2 = Custo.fin 0 from rfl] at hq
          rw [Custo.fin.injEq] at hq
          rw [← hq] at hq0
          norm_num at hq0
        · rw [show matGet grafoDesconexo.matrizAdjacencia 2 2 = Custo.fin 0 from rfl] at hq
          rw [Custo.fin.injEq] at hq
          rw [← hq] at hq0
          norm_num at hq0
        · rw [show matGet grafoDesconexo.matrizAdjacencia (b2 + 3) 2 = Custo.nan from rfl] at hq
          cases hq)

/-- Every successful MST run only contains edges whose weight was copied
from the child-to-parent matrix entry. -/
lemma encontrarAGM_arestas (g : Grafo) (arestas : List Aresta)
    (h : encontrarAGM g = .ok arestas) :
    ∀ e ∈ arestas, e.peso = matGet g.matrizAdjacencia e.para e.de ∧
      (∃ q, matGet g.matrizAdjacencia e.de e.para = Custo.fin q ∧ 0 < q) := by
  intro e he
  by_cases hn : 0 < g.vertices.length
  · obtain ⟨st', hI', heq⟩ := encontrarAGM_invariante g arestas hn h
    rw [heq] at he
    obtain ⟨_, _, _, _, _, h6, h7⟩ := hI'.arestas_spec e he
    exact ⟨h6, h7⟩
  · exfalso
    obtain ⟨st', hloop, heq⟩ := encontrarAGM_elim g arestas h
    have hn0 : g.vertices.length = 0 := by omega
    rw [hn0] at hloop
    have h2 : (Except.ok (estadoInicialAGM 0) : Except Erro EstadoAGM) = .ok st' := hloop
    injection h2 with h3
    rw [heq, ← h3] at he
    simp [estadoInicialAGM] at he

def grafoAssimetrico : Grafo :=
  ⟨[0, 1], [[Custo.fin 0, Custo.fin 2], [Custo.fin 3, Custo.fin 0]]⟩

/-- C9: every recorded tree-edge weight is the matrix entry read in the
child-to-parent direction `matriz[para][de]`; on symmetric matrices this
equals the entry `matriz[de][para]` that drove the selection, and on an
asymmetric matrix the two can differ (concrete 2-vertex example). -/
theorem agm_peso_sentido :
    (∀ (g : Grafo) (arestas : List Aresta), encontrarAGM g = .ok arestas →
      ∀ e ∈ arestas, e.peso = matGet g.matrizAdjacencia e.para e.de) ∧
    (∀ (g : Grafo) (arestas : List Aresta), encontrarAGM g = .ok arestas →
      (∀ i j, matGet g.matrizAdjacencia i j = matGet g.matrizAdjacencia j i) →
      ∀ e ∈ arestas, e.peso = matGet g.matrizAdjacencia e.de e.para) ∧
    encontrarAGM grafoAssimetrico = .ok [⟨0, 1, Custo.fin 3⟩] ∧
    matGet grafoAssimetrico.matrizAdjacencia 0 1 ≠ Custo.fin 3 := by
  refine ⟨fun g arestas h e he => (encontrarAGM_arestas g arestas h e he).1,
    ?_, by decide, by decide⟩
  intro g arestas h hsym e he
  rw [(encontrarAGM_arestas g arestas h e he).1]
  exact hsym e.para e.de

/-- C9 witness: the general direction law applied at the asymmetric
example. -/
theorem agm_peso_sentido_witness :
    (⟨0, 1, Custo.fin 3⟩ : Aresta).peso = matGet grafoAssimetrico.matrizAdjacencia 1 0 :=
  agm_peso_sentido.1 grafoAssimetrico [⟨0, 1, Custo.fin 3⟩] (by decide)
    ⟨0, 1, Custo.fin 3⟩ (by simp)

/-- A connected graph whose only zero entry joins the two odd-degree
vertices of its path-shaped spanning tree. -/
def grafoZero : Grafo :=
  ⟨[0, 1, 2, 3],
   [[Custo.fin 0, Custo.fin 1, Custo.fin 5, Custo.fin 0],
    [Custo.fin 1, Custo.fin 0, Custo.fin 1, Custo.fin 5],
    [Custo.fin 5, Custo.fin 1, Custo.fin 0, Custo.fin 1],
    [Custo.fin 0, Custo.fin 5, Custo.fin 1, Custo.fin 0]]⟩

def arvoreZero : List Aresta :=
  [⟨0, 1, Custo.fin 1⟩, ⟨1, 2, Custo.fin 1⟩, ⟨2, 3, Custo.fin 1⟩]

/-- C10: the MST relaxation only ever selects entries that are strictly
positive (and finite), while the odd-vertex matcher applies no such
filter: on `grafoZero` the MST ignores the zero entry 0-3, both 0 and 3
end up odd, and the matcher pairs them through the zero entry, producing
a weight-0 matching edge. -/
theorem matcher_sem_filtro_positividade :
    (∀ (g : Grafo) (arestas : List Aresta), encontrarAGM g = .ok arestas →
      ∀ e ∈ arestas, ∃ q, matGet g.matrizAdjacencia e.de e.para = Custo.fin q ∧ 0 < q) ∧
    encontrarAGM grafoZero = .ok arvoreZero ∧
    encontrarVerticesGrauImpar arvoreZero 4 = [0, 3] ∧
    matGet grafoZero.matrizAdjacencia 0 3 = Custo.fin 0 ∧
    emparelhamentoPerfeitoCustoMinimo (encontrarVerticesGrauImpar arvoreZero 4)
      grafoZero.matrizAdjacencia = .ok [⟨0, 3, Custo.fin 0⟩] := by
  exact ⟨fun g arestas h e he => (encontrarAGM_arestas g arestas h e he).2,
    by decide, by decide, by decide, by decide⟩

/-- C10 witness: the positive-selection law applied at `grafoZero`. -/
theorem matcher_sem_filtro_positividade_witness :
    ∃ q, matGet grafoZero.matrizAdjacencia 0 1 = Custo.fin q ∧ 0 < q :=
  matcher_sem_filtro_positividade.1 grafoZero arvoreZero (by decide)
    ⟨0, 1, Custo.fin 1⟩ (by decide)

/-! ## Matching lemmas (towards C8) -/

/-- The multiset of endpoints of an edge list, as a list. -/
def extremos (arestas : List Aresta) : List ℕ := arestas.flatMap (fun e => [e.de, e.para])

lemma extremos_cons (e : Aresta) (t : List Aresta) :
    extremos (e :: t) = e.de :: e.para :: extremos t := rfl

lemma extremos_length (arestas : List Aresta) : (extremos arestas).length = 2 * arestas.length := by
  induction arestas with
  | nil => rfl
  | cons e t ih => rw [extremos_cons, List.length_cons, List.length_cons, ih, List.length_cons]; ring

lemma dedupPrimeiro_nodup : ∀ (l vistos : List ℕ), l.Nodup → (∀ x ∈ l, x ∉ vistos) →
    dedupPrimeiro vistos l = l := by
  intro l
  induction l with
  | nil => intro vistos _ _; rfl
  | cons x t ih =>
    intro vistos hnd hfora
    unfold dedupPrimeiro
    rw [if_neg (hfora x (by simp))]
    rw [ih (x :: vistos) (List.nodup_cons.mp hnd).2]
    intro y hy
    simp only [List.mem_cons]
    push_neg
    exact ⟨fun hh => (List.nodup_cons.mp hnd).1 (hh ▸ hy), hfora y (by simp [hy])⟩

lemma buscarFold_mantem_some (matriz : List (List Custo)) (u : ℕ) :
    ∀ (l : List ℕ) (acc : Option ℕ × Custo) (w : ℕ), acc.1 = some w →
      ∃ w2, (l.foldl (fun acc v =>
        if Custo.blt (matGet matriz u v) acc.2 then (some v, matGet matriz u v) else acc) acc).1
        = some w2 := by
  intro l
  induction l with
  | nil => intro acc w h; exact ⟨w, h⟩
  | cons v t ih =>
    intro acc w h
    rw [List.foldl_cons]
    by_cases hb : Custo.blt (matGet matriz u v) acc.2 = true
    · rw [if_pos hb]
      exact ih _ v rfl
    · rw [if_neg hb]
      exact ih _ w h

lemma buscarFold_sound (matriz : List (List Custo)) (u : ℕ) :
    ∀ (l : List ℕ) (acc : Option ℕ × Custo) (w : ℕ),
      (l.foldl (fun acc v =>
        if Custo.blt (matGet matriz u v) acc.2 then (some v, matGet matriz u v) else acc) acc).1
        = some w →
      acc.1 = some w ∨ w ∈ l := by
  intro l
  induction l with
  | nil => intro acc w h; exact Or.inl h
  | cons v t ih =>
    intro acc w h
    rw [List.foldl_cons] at h
    by_cases hb : Custo.blt (matGet matriz u v) acc.2 = true
    · rw [if_pos hb] at h
      rcases ih _ w h with h1 | h1
      · simp only [Option.some.injEq] at h1
        exact Or.inr (by simp [← h1])
      · exact Or.inr (by simp [h1])
    · rw [if_neg hb] at h
      rcases ih _ w h with h1 | h1
      · exact Or.inl h1
      · exact Or.inr (by simp [h1])

lemma buscar_acha (matriz : List (List Custo)) (u : ℕ) (resto : List ℕ) (w : ℕ) (q : ℚ)
    (hw : w ∈ resto) (hq : matGet matriz u w = Custo.fin q) :
    ∃ v c, buscarMaisProximo matriz u resto = (some v, c) ∧ v ∈ resto := by
  have hprincipal : ∃ v, (buscarMaisProximo matriz u resto).1 = some v := by
    obtain ⟨l1, l2, hsplit⟩ := List.append_of_mem hw
    unfold buscarMaisProximo
    rw [hsplit, List.foldl_append, List.foldl_cons]
    by_cases hb : Custo.blt (matGet matriz u w)
        (l1.foldl (fun acc v =>
          if Custo.blt (matGet matriz u v) acc.2 then (some v, matGet matriz u v) else acc)
          (none, Custo.inf)).2 = true
    · rw [if_pos hb]
      exact buscarFold_mantem_some matriz u l2 _ w rfl
    · rw [if_neg hb]
      rcases hacc : (l1.foldl (fun acc v =>
          if Custo.blt (matGet matriz u v) acc.2 then (some v, matGet matriz u v) else acc)
          (none, Custo.inf)) with ⟨o, c⟩
      cases o with
      | some w2 => exact buscarFold_mantem_some matriz u l2 _ w2 (by rw [hacc])
      | none =>
        exfalso
        -- if the accumulator is still none its cost is still the sentinel
        have hinv : ∀ (l : List ℕ) (acc : Option ℕ × Custo), (acc.1 = none → acc.2 = Custo.inf) →
            ((l.foldl (fun acc v =>
              if Custo.blt (matGet matriz u v) acc.2 then (some v, matGet matriz u v) else acc)
              acc).1 = none →
            (l.foldl (fun acc v =>
              if Custo.blt (matGet matriz u v) acc.2 then (some v, matGet matriz u v) else acc)
              acc).2 = Custo.inf) := by
          intro l
          induction l with
          | nil => intro acc hbase h; exact hbase h
          | cons v t ih2 =>
            intro acc hbase h
            rw [List.foldl_cons] at h ⊢
            by_cases hb2 : Custo.blt (matGet matriz u v) acc.2 = true
            · rw [if_pos hb2] at h ⊢
              exact ih2 _ (fun hh => by cases hh) h
            · rw [if_neg hb2] at h ⊢
              exact ih2 _ hbase h
        have hc : c = Custo.inf := by
          have := hinv l1 (none, Custo.inf) (fun _ => rfl)
          rw [hacc] at this
          exact this rfl
        rw [hacc, hc, hq, Custo.fin_blt_inf] at hb
        exact hb rfl
  obtain ⟨v, hv⟩ := hprincipal
  refine ⟨v, (buscarMaisProximo matriz u resto).2, ?_, ?_⟩
  · rw [← hv]
  · have := buscarFold_sound matriz u resto (none, Custo.inf) v hv
    rcases this with h1 | h1
    · cases h1
    · exact h1

lemma emparelharLoop_nil (matriz : List (List Custo)) (fuel : ℕ) (acc : List Aresta) :
    emparelharLoop matriz fuel [] acc = .ok acc := by
  cases fuel <;> rfl

lemma emparelharLoop_spec (matriz : List (List Custo)) :
    ∀ (N : ℕ) (fila : List ℕ) (fuel : ℕ) (acc : List Aresta),
      fila.length = N → fila.Nodup → Even fila.length → fila.length ≤ fuel →
      (∀ u ∈ fila, ∀ v ∈ fila, u ≠ v → ∃ q, matGet matriz u v = Custo.fin q) →
      ∃ emp, emparelharLoop matriz fuel fila acc = .ok (acc ++ emp) ∧
        (extremos emp).Perm fila ∧
        ∀ e ∈ emp, e.de ∈ fila ∧ e.para ∈ fila ∧ e.de ≠ e.para := by
  intro N
  induction N using Nat.strong_induction_on with
  | _ N ih =>
    intro fila fuel acc hN hnd hev hfuel hfin
    cases fila with
    | nil =>
      refine ⟨[], ?_, by simp [extremos], by simp⟩
      rw [emparelharLoop_nil, List.append_nil]
    | cons u resto =>
      simp only [List.length_cons] at hN hfuel
      have hrlen : ¬ resto.length % 2 = 0 := by
        rw [Nat.even_iff] at hev
        simp only [List.length_cons] at hev
        omega
      have hrpos : 0 < resto.length := by
        rcases resto with _ | _
        · simp at hrlen
        · simp
      obtain ⟨w, hw⟩ := List.exists_mem_of_length_pos hrpos
      have hu_notin : u ∉ resto := (List.nodup_cons.mp hnd).1
      have huw : u ≠ w := fun hh => hu_notin (hh ▸ hw)
      obtain ⟨q, hq⟩ := hfin u (by simp) w (by simp [hw]) huw
      obtain ⟨v, c, hbuscar, hvmem⟩ := buscar_acha matriz u resto w q hw hq
      obtain ⟨f, rfl⟩ : ∃ f, fuel = f + 1 := ⟨fuel - 1, by omega⟩
      have hstep : emparelharLoop matriz (f + 1) (u :: resto) acc
          = emparelharLoop matriz f (resto.erase v) (acc ++ [⟨u, v, c⟩]) := by
        show (match buscarMaisProximo matriz u resto with
          | (some v2, menor) =>
            emparelharLoop matriz f (resto.erase v2) (acc ++ [({ de := u, para := v2, peso := menor } : Aresta)])
          | (none, _) => if resto.isEmpty then .ok acc else .error .verticesSemPar) = _
        rw [hbuscar]
      have herase_len : (resto.erase v).length = resto.length - 1 :=
        List.length_erase_of_mem hvmem
      have hlt : (resto.erase v).length < N := by
        omega
      have hsub : ∀ x ∈ resto.erase v, x ∈ u :: resto := by
        intro x hx
        exact List.mem_cons_of_mem u (List.mem_of_mem_erase hx)
      obtain ⟨emp2, hloop2, hperm2, hedges2⟩ := ih (resto.erase v).length hlt (resto.erase v) f
        (acc ++ [⟨u, v, c⟩]) rfl ((List.nodup_cons.mp hnd).2.erase v)
        (by
          rw [Nat.even_iff, herase_len]
          omega)
        (by omega)
        (fun a ha b hb hab => hfin a (hsub a ha) b (hsub b hb) hab)
      refine ⟨⟨u, v, c⟩ :: emp2, ?_, ?_, ?_⟩
      · rw [hstep, hloop2, List.append_assoc]
        rfl
      · rw [extremos_cons]
        show List.Perm (u :: v :: extremos emp2) (u :: resto)
        refine List.Perm.cons u ?_
        exact (List.Perm.cons v hperm2).trans (List.perm_cons_erase hvmem).symm
      · intro e he
        rcases List.mem_cons.mp he with he1 | he1
        · subst he1
          refine ⟨by simp, List.mem_cons_of_mem u hvmem, ?_⟩
          show u ≠ v
          intro hh
          rw [hh] at hu_notin
          exact hu_notin hvmem
        · obtain ⟨h1, h2, h3⟩ := hedges2 e he1
          exact ⟨hsub _ h1, hsub _ h2, h3⟩

/-- C8: on a duplicate-free, even-length odd-vertex list whose pairwise
matrix entries are finite, the greedy matcher succeeds with exactly half
as many edges as listed vertices, and every listed vertex is an endpoint
of exactly one matching edge. -/
theorem emparelhamento_cobre_impares (verticesImpares : List ℕ) (matriz : List (List Custo))
    (hnd : verticesImpares.Nodup) (hev : Even verticesImpares.length)
    (hfin : ∀ u ∈ verticesImpares, ∀ v ∈ verticesImpares, u ≠ v →
      ∃ q, matGet matriz u v = Custo.fin q) :
    ∃ emp, emparelhamentoPerfeitoCustoMinimo verticesImpares matriz = .ok emp ∧
      2 * emp.length = verticesImpares.length ∧
      ∀ v ∈ verticesImpares, (extremos emp).count v = 1 := by
  have hded : dedupPrimeiro [] verticesImpares = verticesImpares :=
    dedupPrimeiro_nodup _ [] hnd (by simp)
  obtain ⟨emp, hloop, hperm, _⟩ := emparelharLoop_spec matriz verticesImpares.length
    verticesImpares verticesImpares.length [] rfl hnd hev le_rfl hfin
  refine ⟨emp, ?_, ?_, ?_⟩
  · show emparelharLoop matriz (dedupPrimeiro [] verticesImpares).length
      (dedupPrimeiro [] verticesImpares) [] = .ok emp
    rw [hded]
    simpa using hloop
  · rw [← hperm.length_eq, extremos_length]
  · intro v hv
    rw [hperm.count_eq]
    exact List.count_eq_one_of_mem hnd hv

/-- C8 witness: the two odd vertices of `grafoZero` are matched once each. -/
theorem emparelhamento_cobre_impares_witness :
    ∃ emp, emparelhamentoPerfeitoCustoMinimo [0, 3] grafoZero.matrizAdjacencia = .ok emp ∧
      2 * emp.length = [0, 3].length ∧ ∀ v ∈ [0, 3], (extremos emp).count v = 1 :=
  emparelhamento_cobre_impares [0, 3] grafoZero.matrizAdjacencia (by decide) ⟨1, rfl⟩
    (by
      intro u hu v hv huv
      fin_cases hu <;> fin_cases hv
      · exact absurd rfl huv
      · exact ⟨0, rfl⟩
      · exact ⟨0, rfl⟩
      · exact absurd rfl huv)

/-! ## Eulerian walk: auxiliary notions -/

/-- The neighbour the walk follows from `u` (JS `vizinhos.pop()` reads the
last entry). -/
def proximoV (adj : List (List ℕ)) (u : ℕ) : ℕ := (adj.getD u []).getLastD 0

/-- Consuming the traversed edge from both adjacency rows. -/
def consumir (adj : List (List ℕ)) (u : ℕ) : List (List ℕ) :=
  let vizinhos := adj.getD u []
  let v := vizinhos.getLastD 0
  let adj1 := adj.set u vizinhos.dropLast
  adj1.set v ((adj1.getD v []).erase u)

def totalAdj (adj : List (List ℕ)) : ℕ := (adj.map List.length).sum

/-- Ordered consecutive pairs of a walk. -/
def paresOrd : List ℕ → List (ℕ × ℕ)
  | [] => []
  | [_] => []
  | a :: b :: resto => (a, b) :: paresOrd (b :: resto)

/-- Undirected multiplicity of the pair `x`-`y` among consecutive steps. -/
def parCnt (l : List ℕ) (x y : ℕ) : ℕ :=
  (paresOrd l).count (x, y) + (paresOrd l).count (y, x)

/-- Well-formed adjacency structure: `numV` rows, entries below `numV`,
symmetric multiplicities, no self loops. -/
structure AdjBoa (adj : List (List ℕ)) (numV : ℕ) : Prop where
  len : adj.length = numV
  entradas : ∀ l ∈ adj, ∀ x ∈ l, x < numV
  equil : ∀ x y, (adj.getD x []).count y = (adj.getD y []).count x
  semLaco : ∀ x, (adj.getD x []).count x = 0

/-- The walking precondition: every vertex has even remaining degree except,
when `u ≠ t`, exactly the current vertex `u` and the pending target `t`. -/
def CondImpar (adj : List (List ℕ)) (numV u t : ℕ) : Prop :=
  ∀ x, x < numV → ((adj.getD x []).length % 2 = 1 ↔ (u ≠ t ∧ (x = u ∨ x = t)))

/-- Reachability inside an adjacency structure. -/
inductive AlcancaAdj (adj : List (List ℕ)) : ℕ → ℕ → Prop where
  | refl (v : ℕ) : AlcancaAdj adj v v
  | passo {a b c : ℕ} : AlcancaAdj adj a b → 0 < (adj.getD b []).count c → AlcancaAdj adj a c

/-! ## Step lemmas for the walk loop -/

lemma eulerLoop_vazia (f : ℕ) (adj : List (List ℕ)) (ciclo : List ℕ) :
    eulerLoop f adj [] ciclo = ciclo := by
  cases f <;> rfl

lemma eulerLoop_passo_vazio (f : ℕ) (adj : List (List ℕ)) (u : ℕ) (resto ciclo : List ℕ)
    (h : (adj.getD u []).isEmpty = true) :
    eulerLoop (f + 1) adj (u :: resto) ciclo = eulerLoop f adj resto (ciclo ++ [u]) := by
  show (if (adj.getD u []).isEmpty then eulerLoop f adj resto (ciclo ++ [u])
    else eulerLoop f (consumir adj u) (proximoV adj u :: u :: resto) ciclo) = _
  rw [if_pos h]

lemma eulerLoop_passo_aresta (f : ℕ) (adj : List (List ℕ)) (u : ℕ) (resto ciclo : List ℕ)
    (h : (adj.getD u []).isEmpty = false) :
    eulerLoop (f + 1) adj (u :: resto) ciclo
      = eulerLoop f (consumir adj u) (proximoV adj u :: u :: resto) ciclo := by
  show (if (adj.getD u []).isEmpty then eulerLoop f adj resto (ciclo ++ [u])
    else eulerLoop f (consumir adj u) (proximoV adj u :: u :: resto) ciclo) = _
  rw [h]
  simp

lemma set_fora {α : Type} (l : List α) (i : ℕ) (a : α) (h : l.length ≤ i) : l.set i a = l := by
  induction l generalizing i with
  | nil => rfl
  | cons x t ih =>
    cases i with
    | zero => simp at h
    | succ j => rw [List.set_cons_succ, ih j (by simpa using h)]

lemma totalAdj_set (adj : List (List ℕ)) (u : ℕ) (l : List ℕ) (h : u < adj.length) :
    totalAdj (adj.set u l) + (adj.getD u []).length = totalAdj adj + l.length := by
  induction adj generalizing u with
  | nil => simp at h
  | cons fila resto ih =>
    cases u with
    | zero =>
      show totalAdj (l :: resto) + fila.length = totalAdj (fila :: resto) + l.length
      unfold totalAdj
      simp
      ring
    | succ j =>
      have hj : j < resto.length := by simpa using h
      have := ih j hj
      show totalAdj (fila :: resto.set j l) + (resto.getD j []).length
        = totalAdj (fila :: resto) + l.length
      unfold totalAdj at this ⊢
      simp only [List.map_cons, List.sum_cons]
      omega

lemma linha_le_totalAdj (adj : List (List ℕ)) (u : ℕ) :
    (adj.getD u []).length ≤ totalAdj adj := by
  by_cases h : u < adj.length
  · have hmem : (adj.getD u []).length ∈ adj.map List.length := by
      rw [List.getD_eq_getElem?_getD, List.getElem?_eq_getElem h]
      exact List.mem_map_of_mem _ (List.getElem_mem _)
    exact List.single_le_sum (fun x _ => Nat.zero_le x) _ hmem
  · rw [List.getD_eq_getElem?_getD, List.getElem?_eq_none (by omega)]
    simp

lemma getD_fora {α : Type} (l : List α) (i : ℕ) (d : α) (h : ¬ i < l.length) :
    l.getD i d = d := by
  rw [List.getD_eq_getElem?_getD, List.getElem?_eq_none (by omega)]
  rfl

lemma consumir_em_alcance (adj : List (List ℕ)) (u : ℕ)
    (h : (adj.getD u []).isEmpty = false) : u < adj.length := by
  by_contra hu
  rw [getD_fora adj u [] hu] at h
  cases h

lemma totalAdj_consumir_le (adj : List (List ℕ)) (u : ℕ)
    (h : (adj.getD u []).isEmpty = false) :
    totalAdj (consumir adj u) + 1 ≤ totalAdj adj := by
  have hu : u < adj.length := consumir_em_alcance adj u h
  have hlne : adj.getD u [] ≠ [] := by
    intro hh
    rw [hh] at h
    cases h
  have hdrop : (adj.getD u []).dropLast.length + 1 = (adj.getD u []).length := by
    rw [List.length_dropLast]
    have hpos := List.length_pos.mpr hlne
    omega
  have h1 := totalAdj_set adj u (adj.getD u []).dropLast hu
  show totalAdj ((adj.set u (adj.getD u []).dropLast).set (proximoV adj u)
    (((adj.set u (adj.getD u []).dropLast).getD (proximoV adj u) []).erase u)) + 1
    ≤ totalAdj adj
  by_cases hv : proximoV adj u < (adj.set u (adj.getD u []).dropLast).length
  · have h2 := totalAdj_set (adj.set u (adj.getD u []).dropLast) (proximoV adj u)
      (((adj.set u (adj.getD u []).dropLast).getD (proximoV adj u) []).erase u) hv
    have herase : (((adj.set u (adj.getD u []).dropLast).getD (proximoV adj u) []).erase u).length
        ≤ ((adj.set u (adj.getD u []).dropLast).getD (proximoV adj u) []).length := by
      by_cases hmem : u ∈ (adj.set u (adj.getD u []).dropLast).getD (proximoV adj u) []
      · rw [List.length_erase_of_mem hmem]
        omega
      · rw [List.erase_of_not_mem hmem]
    omega
  · rw [set_fora _ _ _ (by omega)]
    omega

lemma eulerLoop_fuel : ∀ (mu : ℕ) (adj : List (List ℕ)) (pilha ciclo : List ℕ) (f1 f2 : ℕ),
    medida adj pilha = mu → mu ≤ f1 → mu ≤ f2 →
    eulerLoop f1 adj pilha ciclo = eulerLoop f2 adj pilha ciclo := by
  intro mu
  induction mu using Nat.strong_induction_on with
  | _ mu ih =>
    intro adj pilha ciclo f1 f2 hmu h1 h2
    cases pilha with
    | nil => rw [eulerLoop_vazia, eulerLoop_vazia]
    | cons u resto =>
      have hmu1 : 1 ≤ mu := by
        rw [← hmu]
        unfold medida
        simp only [List.length_cons]
        omega
      obtain ⟨a, rfl⟩ : ∃ a, f1 = a + 1 := ⟨f1 - 1, by omega⟩
      obtain ⟨b, rfl⟩ : ∃ b, f2 = b + 1 := ⟨f2 - 1, by omega⟩
      cases hviz : (adj.getD u []).isEmpty with
      | true =>
        rw [eulerLoop_passo_vazio a adj u resto ciclo hviz,
          eulerLoop_passo_vazio b adj u resto ciclo hviz]
        have hmr : medida adj resto + 1 = mu := by
          rw [← hmu]
          unfold medida
          simp only [List.length_cons]
          omega
        exact ih (medida adj resto) (by omega) adj resto _ a b rfl (by omega) (by omega)
      | false =>
        rw [eulerLoop_passo_aresta a adj u resto ciclo hviz,
          eulerLoop_passo_aresta b adj u resto ciclo hviz]
        have hTle := totalAdj_consumir_le adj u hviz
        have hm2 : medida (consumir adj u) (proximoV adj u :: u :: resto) + 1 ≤ mu := by
          rw [← hmu]
          unfold medida totalAdj at *
          simp only [List.length_cons]
          omega
        exact ih (medida (consumir adj u) (proximoV adj u :: u :: resto)) (by omega)
          _ _ ciclo a b rfl (by omega) (by omega)

lemma count_par_singleton (a b x y : ℕ) :
    ([(a, b)] : List (ℕ × ℕ)).count (x, y) = if x = a ∧ y = b then 1 else 0 := by
  by_cases hx : x = a ∧ y = b
  · obtain ⟨h1, h2⟩ := hx
    subst h1
    subst h2
    simp
  · rw [if_neg hx]
    rw [List.count_eq_zero]
    intro hmem
    simp only [List.mem_singleton, Prod.mk.injEq] at hmem
    exact hx hmem

lemma linha_mem (adj : List (List ℕ)) (u : ℕ) (h : u < adj.length) :
    adj.getD u [] ∈ adj := by
  rw [List.getD_eq_getElem?_getD, List.getElem?_eq_getElem h]
  exact List.getElem_mem _

lemma consumir_spec (adj : List (List ℕ)) (numV u : ℕ) (hboa : AdjBoa adj numV)
    (h : (adj.getD u []).isEmpty = false) :
    u < numV ∧ proximoV adj u < numV ∧ proximoV adj u ≠ u ∧
    (∀ x y, ((consumir adj u).getD x []).count y
        + (([(u, proximoV adj u)] : List (ℕ × ℕ)).count (x, y)
          + ([(u, proximoV adj u)] : List (ℕ × ℕ)).count (y, x))
      = (adj.getD x []).count y) ∧
    ((consumir adj u).getD u []).length + 1 = (adj.getD u []).length ∧
    ((consumir adj u).getD (proximoV adj u) []).length + 1
      = (adj.getD (proximoV adj u) []).length ∧
    (∀ x, x ≠ u → x ≠ proximoV adj u → (consumir adj u).getD x [] = adj.getD x []) ∧
    AdjBoa (consumir adj u) numV ∧
    totalAdj (consumir adj u) + 2 = totalAdj adj := by
  have hu_len : u < adj.length := consumir_em_alcance adj u h
  have hu : u < numV := hboa.len ▸ hu_len
  have hlne : adj.getD u [] ≠ [] := fun hh => by rw [hh] at h; cases h
  have hv_last : proximoV adj u = (adj.getD u []).getLast hlne := by
    unfold proximoV
    rw [List.getLastD_eq_getLast?, List.getLast?_eq_getLast _ hlne]
    rfl
  have hv_mem : proximoV adj u ∈ adj.getD u [] := by
    rw [hv_last]
    exact List.getLast_mem hlne
  have hv : proximoV adj u < numV := hboa.entradas _ (linha_mem adj u hu_len) _ hv_mem
  have hv_len : proximoV adj u < adj.length := hboa.len ▸ hv
  have hvu : proximoV adj u ≠ u := by
    intro hh
    have h0 := hboa.semLaco u
    rw [List.count_eq_zero] at h0
    rw [hh] at hv_mem
    exact h0 hv_mem
  have hsplit : (adj.getD u []).dropLast ++ [proximoV adj u] = adj.getD u [] := by
    rw [hv_last]
    exact List.dropLast_append_getLast hlne
  have hrow_u : (consumir adj u).getD u [] = (adj.getD u []).dropLast := by
    show ((adj.set u (adj.getD u []).dropLast).set (proximoV adj u) _).getD u [] = _
    rw [getD_set_other _ _ _ _ _ hvu, getD_set_self _ _ _ _ hu_len]
  have hrow_v_aux : (adj.set u (adj.getD u []).dropLast).getD (proximoV adj u) []
      = adj.getD (proximoV adj u) [] :=
    getD_set_other _ _ _ _ _ (fun hh => hvu hh.symm)
  have hrow_v : (consumir adj u).getD (proximoV adj u) []
      = (adj.getD (proximoV adj u) []).erase u := by
    show ((adj.set u (adj.getD u []).dropLast).set (proximoV adj u)
      (((adj.set u (adj.getD u []).dropLast).getD (proximoV adj u) []).erase u)).getD
        (proximoV adj u) [] = _
    rw [getD_set_self _ _ _ _ (by rw [List.length_set]; exact hv_len), hrow_v_aux]
  have hrow_outro : ∀ x, x ≠ u → x ≠ proximoV adj u →
      (consumir adj u).getD x [] = adj.getD x [] := by
    intro x hxu hxv
    show ((adj.set u (adj.getD u []).dropLast).set (proximoV adj u) _).getD x [] = _
    rw [getD_set_other _ _ _ _ _ (fun hh => hxv hh.symm),
      getD_set_other _ _ _ _ _ (fun hh => hxu hh.symm)]
  have hcount_v_em_u : 0 < (adj.getD u []).count (proximoV adj u) := by
    rcases Nat.eq_zero_or_pos ((adj.getD u []).count (proximoV adj u)) with h0 | h0
    · exact absurd hv_mem (List.count_eq_zero.mp h0)
    · exact h0
  have hu_em_v : u ∈ adj.getD (proximoV adj u) [] := by
    by_contra hnm
    have h0 := List.count_eq_zero.mpr hnm
    rw [hboa.equil (proximoV adj u) u] at h0
    omega
  have hdrop_count : ∀ y, ((adj.getD u []).dropLast).count y
      + (if y = proximoV adj u then 1 else 0) = (adj.getD u []).count y := by
    intro y
    conv_rhs => rw [← hsplit]
    rw [List.count_append]
    by_cases hy : y = proximoV adj u
    · subst hy
      rw [if_pos rfl]
      simp
    · rw [if_neg hy]
      have h1 : ([proximoV adj u] : List ℕ).count y = 0 := by
        rw [List.count_eq_zero]
        simp only [List.mem_singleton]
        exact fun hh => hy hh
      rw [h1]
  have herase_count : ∀ y, ((adj.getD (proximoV adj u) []).erase u).count y
      + (if y = u then 1 else 0) = (adj.getD (proximoV adj u) []).count y := by
    intro y
    by_cases hy : y = u
    · rw [hy, if_pos rfl, List.count_erase_self]
      have h1 : 0 < (adj.getD (proximoV adj u) []).count u := by
        rcases Nat.eq_zero_or_pos ((adj.getD (proximoV adj u) []).count u) with h0 | h0
        · exact absurd hu_em_v (List.count_eq_zero.mp h0)
        · exact h0
      omega
    · rw [if_neg hy, List.count_erase_of_ne hy]
      omega
  have hcontas : ∀ x y, ((consumir adj u).getD x []).count y
      + (([(u, proximoV adj u)] : List (ℕ × ℕ)).count (x, y)
        + ([(u, proximoV adj u)] : List (ℕ × ℕ)).count (y, x))
      = (adj.getD x []).count y := by
    intro x y
    rw [count_par_singleton, count_par_singleton]
    by_cases hxu : x = u
    · rw [hxu, hrow_u]
      by_cases hyv : y = proximoV adj u
      · rw [if_pos ⟨rfl, hyv⟩, if_neg (fun hh => hvu hh.2.symm)]
        have h1 := hdrop_count y
        rw [if_pos hyv] at h1
        omega
      · rw [if_neg (fun hh => hyv hh.2), if_neg (fun hh => hvu hh.2.symm)]
        have h1 := hdrop_count y
        rw [if_neg hyv] at h1
        omega
    · by_cases hxv : x = proximoV adj u
      · rw [hxv, hrow_v]
        by_cases hyu : y = u
        · rw [if_neg (fun hh => hvu hh.1), if_pos ⟨hyu, rfl⟩]
          have h1 := herase_count y
          rw [if_pos hyu] at h1
          omega
        · rw [if_neg (fun hh => hvu hh.1), if_neg (fun hh => hyu hh.1)]
          have h1 := herase_count y
          rw [if_neg hyu] at h1
          omega
      · rw [hrow_outro x hxu hxv, if_neg (fun hh => hxu hh.1), if_neg (fun hh => hxv hh.2)]
        omega
  have hlen_u : ((consumir adj u).getD u []).length + 1 = (adj.getD u []).length := by
    rw [hrow_u, List.length_dropLast]
    have hpos := List.length_pos.mpr hlne
    omega
  have hlen_v : ((consumir adj u).getD (proximoV adj u) []).length + 1
      = (adj.getD (proximoV adj u) []).length := by
    rw [hrow_v, List.length_erase_of_mem hu_em_v]
    have hpos : 0 < (adj.getD (proximoV adj u) []).length :=
      List.length_pos.mpr (fun hh => by rw [hh] at hu_em_v; cases hu_em_v)
    omega
  have hboa2 : AdjBoa (consumir adj u) numV := by
    refine ⟨?_, ?_, ?_, ?_⟩
    · show ((adj.set u _).set (proximoV adj u) _).length = numV
      rw [List.length_set, List.length_set]
      exact hboa.len
    · intro l hl x hx
      have hl0 : l ∈ (adj.set u (adj.getD u []).dropLast).set (proximoV adj u)
          (((adj.set u (adj.getD u []).dropLast).getD (proximoV adj u) []).erase u) := hl
      rcases List.mem_or_eq_of_mem_set hl0 with hl2 | hl2
      · rcases List.mem_or_eq_of_mem_set hl2 with hl3 | hl3
        · exact hboa.entradas l hl3 x hx
        · subst hl3
          exact hboa.entradas _ (linha_mem adj u hu_len) x (List.dropLast_subset _ hx)
      · subst hl2
        rw [hrow_v_aux] at hx
        exact hboa.entradas _ (linha_mem adj (proximoV adj u) hv_len) x
          (List.erase_subset _ _ hx)
    · intro x y
      have e1 := hcontas x y
      have e2 := hcontas y x
      have e3 := hboa.equil x y
      omega
    · intro x
      have e1 := hcontas x x
      have e0 := hboa.semLaco x
      omega
  have htotal : totalAdj (consumir adj u) + 2 = totalAdj adj := by
    have h1 := totalAdj_set adj u ((adj.getD u []).dropLast) hu_len
    have h2 := totalAdj_set (adj.set u (adj.getD u []).dropLast) (proximoV adj u)
      (((adj.set u (adj.getD u []).dropLast).getD (proximoV adj u) []).erase u)
      (by rw [List.length_set]; exact hv_len)
    have h3 : ((adj.set u (adj.getD u []).dropLast).getD (proximoV adj u) []).erase u
        = (adj.getD (proximoV adj u) []).erase u := by rw [hrow_v_aux]
    have h4 : ((adj.getD (proximoV adj u) []).erase u).length + 1
        = (adj.getD (proximoV adj u) []).length := by
      rw [List.length_erase_of_mem hu_em_v]
      have hpos : 0 < (adj.getD (proximoV adj u) []).length :=
        List.length_pos.mpr (fun hh => by rw [hh] at hu_em_v; cases hu_em_v)
      omega
    have h5 : ((adj.getD u []).dropLast).length + 1 = (adj.getD u []).length := by
      rw [List.length_dropLast]
      have hpos := List.length_pos.mpr hlne
      omega
    rw [hrow_v_aux] at h2
    show totalAdj ((adj.set u (adj.getD u []).dropLast).set (proximoV adj u)
      (((adj.set u (adj.getD u []).dropLast).getD (proximoV adj u) []).erase u)) + 2
      = totalAdj adj
    rw [h3]
    omega
  exact ⟨hu, hv, hvu, hcontas, hlen_u, hlen_v, hrow_outro, hboa2, htotal⟩

lemma condImpar_trivial (adj : List (List ℕ)) (numV a b : ℕ)
    (h : CondImpar adj numV a a) : CondImpar adj numV b b := by
  intro x hx
  have h1 := h x hx
  constructor
  · intro h2
    exact absurd h2 (by rw [h1]; exact fun hc => hc.1 rfl)
  · intro h2
    exact absurd rfl h2.1

lemma condImpar_consumir (adj : List (List ℕ)) (numV u t : ℕ) (hboa : AdjBoa adj numV)
    (h : (adj.getD u []).isEmpty = false)
    (hcond : CondImpar adj numV u t) :
    CondImpar (consumir adj u) numV (proximoV adj u) t := by
  obtain ⟨hu, hv, hvu, _, hlen_u, hlen_v, hrow_outro, _, _⟩ :=
    consumir_spec adj numV u hboa h
  intro x hx
  by_cases hxu : x = u
  · rw [hxu]
    have hOu := hcond u hu
    omega
  · by_cases hxv : x = proximoV adj u
    · rw [hxv]
      have hOv := hcond (proximoV adj u) hv
      omega
    · rw [hrow_outro x hxu hxv]
      have hOx := hcond x hx
      omega

lemma paresOrd_append : ∀ (A B : List ℕ) (a b : ℕ), A.getLast? = some a →
    B.head? = some b → paresOrd (A ++ B) = paresOrd A ++ (a, b) :: paresOrd B := by
  intro A
  induction A with
  | nil => intro B a b hA hB; cases hA
  | cons x A' ih =>
    intro B a b hA hB
    cases A' with
    | nil =>
      have hax : a = x := by
        rw [List.getLast?_singleton] at hA
        exact (Option.some.inj hA).symm
      cases B with
      | nil => cases hB
      | cons y B' =>
        have hby : b = y := by
          rw [List.head?_cons] at hB
          exact (Option.some.inj hB).symm
        rw [hax, hby]
        rfl
    | cons z A'' =>
      have hA2 : (z :: A'').getLast? = some a := by
        rw [List.getLast?_cons_cons] at hA
        exact hA
      have hrec := ih B a b hA2 hB
      show (x, z) :: paresOrd ((z :: A'') ++ B)
        = ((x, z) :: paresOrd (z :: A'')) ++ (a, b) :: paresOrd B
      rw [hrec]
      rfl

lemma paresOrd_mem : ∀ (W : List ℕ) (x y : ℕ), (x, y) ∈ paresOrd W →
    x ∈ W ∧ y ∈ W := by
  intro W
  induction W with
  | nil => intro x y hm; cases hm
  | cons a W' ih =>
    intro x y hm
    cases W' with
    | nil => cases hm
    | cons b W'' =>
      have hm2 : (x, y) ∈ (a, b) :: paresOrd (b :: W'') := hm
      rcases List.mem_cons.mp hm2 with h1 | h1
      · have hx : x = a ∧ y = b := by
          constructor
          · exact congrArg Prod.fst h1
          · exact congrArg Prod.snd h1
        constructor
        · rw [hx.1]; exact List.mem_cons_self a _
        · rw [hx.2]; exact List.mem_cons_of_mem a (List.mem_cons_self b _)
      · have := ih x y h1
        exact ⟨List.mem_cons_of_mem a this.1, List.mem_cons_of_mem a this.2⟩

lemma linha_nil_of_counts (l : List ℕ) (h : ∀ y, l.count y = 0) : l = [] := by
  cases l with
  | nil => rfl
  | cons x t =>
    have h1 := h x
    rw [List.count_cons_self] at h1
    omega

lemma count_par_swap (a b x y : ℕ) :
    ([(a, b)] : List (ℕ × ℕ)).count (x, y) = ([(b, a)] : List (ℕ × ℕ)).count (y, x) := by
  rw [count_par_singleton, count_par_singleton]
  by_cases h : x = a ∧ y = b
  · rw [if_pos h, if_pos ⟨h.2, h.1⟩]
  · rw [if_neg h, if_neg (fun hh => h ⟨hh.2, hh.1⟩)]

lemma parCnt_append (A B : List ℕ) (a b x y : ℕ) (hA : A.getLast? = some a)
    (hB : B.head? = some b) :
    parCnt (A ++ B) x y = parCnt A x y + parCnt B x y
      + (([(a, b)] : List (ℕ × ℕ)).count (x, y)
        + ([(a, b)] : List (ℕ × ℕ)).count (y, x)) := by
  unfold parCnt
  rw [paresOrd_append A B a b hA hB]
  rw [List.count_append, List.count_append]
  have h1 : ((a, b) :: paresOrd B).count (x, y)
      = (paresOrd B).count (x, y) + ([(a, b)] : List (ℕ × ℕ)).count (x, y) := by
    rw [List.count_cons]
    rw [count_par_singleton]
    by_cases h : x = a ∧ y = b
    · rw [if_pos h]
      have : ((x, y) = (a, b)) := by rw [h.1, h.2]
      simp [this]
    · rw [if_neg h]
      have h3 : ¬ ((x, y) = (a, b)) := by
        intro hh
        exact h ⟨congrArg Prod.fst hh, congrArg Prod.snd hh⟩
      simp [h3]
      intro ha hb
      exact h ⟨ha.symm, hb.symm⟩
  have h2 : ((a, b) :: paresOrd B).count (y, x)
      = (paresOrd B).count (y, x) + ([(a, b)] : List (ℕ × ℕ)).count (y, x) := by
    rw [List.count_cons]
    rw [count_par_singleton]
    by_cases h : y = a ∧ x = b
    · rw [if_pos h]
      have : ((y, x) = (a, b)) := by rw [h.1, h.2]
      simp [this]
    · rw [if_neg h]
      have h3 : ¬ ((y, x) = (a, b)) := by
        intro hh
        exact h ⟨congrArg Prod.fst hh, congrArg Prod.snd hh⟩
      simp [h3]
      intro ha hb
      exact h ⟨ha.symm, hb.symm⟩
  omega

lemma parCnt_singleton (u x y : ℕ) : parCnt [u] x y = 0 := by
  unfold parCnt
  rfl

/-- Main characterisation of the stack walk: starting at `u` with target
parity `t`, the loop appends a segment `W` running from `t` back to `u`,
consuming exactly the traversed pairs, and leaves the rows of all visited
vertices empty. -/
lemma eulerChar : ∀ (n : ℕ) (adj : List (List ℕ)) (numV u t : ℕ) (S' ciclo : List ℕ),
    totalAdj adj = n →
    AdjBoa adj numV → u < numV → t < numV → CondImpar adj numV u t →
    ∃ (W : List ℕ) (adj2 : List (List ℕ)),
      (∀ f, medida adj (u :: S') ≤ f →
        eulerLoop f adj (u :: S') ciclo
          = eulerLoop (medida adj2 S') adj2 S' (ciclo ++ W)) ∧
      AdjBoa adj2 numV ∧
      CondImpar adj2 numV t t ∧
      W.head? = some t ∧ W.getLast? = some u ∧
      (∀ x y, parCnt W x y + (adj2.getD x []).count y = (adj.getD x []).count y) ∧
      2 * W.length + totalAdj adj2 = 2 + totalAdj adj ∧
      (∀ x ∈ W, adj2.getD x [] = [] ∧ x < numV) := by
  intro n
  induction n using Nat.strong_induction_on with
  | _ n ih =>
    intro adj numV u t S' ciclo hn hboa hu ht hcond
    cases hviz : (adj.getD u []).isEmpty with
    | true =>
      have hrow : adj.getD u [] = [] := List.isEmpty_iff.mp hviz
      have hut : u = t := by
        by_contra hne
        have h2 := (hcond u hu).mpr ⟨hne, Or.inl rfl⟩
        rw [hrow] at h2
        simp at h2
      refine ⟨[u], adj, ?_, hboa, hut ▸ hcond, by simp [hut], by simp, ?_, ?_, ?_⟩
      · intro f hf
        have h1 : 1 ≤ medida adj (u :: S') := by
          unfold medida
          simp only [List.length_cons]
          omega
        obtain ⟨g, rfl⟩ : ∃ g, f = g + 1 := ⟨f - 1, by omega⟩
        rw [eulerLoop_passo_vazio g adj u S' ciclo hviz]
        refine eulerLoop_fuel (medida adj S') adj S' (ciclo ++ [u]) g (medida adj S') rfl ?_ le_rfl
        have h2 : medida adj (u :: S') = medida adj S' + 1 := by
          unfold medida
          simp only [List.length_cons]
          omega
        omega
      · intro x y
        rw [parCnt_singleton]
        omega
      · simp only [List.length_singleton]
      · intro x hx
        rw [List.mem_singleton] at hx
        rw [hx]
        exact ⟨hrow, hu⟩
    | false =>
      obtain ⟨_, hv, hvu, hcontas, hlen_u, hlen_v, hrow_outro, hboaQ, htotal⟩ :=
        consumir_spec adj numV u hboa hviz
      have hcondQ := condImpar_consumir adj numV u t hboa hviz hcond
      have hTQ : totalAdj (consumir adj u) < n := by omega
      obtain ⟨W1, adj2, ha1, hboa2, hcond2, hW1h, hW1l, hcnt1, hlen1, hmem1⟩ :=
        ih (totalAdj (consumir adj u)) hTQ (consumir adj u) numV (proximoV adj u) t
          (u :: S') ciclo rfl hboaQ hv ht hcondQ
      have hW1ne : W1 ≠ [] := by
        intro hh
        rw [hh] at hW1h
        cases hW1h
      have hW1pos : 0 < W1.length := List.length_pos.mpr hW1ne
      have hT2 : totalAdj adj2 < n := by omega
      have hcond2u : CondImpar adj2 numV u u := condImpar_trivial adj2 numV t u hcond2
      obtain ⟨W2, adj3, ha2, hboa3, hcond3, hW2h, hW2l, hcnt2, hlen2, hmem2⟩ :=
        ih (totalAdj adj2) hT2 adj2 numV u u S' (ciclo ++ W1) rfl hboa2 hu hu hcond2u
      have hW2ne : W2 ≠ [] := by
        intro hh
        rw [hh] at hW2h
        cases hW2h
      refine ⟨W1 ++ W2, adj3, ?_, hboa3, condImpar_trivial adj3 numV u t hcond3,
        ?_, ?_, ?_, ?_, ?_⟩
      · intro f hf
        have h1 : 1 ≤ medida adj (u :: S') := by
          unfold medida
          simp only [List.length_cons]
          omega
        obtain ⟨g, rfl⟩ : ∃ g, f = g + 1 := ⟨f - 1, by omega⟩
        rw [eulerLoop_passo_aresta g adj u S' ciclo hviz]
        have hg : medida (consumir adj u) (proximoV adj u :: u :: S') ≤ g := by
          have ht2 : totalAdj (consumir adj u) + 2 = totalAdj adj := htotal
          unfold totalAdj at ht2
          unfold medida at hf ⊢
          simp only [List.length_cons] at hf ⊢
          omega
        rw [ha1 g hg, ha2 (medida adj2 (u :: S')) le_rfl, List.append_assoc]
      · cases W1 with
        | nil => cases hW1h
        | cons a r =>
          have hat : a = t := Option.some.inj hW1h
          rw [List.cons_append, List.head?_cons, hat]
      · rw [List.getLast?_append, hW2l]
        rfl
      · intro x y
        have e0 := hcontas x y
        have e1 := hcnt1 x y
        have e2 := hcnt2 x y
        have hj := parCnt_append W1 W2 (proximoV adj u) u x y hW1l hW2h
        have hs1 := count_par_swap (proximoV adj u) u x y
        have hs2 := count_par_swap (proximoV adj u) u y x
        rw [hs1, hs2] at hj
        omega
      · rw [List.length_append]
        omega
      · intro x hx
        rcases List.mem_append.mp hx with hx1 | hx2
        · obtain ⟨hnil2, hxlt⟩ := hmem1 x hx1
          have hcnt0 : ∀ y, (adj3.getD x []).count y = 0 := by
            intro y
            have e2 := hcnt2 x y
            rw [hnil2] at e2
            rw [List.count_nil] at e2
            omega
          exact ⟨linha_nil_of_counts _ hcnt0, hxlt⟩
        · exact hmem2 x hx2

/-- Undirected multiplicity of the edge `x`-`y` in an edge list. -/
def cntMG (mg : List Aresta) (x y : ℕ) : ℕ :=
  (mg.map (fun e => (e.de, e.para))).count (x, y)
    + (mg.map (fun e => (e.de, e.para))).count (y, x)

/-- Degree of `x` in an edge list (incidences counted with multiplicity). -/
def grauMG (mg : List Aresta) (x : ℕ) : ℕ :=
  (mg.map Aresta.de).count x + (mg.map Aresta.para).count x

/-- The `foldl` step of `montarAdj`: append each endpoint to the other's row. -/
def inserirAresta (adj : List (List ℕ)) (a : Aresta) : List (List ℕ) :=
  let adj1 := adj.set a.de ((adj.getD a.de []) ++ [a.para])
  adj1.set a.para ((adj1.getD a.para []) ++ [a.de])

lemma count_cons_split {α : Type} [BEq α] (p q : α) (L : List α) :
    (q :: L).count p = L.count p + ([q] : List α).count p := by
  have h : (q :: L) = [q] ++ L := rfl
  rw [h, List.count_append]
  exact Nat.add_comm _ _

lemma count_nat_singleton (a y : ℕ) : ([a] : List ℕ).count y = if y = a then 1 else 0 := by
  by_cases h : y = a
  · rw [h, if_pos rfl]
    simp
  · rw [if_neg h, List.count_eq_zero]
    simp only [List.mem_singleton]
    exact h

lemma cntMG_cons (a : Aresta) (mg : List Aresta) (x y : ℕ) :
    cntMG (a :: mg) x y = cntMG mg x y
      + (([(a.de, a.para)] : List (ℕ × ℕ)).count (x, y)
        + ([(a.de, a.para)] : List (ℕ × ℕ)).count (y, x)) := by
  unfold cntMG
  simp only [List.map_cons]
  rw [count_cons_split ((x, y) : ℕ × ℕ), count_cons_split ((y, x) : ℕ × ℕ)]
  omega

lemma grauMG_cons (a : Aresta) (mg : List Aresta) (x : ℕ) :
    grauMG (a :: mg) x = grauMG mg x
      + (([a.de] : List ℕ).count x + ([a.para] : List ℕ).count x) := by
  unfold grauMG
  simp only [List.map_cons]
  rw [count_cons_split x a.de, count_cons_split x a.para]
  omega

lemma inserirAresta_linhas (adj : List (List ℕ)) (a : Aresta)
    (hde : a.de < adj.length) (hpara : a.para < adj.length) (hne : a.de ≠ a.para) :
    (inserirAresta adj a).length = adj.length ∧
    (inserirAresta adj a).getD a.de [] = (adj.getD a.de []) ++ [a.para] ∧
    (inserirAresta adj a).getD a.para [] = (adj.getD a.para []) ++ [a.de] ∧
    (∀ x, x ≠ a.de → x ≠ a.para → (inserirAresta adj a).getD x [] = adj.getD x []) := by
  refine ⟨?_, ?_, ?_, ?_⟩
  · show ((adj.set a.de _).set a.para _).length = _
    rw [List.length_set, List.length_set]
  · show ((adj.set a.de ((adj.getD a.de []) ++ [a.para])).set a.para _).getD a.de [] = _
    rw [getD_set_other _ _ _ _ _ (fun hh => hne hh.symm), getD_set_self _ _ _ _ hde]
  · show ((adj.set a.de ((adj.getD a.de []) ++ [a.para])).set a.para
      (((adj.set a.de ((adj.getD a.de []) ++ [a.para])).getD a.para []) ++ [a.de])).getD
        a.para [] = _
    rw [getD_set_self _ _ _ _ (by rw [List.length_set]; exact hpara)]
    rw [getD_set_other _ _ _ _ _ hne]
  · intro x hxd hxp
    show ((adj.set a.de _).set a.para _).getD x [] = _
    rw [getD_set_other _ _ _ _ _ (fun hh => hxp hh.symm),
      getD_set_other _ _ _ _ _ (fun hh => hxd hh.symm)]

lemma totalAdj_inserir (adj : List (List ℕ)) (a : Aresta)
    (hde : a.de < adj.length) (hpara : a.para < adj.length) :
    totalAdj (inserirAresta adj a) = totalAdj adj + 2 := by
  have h1 := totalAdj_set adj a.de ((adj.getD a.de []) ++ [a.para]) hde
  have h2 := totalAdj_set (adj.set a.de ((adj.getD a.de []) ++ [a.para])) a.para
    (((adj.set a.de ((adj.getD a.de []) ++ [a.para])).getD a.para []) ++ [a.de])
    (by rw [List.length_set]; exact hpara)
  show totalAdj ((adj.set a.de ((adj.getD a.de []) ++ [a.para])).set a.para
    (((adj.set a.de ((adj.getD a.de []) ++ [a.para])).getD a.para []) ++ [a.de])) = _
  rw [List.length_append] at h1 h2
  simp only [List.length_singleton] at h1 h2
  omega

lemma montarFold : ∀ (mg : List Aresta) (adj : List (List ℕ)),
    (∀ e ∈ mg, e.de < adj.length ∧ e.para < adj.length ∧ e.de ≠ e.para) →
    (mg.foldl inserirAresta adj).length = adj.length ∧
    (∀ x y, ((mg.foldl inserirAresta adj).getD x []).count y
        = (adj.getD x []).count y + cntMG mg x y) ∧
    (∀ x, ((mg.foldl inserirAresta adj).getD x []).length
        = (adj.getD x []).length + grauMG mg x) ∧
    totalAdj (mg.foldl inserirAresta adj) = totalAdj adj + 2 * mg.length := by
  intro mg
  induction mg with
  | nil =>
    intro adj hb
    refine ⟨rfl, ?_, ?_, ?_⟩
    · intro x y
      show (adj.getD x []).count y = _
      unfold cntMG
      simp
    · intro x
      show (adj.getD x []).length = _
      unfold grauMG
      simp
    · show totalAdj adj = _
      simp
  | cons a mg' ih =>
    intro adj hb
    obtain ⟨hde, hpara, hne⟩ := hb a (List.mem_cons_self a mg')
    obtain ⟨hL, hRde, hRpara, hRout⟩ := inserirAresta_linhas adj a hde hpara hne
    have hne2 : a.para ≠ a.de := fun hh => hne hh.symm
    have hb' : ∀ e ∈ mg', e.de < (inserirAresta adj a).length
        ∧ e.para < (inserirAresta adj a).length ∧ e.de ≠ e.para := by
      intro e he
      rw [hL]
      exact hb e (List.mem_cons_of_mem a he)
    obtain ⟨ihL, ihC, ihLen, ihT⟩ := ih (inserirAresta adj a) hb'
    have hstep : (a :: mg').foldl inserirAresta adj
        = mg'.foldl inserirAresta (inserirAresta adj a) := rfl
    refine ⟨?_, ?_, ?_, ?_⟩
    · rw [hstep, ihL, hL]
    · intro x y
      rw [hstep, ihC x y, cntMG_cons]
      have hrow : ((inserirAresta adj a).getD x []).count y
          = (adj.getD x []).count y
            + (([(a.de, a.para)] : List (ℕ × ℕ)).count (x, y)
              + ([(a.de, a.para)] : List (ℕ × ℕ)).count (y, x)) := by
        by_cases hxd : x = a.de
        · rw [hxd, hRde, List.count_append, count_nat_singleton,
            count_par_singleton, count_par_singleton]
          by_cases hy : y = a.para
          · simp [hy, hne]
          · simp [hy, hne]
        · by_cases hxp : x = a.para
          · rw [hxp, hRpara, List.count_append, count_nat_singleton,
              count_par_singleton, count_par_singleton]
            by_cases hy : y = a.de
            · simp [hy, hne2]
            · simp [hy, hne2]
          · rw [hRout x hxd hxp, count_par_singleton, count_par_singleton]
            simp [hxd, hxp]
      omega
    · intro x
      rw [hstep, ihLen x, grauMG_cons]
      have hrow : ((inserirAresta adj a).getD x []).length
          = (adj.getD x []).length
            + (([a.de] : List ℕ).count x + ([a.para] : List ℕ).count x) := by
        rw [count_nat_singleton, count_nat_singleton]
        by_cases hxd : x = a.de
        · rw [hxd, hRde, List.length_append]
          simp [hne]
        · by_cases hxp : x = a.para
          · rw [hxp, hRpara, List.length_append]
            simp [hne2]
          · rw [hRout x hxd hxp]
            simp [hxd, hxp]
      omega
    · rw [hstep, ihT, totalAdj_inserir adj a hde hpara]
      simp only [List.length_cons]
      omega

lemma montarAdj_eq_foldl (mg : List Aresta) (numV : ℕ) :
    montarAdj mg numV = mg.foldl inserirAresta (List.replicate numV []) := rfl

lemma getD_replicate_nil (n i : ℕ) : (List.replicate n ([] : List ℕ)).getD i [] = [] := by
  by_cases h : i < n
  · rw [List.getD_eq_getElem?_getD, List.getElem?_eq_getElem (by simpa using h)]
    simp
  · rw [getD_fora _ _ _ (by simpa using h)]

lemma totalAdj_replicate_nil (n : ℕ) : totalAdj (List.replicate n ([] : List ℕ)) = 0 := by
  unfold totalAdj
  simp

lemma montarAdj_spec (mg : List Aresta) (numV : ℕ)
    (hmg : ∀ e ∈ mg, e.de < numV ∧ e.para < numV ∧ e.de ≠ e.para) :
    (montarAdj mg numV).length = numV ∧
    (∀ x y, ((montarAdj mg numV).getD x []).count y = cntMG mg x y) ∧
    (∀ x, ((montarAdj mg numV).getD x []).length = grauMG mg x) ∧
    totalAdj (montarAdj mg numV) = 2 * mg.length := by
  have hb : ∀ e ∈ mg, e.de < (List.replicate numV ([] : List ℕ)).length
      ∧ e.para < (List.replicate numV ([] : List ℕ)).length ∧ e.de ≠ e.para := by
    intro e he
    rw [List.length_replicate]
    exact hmg e he
  obtain ⟨hL, hC, hLen, hT⟩ := montarFold mg (List.replicate numV []) hb
  rw [montarAdj_eq_foldl]
  refine ⟨by rw [hL, List.length_replicate], ?_, ?_, ?_⟩
  · intro x y
    rw [hC x y, getD_replicate_nil]
    simp
  · intro x
    rw [hLen x, getD_replicate_nil]
    simp
  · rw [hT, totalAdj_replicate_nil]
    omega

lemma count_pos_of_mem {α : Type} [BEq α] [LawfulBEq α] {a : α} {l : List α}
    (h : a ∈ l) : 0 < l.count a := by
  rcases Nat.eq_zero_or_pos (l.count a) with h0 | h0
  · exact absurd h (List.count_eq_zero.mp h0)
  · exact h0

lemma montarAdj_boa (mg : List Aresta) (numV : ℕ)
    (hmg : ∀ e ∈ mg, e.de < numV ∧ e.para < numV ∧ e.de ≠ e.para) :
    AdjBoa (montarAdj mg numV) numV := by
  obtain ⟨hL, hC, hLen, hT⟩ := montarAdj_spec mg numV hmg
  refine ⟨hL, ?_, ?_, ?_⟩
  · intro l hl x hx
    obtain ⟨i, hi, hil⟩ := List.mem_iff_getElem.mp hl
    have hgd : (montarAdj mg numV).getD i [] = l := by
      rw [List.getD_eq_getElem?_getD, List.getElem?_eq_getElem hi]
      exact hil
    have hcnt : 0 < ((montarAdj mg numV).getD i []).count x := by
      rw [hgd]
      exact count_pos_of_mem hx
    rw [hC i x] at hcnt
    unfold cntMG at hcnt
    have hsplit : 0 < (mg.map fun e => (e.de, e.para)).count (i, x)
        ∨ 0 < (mg.map fun e => (e.de, e.para)).count (x, i) := by omega
    rcases hsplit with h1 | h1
    · have hmem : ((i, x) : ℕ × ℕ) ∈ mg.map fun e => (e.de, e.para) := by
        rcases Nat.eq_zero_or_pos ((mg.map fun e => (e.de, e.para)).count (i, x)) with h0 | h0
        · omega
        · by_contra hnm
          rw [List.count_eq_zero.mpr hnm] at h1
          omega
      obtain ⟨e, he, hpe⟩ := List.mem_map.mp hmem
      have h2 : e.para = x := congrArg Prod.snd hpe
      rw [← h2]
      exact (hmg e he).2.1
    · have hmem : ((x, i) : ℕ × ℕ) ∈ mg.map fun e => (e.de, e.para) := by
        by_contra hnm
        rw [List.count_eq_zero.mpr hnm] at h1
        omega
      obtain ⟨e, he, hpe⟩ := List.mem_map.mp hmem
      have h2 : e.de = x := congrArg Prod.fst hpe
      rw [← h2]
      exact (hmg e he).1
  · intro x y
    rw [hC x y, hC y x]
    unfold cntMG
    omega
  · intro x
    rw [hC x x]
    unfold cntMG
    have h0 : (mg.map fun e => (e.de, e.para)).count (x, x) = 0 := by
      rw [List.count_eq_zero]
      intro hmem
      obtain ⟨e, he, hpe⟩ := List.mem_map.mp hmem
      have h1 : e.de = x := congrArg Prod.fst hpe
      have h2 : e.para = x := congrArg Prod.snd hpe
      exact (hmg e he).2.2 (h1.trans h2.symm)
    omega

lemma mem_getLast (l : List ℕ) (a : ℕ) (h : l.getLast? = some a) : a ∈ l := by
  cases l with
  | nil => cases h
  | cons x t =>
    have hne : x :: t ≠ [] := by simp
    rw [List.getLast?_eq_getLast _ hne] at h
    exact (Option.some.inj h) ▸ List.getLast_mem hne

lemma count_map_swap (l : List (ℕ × ℕ)) (x y : ℕ) :
    (l.map Prod.swap).count (x, y) = l.count (y, x) := by
  induction l with
  | nil => rfl
  | cons p t ih =>
    rw [List.map_cons, count_cons_split ((x, y) : ℕ × ℕ),
      count_cons_split ((y, x) : ℕ × ℕ), ih]
    have h : ([p.swap] : List (ℕ × ℕ)).count (x, y)
        = ([p] : List (ℕ × ℕ)).count (y, x) := by
      obtain ⟨a, b⟩ := p
      show ([(b, a)] : List (ℕ × ℕ)).count (x, y) = ([(a, b)] : List (ℕ × ℕ)).count (y, x)
      exact count_par_swap b a x y
    omega

lemma paresOrd_reverse : ∀ (l : List ℕ),
    paresOrd l.reverse = ((paresOrd l).reverse).map Prod.swap := by
  intro l
  induction l with
  | nil => rfl
  | cons a t ih =>
    cases t with
    | nil => rfl
    | cons b t2 =>
      have hA : ((b :: t2).reverse).getLast? = some b := by
        rw [List.getLast?_reverse]
        rfl
      have hB : ([a] : List ℕ).head? = some a := rfl
      have h1 : (a :: b :: t2).reverse = (b :: t2).reverse ++ [a] := by
        simp
      rw [h1, paresOrd_append ((b :: t2).reverse) [a] b a hA hB, ih]
      show _ ++ (b, a) :: paresOrd [a] = ((((a, b) :: paresOrd (b :: t2))).reverse).map Prod.swap
      rw [List.reverse_cons, List.map_append]
      rfl

lemma parCnt_reverse (l : List ℕ) (x y : ℕ) : parCnt l.reverse x y = parCnt l x y := by
  unfold parCnt
  rw [paresOrd_reverse l, count_map_swap, count_map_swap,
    List.count_reverse, List.count_reverse]
  omega

lemma parCnt_pos_mem (W : List ℕ) (x y : ℕ) (h : 0 < parCnt W x y) : x ∈ W ∧ y ∈ W := by
  unfold parCnt at h
  have hsplit : 0 < (paresOrd W).count (x, y) ∨ 0 < (paresOrd W).count (y, x) := by omega
  rcases hsplit with h1 | h1
  · have hm : ((x, y) : ℕ × ℕ) ∈ paresOrd W := by
      by_contra hnm
      rw [List.count_eq_zero.mpr hnm] at h1
      omega
    exact paresOrd_mem W x y hm
  · have hm : ((y, x) : ℕ × ℕ) ∈ paresOrd W := by
      by_contra hnm
      rw [List.count_eq_zero.mpr hnm] at h1
      omega
    have h2 := paresOrd_mem W y x hm
    exact ⟨h2.2, h2.1⟩

lemma totalAdj_nil_rows : ∀ (adj : List (List ℕ)),
    (∀ i, i < adj.length → adj.getD i [] = []) → totalAdj adj = 0 := by
  intro adj
  induction adj with
  | nil => intro _; rfl
  | cons r t ih =>
    intro h
    have h0 : r = [] := h 0 (by simp)
    have ht : ∀ i, i < t.length → t.getD i [] = [] := by
      intro i hi
      have h1 := h (i + 1) (by simp only [List.length_cons]; omega)
      rw [List.getD_cons_succ] at h1
      exact h1
    have h2 := ih ht
    unfold totalAdj at h2 ⊢
    simp only [List.map_cons, List.sum_cons, h0]
    simp [h2]

/-- Shared run characterisation of `encontrarCicloEuleriano` on a well-formed
even connected multigraph: closed circuit at the start vertex, length
`|edges| + 1`, per-edge multiplicity equality, and vertex coverage. -/
lemma cicloEulerianoRun (mg : List Aresta) (numV inicio : ℕ)
    (hini : inicio < numV)
    (hmg : ∀ e ∈ mg, e.de < numV ∧ e.para < numV ∧ e.de ≠ e.para)
    (heven : ∀ x, x < numV → grauMG mg x % 2 = 0)
    (hconn : ∀ x, x < numV → Ligado mg inicio x) :
    (encontrarCicloEuleriano mg numV inicio).head? = some inicio ∧
    (encontrarCicloEuleriano mg numV inicio).getLast? = some inicio ∧
    (encontrarCicloEuleriano mg numV inicio).length = mg.length + 1 ∧
    (∀ x y, parCnt (encontrarCicloEuleriano mg numV inicio) x y = cntMG mg x y) ∧
    (∀ x, x ∈ encontrarCicloEuleriano mg numV inicio ↔ x < numV) := by
  obtain ⟨hL, hC, hLen, hT⟩ := montarAdj_spec mg numV hmg
  have hboa := montarAdj_boa mg numV hmg
  have hcond : CondImpar (montarAdj mg numV) numV inicio inicio := by
    intro x hx
    constructor
    · intro hodd
      rw [hLen x] at hodd
      have := heven x hx
      omega
    · intro hcontra
      exact absurd rfl hcontra.1
  obtain ⟨W, adj2, ha, hboa2, hcond2, hWh, hWl, hcnt, hlen, hmem⟩ :=
    eulerChar (totalAdj (montarAdj mg numV)) (montarAdj mg numV) numV inicio inicio
      [] [] rfl hboa hini hini hcond
  have hrun : encontrarCicloEuleriano mg numV inicio = W.reverse := by
    show (eulerLoop (medida (montarAdj mg numV) [inicio]) (montarAdj mg numV)
      [inicio] []).reverse = W.reverse
    rw [ha (medida (montarAdj mg numV) [inicio]) le_rfl, eulerLoop_vazia,
      List.nil_append]
  have hiniW : inicio ∈ W := mem_getLast W inicio hWl
  have hWmem : ∀ x, x < numV → x ∈ W := by
    intro x hx
    have hlig := hconn x hx
    clear hx
    induction hlig with
    | refl => exact hiniW
    | @passo b c hab hex ih =>
      obtain ⟨e, he, hcase⟩ := hex
      have hpos : 0 < cntMG mg b c := by
        unfold cntMG
        rcases hcase with ⟨h1, h2⟩ | ⟨h1, h2⟩
        · have hm : ((b, c) : ℕ × ℕ) ∈ mg.map fun e => (e.de, e.para) :=
            List.mem_map.mpr ⟨e, he, by rw [h1, h2]⟩
          have := count_pos_of_mem hm
          omega
        · have hm : ((c, b) : ℕ × ℕ) ∈ mg.map fun e => (e.de, e.para) :=
            List.mem_map.mpr ⟨e, he, by rw [h1, h2]⟩
          have := count_pos_of_mem hm
          omega
      have h2 := hcnt b c
      rw [hC b c] at h2
      have hb0 : (adj2.getD b []).count c = 0 := by
        rw [(hmem b ih).1]
        rfl
      have hppos : 0 < parCnt W b c := by omega
      exact (parCnt_pos_mem W b c hppos).2
  have hcov : ∀ x, x < numV → adj2.getD x [] = [] :=
    fun x hx => (hmem x (hWmem x hx)).1
  have hT2 : totalAdj adj2 = 0 := by
    apply totalAdj_nil_rows
    intro i hi
    apply hcov
    rw [← hboa2.len]
    exact hi
  refine ⟨?_, ?_, ?_, ?_, ?_⟩
  · rw [hrun, List.head?_reverse]
    exact hWl
  · rw [hrun, List.getLast?_reverse]
    exact hWh
  · rw [hrun, List.length_reverse]
    omega
  · intro x y
    rw [hrun, parCnt_reverse]
    have h1 := hcnt x y
    rw [hC x y] at h1
    have hx0 : (adj2.getD x []).count y = 0 := by
      by_cases hx : x < numV
      · rw [hcov x hx]
        rfl
      · rw [getD_fora adj2 x [] (by rw [hboa2.len]; omega)]
        rfl
    omega
  · intro x
    rw [hrun, List.mem_reverse]
    exact ⟨fun hxW => (hmem x hxW).2, hWmem x⟩

/-- C4: given the multiset union of spanning-tree and matching edges — an edge
list over vertices `0..numV-1` without self-loops in which every vertex has even
degree and which is connected from the start vertex — the circuit returned by
`encontrarCicloEuleriano` starts and ends at the start vertex (closed), has
length equal to the multigraph edge count plus one, and traverses every edge of
the multigraph exactly once: for every pair of vertices, the number of
consecutive steps of the circuit joining them equals the multiplicity of that
edge in the multigraph. -/
theorem cicloEuleriano_usa_cada_aresta (mg : List Aresta) (numV inicio : ℕ)
    (hini : inicio < numV)
    (hmg : ∀ e ∈ mg, e.de < numV ∧ e.para < numV ∧ e.de ≠ e.para)
    (heven : ∀ x, x < numV → grauMG mg x % 2 = 0)
    (hconn : ∀ x, x < numV → Ligado mg inicio x) :
    (encontrarCicloEuleriano mg numV inicio).head? = some inicio ∧
    (encontrarCicloEuleriano mg numV inicio).getLast? = some inicio ∧
    (encontrarCicloEuleriano mg numV inicio).length = mg.length + 1 ∧
    (∀ x y, parCnt (encontrarCicloEuleriano mg numV inicio) x y = cntMG mg x y) := by
  obtain ⟨h1, h2, h3, h4, _⟩ := cicloEulerianoRun mg numV inicio hini hmg heven hconn
  exact ⟨h1, h2, h3, h4⟩

def multigrafoTriangulo : List Aresta :=
  [⟨0, 1, Custo.fin 1⟩, ⟨1, 2, Custo.fin 1⟩, ⟨2, 0, Custo.fin 1⟩]

/-- Witness for C4 on the triangle multigraph: the returned circuit is closed
at vertex 0, has four vertices, and uses each of the three edges once. -/
theorem cicloEuleriano_usa_cada_aresta_witness :
    (encontrarCicloEuleriano multigrafoTriangulo 3 0).head? = some 0 ∧
    (encontrarCicloEuleriano multigrafoTriangulo 3 0).getLast? = some 0 ∧
    (encontrarCicloEuleriano multigrafoTriangulo 3 0).length = 3 + 1 ∧
    (∀ x y, parCnt (encontrarCicloEuleriano multigrafoTriangulo 3 0) x y
      = cntMG multigrafoTriangulo x y) := by
  have hconn : ∀ x, x < 3 → Ligado multigrafoTriangulo 0 x := by
    intro x hx
    interval_cases x
    · exact Ligado.refl 0
    · exact Ligado.passo (Ligado.refl 0)
        ⟨⟨0, 1, Custo.fin 1⟩, by decide, Or.inl ⟨rfl, rfl⟩⟩
    · exact Ligado.passo (Ligado.passo (Ligado.refl 0)
        ⟨⟨0, 1, Custo.fin 1⟩, by decide, Or.inl ⟨rfl, rfl⟩⟩)
        ⟨⟨1, 2, Custo.fin 1⟩, by decide, Or.inl ⟨rfl, rfl⟩⟩
  exact cicloEuleriano_usa_cada_aresta multigrafoTriangulo 3 0 (by decide)
    (by decide) (by decide) hconn

/-! ## The input parser (`parseInput`, lines 4-29)

The JS string operations (`trim`, `split('\n')`, `split(/\s+/)`,
`parseInt(s,10)`, `Number(s)`) are modelled over the character list of the
input.  JS `Number` values are rationals here, as everywhere in this
development. -/

def espacoJS (c : Char) : Bool :=
  c == ' ' || c == '\t' || c == '\n' || c == '\r'

/-- `String.prototype.trim`. -/
def aparar (l : List Char) : List Char :=
  ((l.dropWhile espacoJS).reverse.dropWhile espacoJS).reverse

/-- `split('\n')`: keeps empty segments, `[""]` on the empty string. -/
def quebrar : List Char → List (List Char)
  | [] => [[]]
  | c :: resto =>
    if c == '\n' then [] :: quebrar resto
    else
      match quebrar resto with
      | [] => [[c]]
      | seg :: segs => (c :: seg) :: segs

def palavrasAux : List Char → List Char → List (List Char)
  | [], atual => if atual.isEmpty then [] else [atual.reverse]
  | c :: resto, atual =>
    if espacoJS c then
      if atual.isEmpty then palavrasAux resto []
      else atual.reverse :: palavrasAux resto []
    else palavrasAux resto (c :: atual)

/-- `split(/\s+/)` on an already-trimmed string: the whitespace-separated
tokens; `[""]` on the empty string. -/
def palavras (l : List Char) : List (List Char) :=
  if l.isEmpty then [[]] else palavrasAux l []

def digito (c : Char) : Bool := decide ('0' ≤ c) && decide (c ≤ '9')

def valorDigito (c : Char) : ℕ := c.toNat - 48

def digitosValor (l : List Char) : ℕ := l.foldl (fun acc c => 10 * acc + valorDigito c) 0

def digitosPrefixo (l : List Char) : Option ℕ :=
  let ds := l.takeWhile digito
  if ds.isEmpty then none else some (digitosValor ds)

/-- `parseInt(s, 10)` on an already-trimmed string: optional sign, then the
maximal leading digit run; NaN (`none`) when there is none. -/
def jsParseInt : List Char → Option ℤ
  | '-' :: resto => (digitosPrefixo resto).map (fun v => -(v : ℤ))
  | '+' :: resto => (digitosPrefixo resto).map (fun v => (v : ℤ))
  | l => (digitosPrefixo l).map (fun v => (v : ℤ))

def digitosTodos (l : List Char) : Option ℕ :=
  if l.isEmpty then none
  else if l.all digito then some (digitosValor l) else none

def hexDigito (c : Char) : Bool :=
  digito c || (decide ('a' ≤ c) && decide (c ≤ 'f'))
    || (decide ('A' ≤ c) && decide (c ≤ 'F'))

def valorHexDigito (c : Char) : ℕ :=
  if digito c then c.toNat - 48
  else if decide ('a' ≤ c) && decide (c ≤ 'f') then c.toNat - 87
  else c.toNat - 55

def baseValor (base : ℕ) (l : List Char) : ℕ :=
  l.foldl (fun acc c => base * acc + valorHexDigito c) 0

def baseTodos (base : ℕ) (pred : Char → Bool) (l : List Char) : Option ℕ :=
  if l.isEmpty then none
  else if l.all pred then some (baseValor base l) else none

def octDigito (c : Char) : Bool := decide ('0' ≤ c) && decide (c ≤ '7')

def binDigito (c : Char) : Bool := c == '0' || c == '1'

/-- The decimal (or `Infinity`) grammar accepted by JS `Number` after the
optional sign: the exact string `Infinity`, or
`digits [. digits] [(e|E) [+|-] digits]` with at least one mantissa digit;
anything else is NaN. -/
def decimalOuInfinito (l : List Char) : Custo :=
  if l = "Infinity".data then Custo.inf
  else
    let di := l.takeWhile digito
    let r1 := l.drop di.length
    let par : List Char × List Char :=
      match r1 with
      | '.' :: r2 => (r2.takeWhile digito, r2.drop (r2.takeWhile digito).length)
      | _ => ([], r1)
    let df := par.1
    let r3 := par.2
    if di.isEmpty && df.isEmpty then Custo.nan
    else
      let mant : ℚ :=
        if df.isEmpty then (digitosValor di : ℚ)
        else (digitosValor di : ℚ) + (digitosValor df : ℚ) / ((10 : ℚ) ^ df.length)
      match r3 with
      | [] => Custo.fin mant
      | e :: r4 =>
        if e == 'e' || e == 'E' then
          match r4 with
          | '+' :: r5 =>
            match digitosTodos r5 with
            | some k => Custo.fin (mant * (10 : ℚ) ^ k)
            | none => Custo.nan
          | '-' :: r5 =>
            match digitosTodos r5 with
            | some k => Custo.fin (mant / (10 : ℚ) ^ k)
            | none => Custo.nan
          | r5 =>
            match digitosTodos r5 with
            | some k => Custo.fin (mant * (10 : ℚ) ^ k)
            | none => Custo.nan
        else Custo.nan

def negCusto : Custo → Custo
  | Custo.fin q => Custo.fin (-q)
  | Custo.inf => Custo.neginf
  | Custo.neginf => Custo.inf
  | Custo.nan => Custo.nan

/-- JS `Number(s)` for a whitespace-free token: the empty string is 0; an
optional sign applies to the decimal/`Infinity` grammar; unsigned tokens may
also use the `0x`/`0o`/`0b` integer prefixes. -/
def jsNumber (l : List Char) : Custo :=
  match l with
  | [] => Custo.fin 0
  | '+' :: r => decimalOuInfinito r
  | '-' :: r => negCusto (decimalOuInfinito r)
  | '0' :: 'x' :: r =>
    match baseTodos 16 hexDigito r with
    | some v => Custo.fin v
    | none => Custo.nan
  | '0' :: 'X' :: r =>
    match baseTodos 16 hexDigito r with
    | some v => Custo.fin v
    | none => Custo.nan
  | '0' :: 'o' :: r =>
    match baseTodos 8 octDigito r with
    | some v => Custo.fin v
    | none => Custo.nan
  | '0' :: 'O' :: r =>
    match baseTodos 8 octDigito r with
    | some v => Custo.fin v
    | none => Custo.nan
  | '0' :: 'b' :: r =>
    match baseTodos 2 binDigito r with
    | some v => Custo.fin v
    | none => Custo.nan
  | '0' :: 'B' :: r =>
    match baseTodos 2 binDigito r with
    | some v => Custo.fin v
    | none => Custo.nan
  | l2 => decimalOuInfinito l2

def linhasDe (texto : List Char) : List (List Char) := quebrar (aparar texto)

def matrizDe (texto : List Char) : List (List Custo) :=
  (linhasDe texto).tail.map (fun linha => (palavras (aparar linha)).map jsNumber)

/-- `parseInput` (lines 4-29): trim and split into lines, read N with
`parseInt`, map each remaining line through trim / whitespace split /
`Number`, validate the dimensions and the NaN check, and return the graph
with vertex ids `0..n-1`. -/
def parseInput (texto : List Char) : Except Erro Grafo :=
  let linhas := linhasDe texto
  if linhas.length < 2 then .error .entradaMalformada
  else
    match jsParseInt (aparar (linhas.headD [])) with
    | none => .error .entradaMalformada
    | some z =>
      if z ≤ 0 then .error .entradaMalformada
      else
        let matriz := matrizDe texto
        if matriz.length ≠ z.toNat
            ∨ (∃ l ∈ matriz, l.length ≠ z.toNat ∨ Custo.nan ∈ l) then
          .error .entradaMalformada
        else .ok ⟨List.range z.toNat, matriz⟩

/-- C6 counterexample: the cell `Infinity` is not a well-formed *finite*
number, yet the parser accepts the input and returns a graph containing the
`Infinity` entry — `Number("Infinity")` is not NaN and the code only checks
`isNaN`. -/
theorem parseInput_counterexample :
    parseInput ("2\n0 Infinity\nInfinity 0").data
      = .ok ⟨[0, 1], [[Custo.fin 0, Custo.inf], [Custo.inf, Custo.fin 0]]⟩ := by
  decide

/-- C6 (amended): `parseInput` fails with the malformed-input error exactly
when the trimmed input has fewer than two lines, or `parseInt` finds no digit
prefix in the first line or a non-positive value, or the row count or some
row length differs from N, or some cell parses to NaN under JS `Number` —
non-finite cells such as `Infinity` and numeric prefixes such as `3.9` for N
are accepted; on every other input it returns the graph. -/
theorem parseInput_amended (texto : List Char) :
    parseInput texto = .error .entradaMalformada ↔
      ((linhasDe texto).length < 2 ∨
        jsParseInt (aparar ((linhasDe texto).headD [])) = none ∨
        (∃ z, jsParseInt (aparar ((linhasDe texto).headD [])) = some z ∧ z ≤ 0) ∨
        (∃ z, jsParseInt (aparar ((linhasDe texto).headD [])) = some z ∧ 0 < z ∧
          ((matrizDe texto).length ≠ z.toNat ∨
            ∃ l ∈ matrizDe texto, l.length ≠ z.toNat ∨ Custo.nan ∈ l))) := by
  have hrun : parseInput texto = (if (linhasDe texto).length < 2
      then (.error .entradaMalformada : Except Erro Grafo)
      else match jsParseInt (aparar ((linhasDe texto).headD [])) with
        | none => .error .entradaMalformada
        | some z =>
          if z ≤ 0 then .error .entradaMalformada
          else if (matrizDe texto).length ≠ z.toNat
              ∨ (∃ l ∈ matrizDe texto, l.length ≠ z.toNat ∨ Custo.nan ∈ l)
            then .error .entradaMalformada
            else .ok ⟨List.range z.toNat, matrizDe texto⟩) := rfl
  by_cases h1 : (linhasDe texto).length < 2
  · rw [if_pos h1] at hrun
    rw [hrun]
    simp [h1]
  · rw [if_neg h1] at hrun
    cases hz : jsParseInt (aparar ((linhasDe texto).headD [])) with
    | none =>
      rw [hz] at hrun
      have hrun2 : parseInput texto = .error .entradaMalformada := hrun
      rw [hrun2]
      simp [h1, hz]
    | some z =>
      rw [hz] at hrun
      have hrun2 : parseInput texto = (if z ≤ 0
          then (.error .entradaMalformada : Except Erro Grafo)
          else if (matrizDe texto).length ≠ z.toNat
              ∨ (∃ l ∈ matrizDe texto, l.length ≠ z.toNat ∨ Custo.nan ∈ l)
            then .error .entradaMalformada
            else .ok ⟨List.range z.toNat, matrizDe texto⟩) := hrun
      by_cases h2 : z ≤ 0
      · rw [if_pos h2] at hrun2
        rw [hrun2]
        constructor
        · intro _
          exact Or.inr (Or.inr (Or.inl ⟨z, rfl, h2⟩))
        · intro _
          rfl
      · rw [if_neg h2] at hrun2
        by_cases h3 : (matrizDe texto).length ≠ z.toNat
            ∨ (∃ l ∈ matrizDe texto, l.length ≠ z.toNat ∨ Custo.nan ∈ l)
        · rw [if_pos h3] at hrun2
          rw [hrun2]
          constructor
          · intro _
            exact Or.inr (Or.inr (Or.inr ⟨z, rfl, by omega, h3⟩))
          · intro _
            rfl
        · rw [if_neg h3] at hrun2
          rw [hrun2]
          constructor
          · intro hcontra
            cases hcontra
          · intro hdisj
            exfalso
            rcases hdisj with h | h | h | h
            · exact h1 h
            · cases h
            · obtain ⟨z2, hz2, hle⟩ := h
              have hzz : z = z2 := Option.some.inj hz2
              omega
            · obtain ⟨z2, hz2, hpos, hbad⟩ := h
              have hzz : z = z2 := Option.some.inj hz2
              rw [← hzz] at hbad
              exact h3 hbad

/-! ## Support for the whole-pipeline claim -/

lemma incrementar_getD (g : List ℕ) (i x : ℕ) (hi : i < g.length) :
    (incrementar g i).getD x 0 = g.getD x 0 + (if x = i then 1 else 0) := by
  unfold incrementar
  by_cases hx : x = i
  · rw [hx, if_pos rfl, getD_set_self g i _ 0 hi]
  · rw [if_neg hx, getD_set_other g i x _ 0 (fun hh => hx hh.symm)]
    omega

lemma grausFold_getD : ∀ (l : List Aresta) (g : List ℕ),
    (∀ e ∈ l, e.de < g.length ∧ e.para < g.length) → ∀ x,
    (l.foldl (fun g a => incrementar (incrementar g a.de) a.para) g).getD x 0
      = g.getD x 0 + grauMG l x := by
  intro l
  induction l with
  | nil =>
    intro g _ x
    unfold grauMG
    simp
  | cons a t ih =>
    intro g hb x
    have hde : a.de < g.length := (hb a (by simp)).1
    have hpara : a.para < (incrementar g a.de).length := by
      rw [length_incrementar]
      exact (hb a (by simp)).2
    rw [List.foldl_cons,
      ih _ (fun e he => by
        rw [length_incrementar, length_incrementar]
        exact hb e (by simp [he])) x,
      incrementar_getD _ _ _ hpara, incrementar_getD _ _ _ hde, grauMG_cons,
      count_nat_singleton, count_nat_singleton]
    by_cases h1 : x = a.de <;> by_cases h2 : x = a.para <;> simp [h1, h2] <;> omega

lemma grausDe_getD (agm : List Aresta) (n : ℕ)
    (hend : ∀ e ∈ agm, e.de < n ∧ e.para < n) (x : ℕ) (hx : x < n) :
    (grausDe agm n).getD x 0 = grauMG agm x := by
  unfold grausDe
  rw [grausFold_getD agm (List.replicate n 0) (by simpa using hend) x,
    getD_replicate, if_pos hx]
  omega

lemma mem_impares (agm : List Aresta) (n x : ℕ)
    (hend : ∀ e ∈ agm, e.de < n ∧ e.para < n) :
    x ∈ encontrarVerticesGrauImpar agm n ↔ (x < n ∧ grauMG agm x % 2 = 1) := by
  unfold encontrarVerticesGrauImpar
  rw [List.mem_filter, List.mem_range]
  constructor
  · rintro ⟨hx, hf⟩
    refine ⟨hx, ?_⟩
    rw [grausDe_getD agm n hend x hx] at hf
    simp at hf
    omega
  · rintro ⟨hx, hodd⟩
    refine ⟨hx, ?_⟩
    rw [grausDe_getD agm n hend x hx]
    simp
    omega

lemma impares_nodup (agm : List Aresta) (n : ℕ) :
    (encontrarVerticesGrauImpar agm n).Nodup :=
  (List.nodup_range n).filter _

lemma impares_sub (agm : List Aresta) (n : ℕ) :
    ∀ x ∈ encontrarVerticesGrauImpar agm n, x < n := by
  intro x hx
  unfold encontrarVerticesGrauImpar at hx
  rw [List.mem_filter, List.mem_range] at hx
  exact hx.1

/-- Even length of the odd-degree list (the C7 fact, as a reusable lemma). -/
lemma impares_par (agm : List Aresta) (n : ℕ)
    (h : ∀ e ∈ agm, e.de < n ∧ e.para < n) :
    Even (encontrarVerticesGrauImpar agm n).length := by
  have h1 := countP_range_getD (grausDe agm n) (fun x => x % 2 != 0)
  rw [grausDe_length agm n] at h1
  rw [encontrarVerticesGrauImpar, ← List.countP_eq_length_filter, h1]
  have hmod := countP_odd_mod_two (grausDe agm n)
  rw [grausDe_sum agm n h] at hmod
  rw [Nat.even_iff]
  omega

lemma dedupPrimeiro_mem : ∀ (l vistos : List ℕ) (x : ℕ),
    x ∈ dedupPrimeiro vistos l ↔ (x ∈ l ∧ x ∉ vistos) := by
  intro l
  induction l with
  | nil =>
    intro vistos x
    simp [dedupPrimeiro]
  | cons a t ih =>
    intro vistos x
    unfold dedupPrimeiro
    by_cases ha : a ∈ vistos
    · rw [if_pos ha, ih]
      constructor
      · rintro ⟨h1, h2⟩
        exact ⟨by simp [h1], h2⟩
      · rintro ⟨h1, h2⟩
        rcases List.mem_cons.mp h1 with h3 | h3
        · exact absurd (h3 ▸ ha) h2
        · exact ⟨h3, h2⟩
    · rw [if_neg ha]
      constructor
      · intro h1
        rcases List.mem_cons.mp h1 with h3 | h3
        · exact ⟨by simp [h3], by rw [h3]; exact ha⟩
        · obtain ⟨h4, h5⟩ := (ih (a :: vistos) x).mp h3
          exact ⟨by simp [h4], fun hh => h5 (by simp [hh])⟩
      · rintro ⟨h1, h2⟩
        rcases List.mem_cons.mp h1 with h3 | h3
        · rw [h3]
          exact List.mem_cons_self a _
        · by_cases hxa : x = a
          · rw [hxa]
            exact List.mem_cons_self a _
          · refine List.mem_cons_of_mem a ((ih (a :: vistos) x).mpr ⟨h3, ?_⟩)
            intro hh
            rcases List.mem_cons.mp hh with h4 | h4
            · exact hxa h4
            · exact h2 h4

lemma dedupPrimeiro_sem_repeticao : ∀ (l vistos : List ℕ),
    (dedupPrimeiro vistos l).Nodup := by
  intro l
  induction l with
  | nil =>
    intro vistos
    exact List.nodup_nil
  | cons a t ih =>
    intro vistos
    unfold dedupPrimeiro
    by_cases ha : a ∈ vistos
    · rw [if_pos ha]
      exact ih vistos
    · rw [if_neg ha]
      rw [List.nodup_cons]
      refine ⟨?_, ih (a :: vistos)⟩
      intro hmem
      exact ((dedupPrimeiro_mem t (a :: vistos) a).mp hmem).2 (List.mem_cons_self a _)

lemma dedupPrimeiro_head (l : List ℕ) (h : ℕ) (hh : l.head? = some h) :
    (dedupPrimeiro [] l).head? = some h := by
  cases l with
  | nil => cases hh
  | cons a t =>
    have ha : a = h := Option.some.inj hh
    show (if a ∈ ([] : List ℕ) then dedupPrimeiro [] t
      else a :: dedupPrimeiro [a] t).head? = some h
    rw [if_neg (by simp), List.head?_cons, ha]

lemma extremos_count (l : List Aresta) (x : ℕ) : (extremos l).count x = grauMG l x := by
  induction l with
  | nil => rfl
  | cons e t ih =>
    rw [extremos_cons, count_cons_split x e.de, count_cons_split x e.para, ih, grauMG_cons]
    omega

lemma grauMG_append (l1 l2 : List Aresta) (x : ℕ) :
    grauMG (l1 ++ l2) x = grauMG l1 x + grauMG l2 x := by
  unfold grauMG
  rw [List.map_append, List.map_append, List.count_append, List.count_append]
  omega

lemma get_opt_getD {α : Type} (l : List α) (i : ℕ) (d : α) (h : i < l.length) :
    l.get? i = some (l.getD i d) := by
  rw [List.get?_eq_getElem?, List.getElem?_eq_getElem h, List.getD_eq_getElem?_getD,
    List.getElem?_eq_getElem h]
  rfl

lemma custoCaminho_ok (matriz : List (List Custo)) (n : ℕ)
    (hquad : MatrizQuadrada matriz n) :
    ∀ (l : List ℕ) (acc : Custo), (∀ v ∈ l, v < n) →
      ∃ c, custoCaminhoAux matriz l acc = .ok c := by
  intro l
  induction l with
  | nil =>
    intro acc _
    exact ⟨acc, rfl⟩
  | cons de resto ih =>
    intro acc hb
    cases resto with
    | nil => exact ⟨acc, rfl⟩
    | cons para resto2 =>
      have hde : de < matriz.length := by
        rw [hquad.1]
        exact hb de (by simp)
      have hgd : matriz.getD de [] = matriz[de] := by
        rw [List.getD_eq_getElem?_getD, List.getElem?_eq_getElem hde]
        rfl
      have hget1 : matriz.get? de = some (matriz.getD de []) :=
        get_opt_getD matriz de [] hde
      have hrowmem : matriz.getD de [] ∈ matriz := by
        rw [hgd]
        exact List.getElem_mem _
      have hpara : para < (matriz.getD de []).length := by
        rw [hquad.2 _ hrowmem]
        exact hb para (by simp)
      have hget2 : (matriz.getD de []).get? para
          = some ((matriz.getD de []).getD para Custo.nan) :=
        get_opt_getD (matriz.getD de []) para Custo.nan hpara
      have h0a : custoCaminhoAux matriz (de :: para :: resto2) acc
          = (match matriz.get? de with
            | none => (.error .arestaInvalida : Except Erro Custo)
            | some linha =>
              match linha.get? para with
              | none => .error .arestaInvalida
              | some c => custoCaminhoAux matriz (para :: resto2) (Custo.add acc c)) := rfl
      rw [hget1] at h0a
      have h0 : custoCaminhoAux matriz (de :: para :: resto2) acc
          = (match (matriz.getD de []).get? para with
            | none => (.error .arestaInvalida : Except Erro Custo)
            | some c => custoCaminhoAux matriz (para :: resto2) (Custo.add acc c)) := h0a
      rw [hget2] at h0
      have h1 : custoCaminhoAux matriz (de :: para :: resto2) acc
          = custoCaminhoAux matriz (para :: resto2)
            (Custo.add acc ((matriz.getD de []).getD para Custo.nan)) := h0
      rw [h1]
      exact ih _ (fun v hv => hb v (by simp [hv]))

/-- Shared success lemma for the MST stage: on a validator-shaped connected
graph the Prim loop succeeds and the final invariant holds with every vertex
included. -/
lemma agm_sucesso (g : Grafo) (hn : 0 < g.vertices.length)
    (hquad : MatrizQuadrada g.matrizAdjacencia g.vertices.length)
    (hconexo : ∀ v, v < g.vertices.length → AlcancavelPos g.matrizAdjacencia 0 v) :
    ∃ st', encontrarAGM g = .ok st'.arestasAGM ∧
      InvMain g.matrizAdjacencia g.vertices.length st' ∧
      st'.naAGM.count true = g.vertices.length ∧
      st'.arestasAGM.length = g.vertices.length - 1 := by
  obtain ⟨m, hm⟩ : ∃ m, g.vertices.length = m + 1 := ⟨g.vertices.length - 1, by omega⟩
  obtain ⟨st1, hps1, hI1, hcnt1, har1⟩ := primeiro_passo g.matrizAdjacencia g.vertices.length hn
  obtain ⟨st', hloopm⟩ := agmLoop_completa g.matrizAdjacencia g.vertices.length hquad hconexo
    m st1 hI1 (by omega)
  have hfull : agmLoop g.matrizAdjacencia g.vertices.length g.vertices.length
      (estadoInicialAGM g.vertices.length) = .ok st' := by
    have hstep : agmLoop g.matrizAdjacencia g.vertices.length (m + 1)
        (estadoInicialAGM g.vertices.length) = .ok st' := by
      show (match agmPasso g.matrizAdjacencia g.vertices.length
          (estadoInicialAGM g.vertices.length) with
        | .error e => (.error e : Except Erro EstadoAGM)
        | .ok s => agmLoop g.matrizAdjacencia g.vertices.length m s) = .ok st'
      rw [hps1]
      exact hloopm
    rw [← hm] at hstep
    exact hstep
  obtain ⟨hI', hcount', hlen'⟩ := agmLoop_total g.matrizAdjacencia g.vertices.length st' hn hfull
  refine ⟨st', ?_, hI', hcount', hlen'⟩
  show (match agmLoop g.matrizAdjacencia g.vertices.length g.vertices.length
      (estadoInicialAGM g.vertices.length) with
    | .error e => (.error e : Except Erro (List Aresta))
    | .ok st => .ok st.arestasAGM) = .ok st'.arestasAGM
  rw [hfull]

/-- The path graph 0-1-2-3: connected through strictly positive finite
entries, but vertices 0 and 3 share no finite entry. -/
def grafoCaminho : Grafo :=
  ⟨[0, 1, 2, 3],
   [[Custo.fin 0, Custo.fin 1, Custo.inf, Custo.inf],
    [Custo.fin 1, Custo.fin 0, Custo.fin 1, Custo.inf],
    [Custo.inf, Custo.fin 1, Custo.fin 0, Custo.fin 1],
    [Custo.inf, Custo.inf, Custo.fin 1, Custo.fin 0]]⟩

lemma head_append_left (l l2 : List ℕ) (h : ℕ) (hh : l.head? = some h) :
    (l ++ l2).head? = some h := by
  cases l with
  | nil => cases hh
  | cons a t => exact hh

/-- C1 counterexample: the path graph is accepted by the validator (the
parser accepts its textual form, the `Infinity` cells included), every vertex
is connected to every other through strictly positive finite entries, yet the
pipeline fails: the spanning tree is the path, its odd-degree vertices 0 and 3
have no finite entry between them, and the greedy matcher throws. -/
theorem solve_hamiltoniano_counterexample :
    parseInput
        ("4\n0 1 Infinity Infinity\n1 0 1 Infinity\nInfinity 1 0 1\nInfinity Infinity 1 0").data
      = .ok grafoCaminho ∧
    0 < grafoCaminho.vertices.length ∧
    MatrizQuadrada grafoCaminho.matrizAdjacencia grafoCaminho.vertices.length ∧
    (∀ v, v < grafoCaminho.vertices.length →
      AlcancavelPos grafoCaminho.matrizAdjacencia 0 v) ∧
    executeChristofidesAlgorithm grafoCaminho = .error .verticesSemPar := by
  refine ⟨by decide, by decide, ⟨by decide, by decide⟩, ?_, by decide⟩
  intro v hv
  have hv4 : v < 4 := hv
  interval_cases v
  · exact AlcancavelPos.refl 0
  · exact AlcancavelPos.passo (AlcancavelPos.refl 0) ⟨1, rfl, by norm_num⟩
  · have h01 : AlcancavelPos grafoCaminho.matrizAdjacencia 0 1 :=
      AlcancavelPos.passo (AlcancavelPos.refl 0) ⟨1, rfl, by norm_num⟩
    exact AlcancavelPos.passo h01 ⟨1, rfl, by norm_num⟩
  · have h01 : AlcancavelPos grafoCaminho.matrizAdjacencia 0 1 :=
      AlcancavelPos.passo (AlcancavelPos.refl 0) ⟨1, rfl, by norm_num⟩
    have h02 : AlcancavelPos grafoCaminho.matrizAdjacencia 0 2 :=
      AlcancavelPos.passo h01 ⟨1, rfl, by norm_num⟩
    exact AlcancavelPos.passo h02 ⟨1, rfl, by norm_num⟩

/-- C1 (amended): on a validator-shaped graph whose first vertex is 0 and in
which every pair of distinct vertices has a strictly positive finite entry (a
complete positive graph), the pipeline succeeds and the Hamiltonian path is a
closed tour through all N vertices: it starts and ends at vertex 0, and with
the final repeat removed it visits every vertex below N exactly once.  (On
merely connected graphs the pipeline can fail: see the path counterexample.) -/
theorem solve_hamiltoniano_amended (g : Grafo) (hn : 0 < g.vertices.length)
    (hquad : MatrizQuadrada g.matrizAdjacencia g.vertices.length)
    (hhead : g.vertices.headD 0 = 0)
    (hcompleto : ∀ i j, i < g.vertices.length → j < g.vertices.length → i ≠ j →
      ∃ q, matGet g.matrizAdjacencia i j = Custo.fin q ∧ 0 < q) :
    ∃ res, executeChristofidesAlgorithm g = .ok res ∧
      res.cicloHamiltoniano.1.head? = some 0 ∧
      res.cicloHamiltoniano.1.getLast? = some 0 ∧
      res.cicloHamiltoniano.1.dropLast.Nodup ∧
      (∀ v, v ∈ res.cicloHamiltoniano.1.dropLast ↔ v < g.vertices.length) := by
  have hconexo : ∀ v, v < g.vertices.length → AlcancavelPos g.matrizAdjacencia 0 v := by
    intro v hv
    by_cases hv0 : v = 0
    · rw [hv0]
      exact AlcancavelPos.refl 0
    · obtain ⟨q, hq, hqpos⟩ := hcompleto 0 v hn hv (fun hh => hv0 hh.symm)
      exact AlcancavelPos.passo (AlcancavelPos.refl 0) ⟨q, hq, hqpos⟩
  obtain ⟨st, hagm, hInv, hcount, hlenc⟩ := agm_sucesso g hn hquad hconexo
  have harestas : ∀ e ∈ st.arestasAGM, e.de < g.vertices.length
      ∧ e.para < g.vertices.length ∧ e.de ≠ e.para := by
    intro e he
    obtain ⟨h1, h2, h3, _⟩ := hInv.arestas_spec e he
    exact ⟨h1, h2, h3⟩
  have harestas2 : ∀ e ∈ st.arestasAGM, e.de < g.vertices.length
      ∧ e.para < g.vertices.length :=
    fun e he => ⟨(harestas e he).1, (harestas e he).2.1⟩
  have hlig : ∀ v, v < g.vertices.length → Ligado st.arestasAGM 0 v := by
    intro v hv
    have hall := all_true_of_count_eq st.naAGM (by rw [hInv.len_na]; exact hcount)
    exact hInv.na_ligado v hv (hall v (by rw [hInv.len_na]; exact hv))
  have hnodup := impares_nodup st.arestasAGM g.vertices.length
  have hsub := impares_sub st.arestasAGM g.vertices.length
  have heven := impares_par st.arestasAGM g.vertices.length harestas2
  have hdedup : dedupPrimeiro []
        (encontrarVerticesGrauImpar st.arestasAGM g.vertices.length)
      = encontrarVerticesGrauImpar st.arestasAGM g.vertices.length :=
    dedupPrimeiro_nodup _ [] hnodup (by intro x _; simp)
  have hfin : ∀ u ∈ encontrarVerticesGrauImpar st.arestasAGM g.vertices.length,
      ∀ v ∈ encontrarVerticesGrauImpar st.arestasAGM g.vertices.length, u ≠ v →
      ∃ q, matGet g.matrizAdjacencia u v = Custo.fin q := by
    intro u hu v hv hne
    obtain ⟨q, hq, _⟩ := hcompleto u v (hsub u hu) (hsub v hv) hne
    exact ⟨q, hq⟩
  obtain ⟨emp, hemprun, hperm, hempspec⟩ := emparelharLoop_spec g.matrizAdjacencia
    (encontrarVerticesGrauImpar st.arestasAGM g.vertices.length).length
    (encontrarVerticesGrauImpar st.arestasAGM g.vertices.length)
    (encontrarVerticesGrauImpar st.arestasAGM g.vertices.length).length
    [] rfl hnodup heven le_rfl hfin
  have hemp : emparelhamentoPerfeitoCustoMinimo
      (encontrarVerticesGrauImpar st.arestasAGM g.vertices.length) g.matrizAdjacencia
      = .ok emp := by
    show emparelharLoop g.matrizAdjacencia
      (dedupPrimeiro [] (encontrarVerticesGrauImpar st.arestasAGM g.vertices.length)).length
      (dedupPrimeiro [] (encontrarVerticesGrauImpar st.arestasAGM g.vertices.length)) []
      = .ok emp
    rw [hdedup, hemprun, List.nil_append]
  have hmg : ∀ e ∈ st.arestasAGM ++ emp, e.de < g.vertices.length
      ∧ e.para < g.vertices.length ∧ e.de ≠ e.para := by
    intro e he
    rcases List.mem_append.mp he with h | h
    · exact harestas e h
    · obtain ⟨h1, h2, h3⟩ := hempspec e h
      exact ⟨hsub _ h1, hsub _ h2, h3⟩
  have hgraupar : ∀ x, x < g.vertices.length →
      grauMG (st.arestasAGM ++ emp) x % 2 = 0 := by
    intro x hx
    rw [grauMG_append]
    have hempdeg : grauMG emp x
        = (encontrarVerticesGrauImpar st.arestasAGM g.vertices.length).count x := by
      rw [← extremos_count, hperm.count_eq]
    by_cases hmemb : x ∈ encontrarVerticesGrauImpar st.arestasAGM g.vertices.length
    · have hodd := ((mem_impares st.arestasAGM g.vertices.length x harestas2).mp hmemb).2
      have hone : (encontrarVerticesGrauImpar st.arestasAGM g.vertices.length).count x
          = 1 := List.count_eq_one_of_mem hnodup hmemb
      rw [hempdeg, hone]
      omega
    · have heven2 : grauMG st.arestasAGM x % 2 = 0 := by
        by_contra hodd
        have h1 : grauMG st.arestasAGM x % 2 = 1 := by omega
        exact hmemb ((mem_impares st.arestasAGM g.vertices.length x harestas2).mpr ⟨hx, h1⟩)
      have hzero : (encontrarVerticesGrauImpar st.arestasAGM g.vertices.length).count x
          = 0 := List.count_eq_zero.mpr hmemb
      rw [hempdeg, hzero]
      omega
  have hligmg : ∀ x, x < g.vertices.length → Ligado (st.arestasAGM ++ emp) 0 x := by
    intro x hx
    exact (hlig x hx).mono (fun e he => List.mem_append_left _ he)
  obtain ⟨hEh, hEl, hElen, hEcnt, hEmem⟩ := cicloEulerianoRun (st.arestasAGM ++ emp)
    g.vertices.length 0 hn hmg hgraupar hligmg
  have hcam_nodup := dedupPrimeiro_sem_repeticao
    (encontrarCicloEuleriano (st.arestasAGM ++ emp) g.vertices.length 0) []
  have hcam_mem : ∀ v, v ∈ dedupPrimeiro []
        (encontrarCicloEuleriano (st.arestasAGM ++ emp) g.vertices.length 0)
      ↔ v < g.vertices.length := by
    intro v
    rw [dedupPrimeiro_mem]
    constructor
    · rintro ⟨h1, _⟩
      exact (hEmem v).mp h1
    · intro hv
      exact ⟨(hEmem v).mpr hv, by simp⟩
  have hcam_head : (dedupPrimeiro []
      (encontrarCicloEuleriano (st.arestasAGM ++ emp) g.vertices.length 0)).head?
      = some 0 := dedupPrimeiro_head _ 0 hEh
  obtain ⟨c, hc⟩ := custoCaminho_ok g.matrizAdjacencia g.vertices.length hquad
    (dedupPrimeiro [] (encontrarCicloEuleriano (st.arestasAGM ++ emp)
      g.vertices.length 0) ++ [0])
    (Custo.fin 0)
    (by
      intro v hv
      rcases List.mem_append.mp hv with h | h
      · exact (hcam_mem v).mp h
      · rw [List.mem_singleton] at h
        rw [h]
        exact hn)
  have hcriar : criarCicloHamiltoniano
      (encontrarCicloEuleriano (st.arestasAGM ++ emp) g.vertices.length 0)
      g.matrizAdjacencia
      = .ok (dedupPrimeiro [] (encontrarCicloEuleriano (st.arestasAGM ++ emp)
          g.vertices.length 0) ++ [0], c) := by
    have h0 : criarCicloHamiltoniano
        (encontrarCicloEuleriano (st.arestasAGM ++ emp) g.vertices.length 0)
        g.matrizAdjacencia
        = (match custoCaminhoAux g.matrizAdjacencia
            (match (dedupPrimeiro [] (encontrarCicloEuleriano (st.arestasAGM ++ emp)
                g.vertices.length 0)).head? with
              | some h => dedupPrimeiro [] (encontrarCicloEuleriano (st.arestasAGM ++ emp)
                  g.vertices.length 0) ++ [h]
              | none => dedupPrimeiro [] (encontrarCicloEuleriano (st.arestasAGM ++ emp)
                  g.vertices.length 0))
            (Custo.fin 0) with
          | .error e => (.error e : Except Erro (List ℕ × Custo))
          | .ok c2 => .ok
              (match (dedupPrimeiro [] (encontrarCicloEuleriano (st.arestasAGM ++ emp)
                  g.vertices.length 0)).head? with
                | some h => dedupPrimeiro [] (encontrarCicloEuleriano (st.arestasAGM ++ emp)
                    g.vertices.length 0) ++ [h]
                | none => dedupPrimeiro [] (encontrarCicloEuleriano (st.arestasAGM ++ emp)
                    g.vertices.length 0), c2)) := rfl
    rw [hcam_head] at h0
    have h1 : criarCicloHamiltoniano
        (encontrarCicloEuleriano (st.arestasAGM ++ emp) g.vertices.length 0)
        g.matrizAdjacencia
        = (match custoCaminhoAux g.matrizAdjacencia
            (dedupPrimeiro [] (encontrarCicloEuleriano (st.arestasAGM ++ emp)
              g.vertices.length 0) ++ [0]) (Custo.fin 0) with
          | .error e => (.error e : Except Erro (List ℕ × Custo))
          | .ok c2 => .ok (dedupPrimeiro [] (encontrarCicloEuleriano (st.arestasAGM ++ emp)
              g.vertices.length 0) ++ [0], c2)) := h0
    rw [hc] at h1
    exact h1
  refine ⟨⟨st.arestasAGM, encontrarVerticesGrauImpar st.arestasAGM g.vertices.length, emp,
    encontrarCicloEuleriano (st.arestasAGM ++ emp) g.vertices.length 0,
    (dedupPrimeiro [] (encontrarCicloEuleriano (st.arestasAGM ++ emp)
      g.vertices.length 0) ++ [0], c)⟩, ?_, ?_, ?_, ?_, ?_⟩
  · have h0 : executeChristofidesAlgorithm g
        = (if g.vertices.length = 0 then (.error .grafoVazio : Except Erro Resultado)
          else match encontrarAGM g with
            | .error e => .error e
            | .ok agm =>
              match emparelhamentoPerfeitoCustoMinimo
                  (encontrarVerticesGrauImpar agm g.vertices.length)
                  g.matrizAdjacencia with
              | .error e => .error e
              | .ok emparelhamento =>
                match criarCicloHamiltoniano
                    (encontrarCicloEuleriano (agm ++ emparelhamento) g.vertices.length
                      (g.vertices.headD 0)) g.matrizAdjacencia with
                | .error e => .error e
                | .ok ch => .ok ⟨agm, encontrarVerticesGrauImpar agm g.vertices.length,
                    emparelhamento, encontrarCicloEuleriano (agm ++ emparelhamento)
                      g.vertices.length (g.vertices.headD 0), ch⟩) := rfl
    rw [if_neg (by omega), hagm] at h0
    have h1 : executeChristofidesAlgorithm g
        = (match emparelhamentoPerfeitoCustoMinimo
              (encontrarVerticesGrauImpar st.arestasAGM g.vertices.length)
              g.matrizAdjacencia with
          | .error e => (.error e : Except Erro Resultado)
          | .ok emparelhamento =>
            match criarCicloHamiltoniano
                (encontrarCicloEuleriano (st.arestasAGM ++ emparelhamento)
                  g.vertices.length (g.vertices.headD 0)) g.matrizAdjacencia with
            | .error e => .error e
            | .ok ch => .ok ⟨st.arestasAGM,
                encontrarVerticesGrauImpar st.arestasAGM g.vertices.length,
                emparelhamento, encontrarCicloEuleriano (st.arestasAGM ++ emparelhamento)
                  g.vertices.length (g.vertices.headD 0), ch⟩) := h0
    rw [hemp, hhead] at h1
    have h2 : executeChristofidesAlgorithm g
        = (match criarCicloHamiltoniano
              (encontrarCicloEuleriano (st.arestasAGM ++ emp) g.vertices.length 0)
              g.matrizAdjacencia with
          | .error e => (.error e : Except Erro Resultado)
          | .ok ch => .ok ⟨st.arestasAGM,
              encontrarVerticesGrauImpar st.arestasAGM g.vertices.length,
              emp, encontrarCicloEuleriano (st.arestasAGM ++ emp) g.vertices.length 0,
              ch⟩) := h1
    rw [hcriar] at h2
    exact h2
  · exact head_append_left _ [0] 0 hcam_head
  · rw [List.getLast?_append]
    rfl
  · rw [List.dropLast_concat]
    exact hcam_nodup
  · intro v
    rw [List.dropLast_concat]
    exact hcam_mem v

/-- C1 witness: the amended theorem applied to the complete positive
4-vertex scenario graph. -/
theorem solve_hamiltoniano_amended_witness :
    ∃ res, executeChristofidesAlgorithm grafoC2 = .ok res ∧
      res.cicloHamiltoniano.1.head? = some 0 ∧
      res.cicloHamiltoniano.1.getLast? = some 0 ∧
      res.cicloHamiltoniano.1.dropLast.Nodup ∧
      (∀ v, v ∈ res.cicloHamiltoniano.1.dropLast ↔ v < grafoC2.vertices.length) := by
  refine solve_hamiltoniano_amended grafoC2 (by decide) ⟨by decide, by decide⟩
    (by decide) ?_
  intro i j hi hj hne
  have hi4 : i < 4 := hi
  have hj4 : j < 4 := hj
  interval_cases i <;> interval_cases j <;>
    first
      | exact absurd rfl hne
      | exact ⟨1, rfl, by norm_num⟩
      | exact ⟨2, rfl, by norm_num⟩
      | exact ⟨3, rfl, by norm_num⟩
      | exact ⟨4, rfl, by norm_num⟩
      | exact ⟨5, rfl, by norm_num⟩
      | exact ⟨6, rfl, by norm_num⟩
